import Mathlib

/-! # Synchronisation primitives of the pthread tutorial

A shallow embedding of the hand-built primitives of the repository
(bounded buffers, counting semaphore, cyclic barrier, reader/writer lock), of
the dining philosophers and of the three-stage file pipeline built on them,
and the properties their specification states about them.

Conventions of the embedding.

* A C `int` field is an `Int`; the counters of these primitives count threads
  and queue slots and stay far away from the limits of the machine type.
* A `void *buffer[8]` array is a function from indices to items.
* A region of code executed while a mutex is held is one atomic step.  A call
  that has to wait (`pthread_cond_wait`, `sem_wait`, a held mutex) does not
  complete in that step: an operation that may wait returns an `Option`, and
  `none` means the caller stays blocked with the shared state unchanged.
-/

namespace TutorialPthread

/-! ## Bounded buffers (bounded_buffer.c and pcbuffer.c inside bfishmt.c) -/

/-- Capacity of the monitor buffer: `#define BOUNDED_BUFFER_SIZE 8`. -/
def BOUNDED_BUFFER_SIZE : Int := 8

/-- Capacity of the semaphore buffer: `#define PCBUFFER_SIZE 8`. -/
def PCBUFFER_SIZE : Int := 8

/-- Array assignment `buffer[i] = v`. -/
def store {α : Type} (buffer : Int → α) (i : Int) (v : α) : Int → α :=
  fun j => if j = i then v else buffer j

/-- The data fields of `bounded_buffer_t` (the mutex and the two condition
variables are represented by the atomicity of the operations). -/
structure bounded_buffer_t (α : Type) where
  buffer : Int → α
  next_in : Int
  next_out : Int
  count : Int

/-- Function `bounded_buffer_init`: resets both indices and the count; the
slots keep whatever they held. -/
def bounded_buffer_init {α : Type} (p : bounded_buffer_t α) : bounded_buffer_t α :=
  { buffer := p.buffer, next_in := 0, next_out := 0, count := 0 }

/-- Function `bounded_buffer_push`: waits while `count == BOUNDED_BUFFER_SIZE`
(result `none`), otherwise stores the item, advances `next_in` modulo the
size and increments `count`. -/
def bounded_buffer_push {α : Type} (p : bounded_buffer_t α) (incoming : α) :
    Option (bounded_buffer_t α) :=
  if p.count = BOUNDED_BUFFER_SIZE then none
  else some
    { buffer := store p.buffer p.next_in incoming
      next_in := Int.tmod (p.next_in + 1) BOUNDED_BUFFER_SIZE
      next_out := p.next_out
      count := p.count + 1 }

/-- Function `bounded_buffer_pop`: waits while `count == 0` (result `none`),
otherwise reads the oldest slot, advances `next_out` modulo the size and
decrements `count`; the second component is `return_value`. -/
def bounded_buffer_pop {α : Type} (p : bounded_buffer_t α) :
    Option (bounded_buffer_t α × α) :=
  if p.count = 0 then none
  else some
    ({ buffer := p.buffer
       next_in := p.next_in
       next_out := Int.tmod (p.next_out + 1) BOUNDED_BUFFER_SIZE
       count := p.count - 1 },
     p.buffer p.next_out)

/-- POSIX `sem_wait` on a semaphore value: blocks (`none`) at zero, otherwise
decrements. -/
def sem_wait (v : Nat) : Option Nat :=
  if v = 0 then none else some (v - 1)

/-- POSIX `sem_post` on a semaphore value. -/
def sem_post (v : Nat) : Nat := v + 1

/-- The data fields of `pcbuffer_t`; `used` and `free` are the values of the
two POSIX semaphores. -/
structure pcbuffer_t (α : Type) where
  buffer : Int → α
  used : Nat
  free : Nat
  next_in : Int
  next_out : Int

/-- Function `pcbuffer_init`: `used` starts at 0, `free` at `PCBUFFER_SIZE`,
both indices at 0. -/
def pcbuffer_init {α : Type} (p : pcbuffer_t α) : pcbuffer_t α :=
  { buffer := p.buffer, used := 0, free := PCBUFFER_SIZE.toNat, next_in := 0, next_out := 0 }

/-- Function `pcbuffer_push`: `sem_wait(free)`, store the item, increment
`next_in` and wrap it to 0 when it reaches `PCBUFFER_SIZE`, `sem_post(used)`. -/
def pcbuffer_push {α : Type} (p : pcbuffer_t α) (incoming : α) : Option (pcbuffer_t α) :=
  (sem_wait p.free).map fun free =>
    let next_in := p.next_in + 1
    { buffer := store p.buffer p.next_in incoming
      used := sem_post p.used
      free := free
      next_in := if next_in ≥ PCBUFFER_SIZE then 0 else next_in
      next_out := p.next_out }

/-- Function `pcbuffer_pop`: `sem_wait(used)`, read the oldest slot, increment
`next_out` and wrap it to 0 when it reaches `PCBUFFER_SIZE`, `sem_post(free)`. -/
def pcbuffer_pop {α : Type} (p : pcbuffer_t α) : Option (pcbuffer_t α × α) :=
  (sem_wait p.used).map fun used =>
    let next_out := p.next_out + 1
    ({ buffer := p.buffer
       used := used
       free := sem_post p.free
       next_in := p.next_in
       next_out := if next_out ≥ PCBUFFER_SIZE then 0 else next_out },
     p.buffer p.next_out)

/-- A call made on a queue by some thread. -/
inductive Request (α : Type) where
  | push (x : α)
  | pop
  deriving DecidableEq, Repr

/-- What the caller of a request observes. -/
inductive Response (α : Type) where
  | pushed
  | popped (x : α)
  | blocked
  deriving DecidableEq, Repr

/-- The items pushed by a sequence of requests, in order. -/
def pushedItems {α : Type} : List (Request α) → List α
  | [] => []
  | .push x :: rest => x :: pushedItems rest
  | .pop :: rest => pushedItems rest

/-- The number of pop requests in a sequence. -/
def popCount {α : Type} : List (Request α) → Nat
  | [] => 0
  | .push _ :: rest => popCount rest
  | .pop :: rest => popCount rest + 1

/-- An interleaving of completed operations on the monitor buffer: every
operation must complete (`none` when some operation would have to wait at its
turn); the result is the final state and the items returned by the pops. -/
def bounded_buffer_exec {α : Type} (p : bounded_buffer_t α) :
    List (Request α) → Option (bounded_buffer_t α × List α)
  | [] => some (p, [])
  | .push x :: rest =>
      (bounded_buffer_push p x).bind fun q => bounded_buffer_exec q rest
  | .pop :: rest =>
      (bounded_buffer_pop p).bind fun r =>
        (bounded_buffer_exec r.1 rest).map fun t => (t.1, r.2 :: t.2)

/-- An interleaving of completed operations on the semaphore buffer. -/
def pcbuffer_exec {α : Type} (p : pcbuffer_t α) :
    List (Request α) → Option (pcbuffer_t α × List α)
  | [] => some (p, [])
  | .push x :: rest =>
      (pcbuffer_push p x).bind fun q => pcbuffer_exec q rest
  | .pop :: rest =>
      (pcbuffer_pop p).bind fun r =>
        (pcbuffer_exec r.1 rest).map fun t => (t.1, r.2 :: t.2)

/-- The interleaving in which every push is followed at once by a pop. -/
def alternating {α : Type} : List α → List (Request α)
  | [] => []
  | x :: xs => .push x :: .pop :: alternating xs

/-- One request served by the monitor buffer; a request that has to wait is
answered `blocked` and leaves the buffer as it was. -/
def bounded_buffer_serve {α : Type} (p : bounded_buffer_t α) :
    Request α → bounded_buffer_t α × Response α
  | .push x =>
      match bounded_buffer_push p x with
      | some q => (q, .pushed)
      | none => (p, .blocked)
  | .pop =>
      match bounded_buffer_pop p with
      | some r => (r.1, .popped r.2)
      | none => (p, .blocked)

/-- One request served by the semaphore buffer. -/
def pcbuffer_serve {α : Type} (p : pcbuffer_t α) :
    Request α → pcbuffer_t α × Response α
  | .push x =>
      match pcbuffer_push p x with
      | some q => (q, .pushed)
      | none => (p, .blocked)
  | .pop =>
      match pcbuffer_pop p with
      | some r => (r.1, .popped r.2)
      | none => (p, .blocked)

/-- A sequence of requests served in order by the monitor buffer. -/
def bounded_buffer_serveAll {α : Type} (p : bounded_buffer_t α) :
    List (Request α) → bounded_buffer_t α × List (Response α)
  | [] => (p, [])
  | r :: rest =>
      let a := bounded_buffer_serve p r
      let b := bounded_buffer_serveAll a.1 rest
      (b.1, a.2 :: b.2)

/-- A sequence of requests served in order by the semaphore buffer. -/
def pcbuffer_serveAll {α : Type} (p : pcbuffer_t α) :
    List (Request α) → pcbuffer_t α × List (Response α)
  | [] => (p, [])
  | r :: rest =>
      let a := pcbuffer_serve p r
      let b := pcbuffer_serveAll a.1 rest
      (b.1, a.2 :: b.2)

/-- The items held by the monitor buffer, oldest first: the `count` slots
starting at `next_out`, read cyclically. -/
def bounded_buffer_contents {α : Type} (p : bounded_buffer_t α) : List α :=
  (List.range p.count.toNat).map fun (i : Nat) => p.buffer ((p.next_out + (i : Int)) % 8)

/-- Representation invariant of the monitor buffer. -/
def bounded_buffer_ok {α : Type} (p : bounded_buffer_t α) : Prop :=
  0 ≤ p.count ∧ p.count ≤ 8 ∧ 0 ≤ p.next_out ∧ p.next_out < 8 ∧
    p.next_in = (p.next_out + p.count) % 8

/-- The simulation relation between the two variants: `used = count`,
`free = 8 - count`, equal indices and equal slots. -/
def Sim {α : Type} (p : pcbuffer_t α) (b : bounded_buffer_t α) : Prop :=
  (p.used : Int) = b.count ∧ (p.free : Int) = 8 - b.count ∧
    p.next_in = b.next_in ∧ p.next_out = b.next_out ∧ p.buffer = b.buffer

/-- The states of the monitor buffer reachable from an initialised buffer by
completed pushes and pops. -/
inductive bounded_buffer_reachable {α : Type} : bounded_buffer_t α → Prop where
  | init (p : bounded_buffer_t α) : bounded_buffer_reachable (bounded_buffer_init p)
  | push {p q : bounded_buffer_t α} (x : α) :
      bounded_buffer_reachable p → bounded_buffer_push p x = some q →
      bounded_buffer_reachable q
  | pop {p : bounded_buffer_t α} {r : bounded_buffer_t α × α} :
      bounded_buffer_reachable p → bounded_buffer_pop p = some r →
      bounded_buffer_reachable r.1


/-- The monitor buffer `p` holds exactly `n` more items before a further push
blocks: `n` successive pushes of `x` complete and one more has to wait. -/
def bounded_buffer_holds {α : Type} (p : bounded_buffer_t α) (x : α) (n : Nat) : Bool :=
  (bounded_buffer_exec p (List.replicate n (.push x))).isSome &&
    (bounded_buffer_exec p (List.replicate (n + 1) (.push x))).isNone

/-- The semaphore buffer `p` holds exactly `n` more items before a further
push blocks. -/
def pcbuffer_holds {α : Type} (p : pcbuffer_t α) (x : α) (n : Nat) : Bool :=
  (pcbuffer_exec p (List.replicate n (.push x))).isSome &&
    (pcbuffer_exec p (List.replicate (n + 1) (.push x))).isNone

/-- A buffer object before initialisation, all fields zero. -/
def bounded_buffer_zero : bounded_buffer_t Nat :=
  { buffer := fun _ => 0, next_in := 0, next_out := 0, count := 0 }

/-- A semaphore buffer object before initialisation, all fields zero. -/
def pcbuffer_zero : pcbuffer_t Nat :=
  { buffer := fun _ => 0, used := 0, free := 0, next_in := 0, next_out := 0 }

/-- A request sequence that meets both blocking conditions: a pop on the
empty queue, nine pushes, then a pop and a push. -/
def demoRequests : List (Request Nat) :=
  .pop :: (List.range 9).map Request.push ++ [.pop, .push 9]

/-! ## Counting semaphore (sema.c) -/

/-- The data field of `semaphore_t` (the mutex and the condition variable are
represented by the atomicity of the operations). -/
structure semaphore_t where
  raw_count : Int
  deriving DecidableEq, Repr

/-- Function `semaphore_init`: a negative `initial_count` is replaced by 0
before it is stored. -/
def semaphore_init (initial_count : Int) : semaphore_t :=
  let initial_count := if initial_count < 0 then 0 else initial_count
  { raw_count := initial_count }

/-- Function `semaphore_up`: increments `raw_count` under the lock. -/
def semaphore_up (s : semaphore_t) : semaphore_t :=
  { raw_count := s.raw_count + 1 }

/-- Function `semaphore_down`, from the test of its `while` loop on: while
`raw_count == 0` the caller is in `pthread_cond_wait` (result `none`; every
wake-up, signalled or spurious, runs this test again under the lock),
otherwise `raw_count` is decremented and the call returns. -/
def semaphore_down (s : semaphore_t) : Option semaphore_t :=
  if s.raw_count = 0 then none else some { raw_count := s.raw_count - 1 }

/-- What can happen to a semaphore: a call of `semaphore_up`, a call of
`semaphore_down`, and a wake-up (signalled or spurious) of a thread that is
waiting inside `semaphore_down`. -/
inductive SemEvent where
  | up
  | down
  | wake
  deriving DecidableEq, Repr

/-- A semaphore together with the number of threads waiting inside
`semaphore_down`. -/
structure SemSystem where
  sem : semaphore_t
  waiting : Nat
  deriving DecidableEq, Repr

/-- One event on the semaphore; the Boolean tells whether a call of
`semaphore_down` returned in this step. -/
def SemSystem.step (σ : SemSystem) : SemEvent → SemSystem × Bool
  | .up => ({ sem := semaphore_up σ.sem, waiting := σ.waiting }, false)
  | .down =>
      match semaphore_down σ.sem with
      | some s => ({ sem := s, waiting := σ.waiting }, true)
      | none => ({ sem := σ.sem, waiting := σ.waiting + 1 }, false)
  | .wake =>
      if σ.waiting = 0 then (σ, false)
      else
        match semaphore_down σ.sem with
        | some s => ({ sem := s, waiting := σ.waiting - 1 }, true)
        | none => (σ, false)

/-- A finite sequence of events, run in order. -/
def SemSystem.run (σ : SemSystem) : List SemEvent → SemSystem
  | [] => σ
  | e :: es => SemSystem.run (σ.step e).1 es

/-- The system right after `semaphore_init`: nobody waits yet. -/
def SemSystem.init (initial_count : Int) : SemSystem :=
  { sem := semaphore_init initial_count, waiting := 0 }

/-! ## Cyclic barrier (barrier.c) -/

/-- The data fields of `barrier_t` (the mutex and the two condition variables
are represented by the step structure below). -/
structure barrier_t where
  max : Int
  count : Int
  releasing : Int
  wait_needed : Int
  deriving DecidableEq, Repr

/-- Function `barrier_init`: a limit below 1 is replaced by 1. -/
def barrier_init (limit : Int) : barrier_t :=
  let limit := if limit < 1 then 1 else limit
  { max := limit, count := 0, releasing := 0, wait_needed := 0 }

/-- Where a thread stands with respect to `barrier_wait`: not inside a call,
inside `pthread_cond_wait(&b->all_released, ...)` of the first loop, or inside
`pthread_cond_wait(&b->not_enough, ...)` of the second loop. -/
inductive BarrierPc where
  | outside
  | wait_released
  | wait_enough
  deriving DecidableEq, Repr

/-- Part of `barrier_wait` from `++b->count` to the next wait or to the
return: the thread that reaches the limit starts the release and returns
(`outside`); any other thread sets `wait_needed` and, the flag being set,
waits on `not_enough`. -/
def barrier_arrive (b : barrier_t) : barrier_t × BarrierPc :=
  let count := b.count + 1
  if count = b.max then
    ({ max := b.max, count := count - 1, releasing := 1, wait_needed := 0 }, .outside)
  else
    ({ max := b.max, count := count, releasing := b.releasing, wait_needed := 1 },
      .wait_enough)

/-- Part of `barrier_wait` executed by a thread that has the lock at the test
of `while( b->releasing )`, on entry or after a wake-up on `all_released`:
it waits (again) while a release is going on, otherwise it arrives.  The
Boolean tells whether `++b->count` was executed. -/
def barrier_enter (b : barrier_t) : barrier_t × BarrierPc × Bool :=
  if b.releasing ≠ 0 then (b, .wait_released, false)
  else ((barrier_arrive b).1, (barrier_arrive b).2, true)

/-- Part of `barrier_wait` executed by a thread woken (by the broadcast or
spuriously) inside the loop `while( b->wait_needed )`: it waits again while the
flag is set, otherwise it decrements `count`, the last one out clears
`releasing`, and the call returns. -/
def barrier_resume (b : barrier_t) : barrier_t × BarrierPc :=
  if b.wait_needed ≠ 0 then (b, .wait_enough)
  else
    let count := b.count - 1
    if count = 0 then
      ({ max := b.max, count := count, releasing := 0, wait_needed := b.wait_needed }, .outside)
    else
      ({ max := b.max, count := count, releasing := b.releasing,
         wait_needed := b.wait_needed }, .outside)

/-- A barrier shared by the threads `0 .. pc.length - 1`, with two history
counters: the arrivals registered so far (executions of `++b->count`) and the
calls of `barrier_wait` that have returned so far. -/
structure BarrierSystem where
  b : barrier_t
  pc : List BarrierPc
  arrivals : Nat
  returns : Nat
  deriving DecidableEq, Repr

/-- The system after `barrier_init(limit)`, with `threads` threads outside. -/
def BarrierSystem.init (limit : Int) (threads : Nat) : BarrierSystem :=
  { b := barrier_init limit, pc := List.replicate threads .outside, arrivals := 0, returns := 0 }

/-- One step of thread `t`: the region of `barrier_wait` it executes under the
lock, from where it stands to its next wait or to its return.  A thread
outside calls `barrier_wait`; a waiting thread wakes up, signalled or
spuriously, and tests its loop condition again. -/
def BarrierSystem.step (σ : BarrierSystem) (t : Nat) : BarrierSystem :=
  match σ.pc[t]? with
  | none => σ
  | some .wait_enough =>
      let r := barrier_resume σ.b
      { b := r.1, pc := σ.pc.set t r.2, arrivals := σ.arrivals,
        returns := if r.2 = .outside then σ.returns + 1 else σ.returns }
  | some _ =>
      let r := barrier_enter σ.b
      { b := r.1, pc := σ.pc.set t r.2.1,
        arrivals := if r.2.2 then σ.arrivals + 1 else σ.arrivals,
        returns := if r.2.1 = .outside then σ.returns + 1 else σ.returns }

/-- A schedule (the thread that moves at each step), run in order. -/
def BarrierSystem.run (σ : BarrierSystem) : List Nat → BarrierSystem
  | [] => σ
  | t :: ts => BarrierSystem.run (σ.step t) ts

/-- The number of threads waiting on `not_enough`. -/
def BarrierSystem.waiters (σ : BarrierSystem) : Nat :=
  σ.pc.count .wait_enough

/-- Invariant of the barrier system for the limit `n`, with `k` the number of
rounds whose release has started. -/
def BarrierSystem.Inv (n : Int) (σ : BarrierSystem) (k : Nat) : Prop :=
  σ.b.max = n ∧ σ.b.count = (σ.waiters : Int) ∧
  (σ.returns : Int) + σ.b.count = (σ.arrivals : Int) ∧
  σ.b.count < n ∧
  ((σ.b.releasing = 0 ∧ (σ.arrivals : Int) = n * k + σ.b.count ∧
      (0 < σ.b.count → σ.b.wait_needed = 1)) ∨
   (σ.b.releasing = 1 ∧ (σ.arrivals : Int) = n * k ∧ σ.b.wait_needed = 0 ∧
      (2 ≤ n → 0 < σ.b.count)))

/-! ## Reader/writer lock (rwlock.c) -/

/-- The fields of `rw_lock`; a pthread mutex is a lock that at most one party
holds, `true` while it is held. -/
structure rw_lock where
  mutex : Bool
  wrt : Bool
  readcount : Int
  deriving DecidableEq, Repr

/-- Function `rw_init`: both mutexes free, no readers. -/
def rw_init : rw_lock :=
  { mutex := false, wrt := false, readcount := 0 }

/-- The statement a thread executes next.  `rl_*` are the statements of
`read_lock`, `ru_*` those of `read_unlock`, `wl_lock_wrt` is the statement of
`write_lock`; `reading` and `writing` are the states between the return of a
lock call and the matching unlock call (a thread in `writing` executes the
statement of `write_unlock` next); `idle` is outside all of them. -/
inductive RwPc where
  | idle
  | rl_lock_mutex
  | rl_incr
  | rl_test
  | rl_lock_wrt
  | rl_unlock_mutex
  | reading
  | ru_lock_mutex
  | ru_decr
  | ru_test
  | ru_unlock_wrt
  | ru_unlock_mutex
  | wl_lock_wrt
  | writing
  deriving DecidableEq, Repr

/-- What an idle thread calls next. -/
inductive RwCall where
  | read
  | write
  deriving DecidableEq, Repr

/-- One statement of one thread.  A `pthread_mutex_lock` on a held mutex does
not complete: the thread stays where it is.  An idle thread enters
`read_lock` or `write_lock` as told by `c`; a thread calls `read_unlock` only
from `reading` and `write_unlock` only from `writing`. -/
def rw_statement (l : rw_lock) (c : RwCall) : RwPc → rw_lock × RwPc
  | .idle =>
      match c with
      | .read => (l, .rl_lock_mutex)
      | .write => (l, .wl_lock_wrt)
  -- read_lock
  | .rl_lock_mutex =>
      if l.mutex then (l, .rl_lock_mutex)
      else ({ mutex := true, wrt := l.wrt, readcount := l.readcount }, .rl_incr)
  | .rl_incr =>
      ({ mutex := l.mutex, wrt := l.wrt, readcount := l.readcount + 1 }, .rl_test)
  | .rl_test =>
      if l.readcount = 1 then (l, .rl_lock_wrt) else (l, .rl_unlock_mutex)
  | .rl_lock_wrt =>
      if l.wrt then (l, .rl_lock_wrt)
      else ({ mutex := l.mutex, wrt := true, readcount := l.readcount }, .rl_unlock_mutex)
  | .rl_unlock_mutex =>
      ({ mutex := false, wrt := l.wrt, readcount := l.readcount }, .reading)
  -- read_unlock
  | .reading => (l, .ru_lock_mutex)
  | .ru_lock_mutex =>
      if l.mutex then (l, .ru_lock_mutex)
      else ({ mutex := true, wrt := l.wrt, readcount := l.readcount }, .ru_decr)
  | .ru_decr =>
      ({ mutex := l.mutex, wrt := l.wrt, readcount := l.readcount - 1 }, .ru_test)
  | .ru_test =>
      if l.readcount = 0 then (l, .ru_unlock_wrt) else (l, .ru_unlock_mutex)
  | .ru_unlock_wrt =>
      ({ mutex := l.mutex, wrt := false, readcount := l.readcount }, .ru_unlock_mutex)
  | .ru_unlock_mutex =>
      ({ mutex := false, wrt := l.wrt, readcount := l.readcount }, .idle)
  -- write_lock
  | .wl_lock_wrt =>
      if l.wrt then (l, .wl_lock_wrt)
      else ({ mutex := l.mutex, wrt := true, readcount := l.readcount }, .writing)
  -- write_unlock
  | .writing =>
      ({ mutex := l.mutex, wrt := false, readcount := l.readcount }, .idle)

/-- A lock shared by the threads `0 .. pc.length - 1`. -/
structure RwSystem where
  lock : rw_lock
  pc : List RwPc
  deriving DecidableEq, Repr

/-- The system after `rw_init`, with `threads` idle threads. -/
def RwSystem.init (threads : Nat) : RwSystem :=
  { lock := rw_init, pc := List.replicate threads .idle }

/-- One step: thread `t` executes its next statement. -/
def RwSystem.step (σ : RwSystem) (t : Nat) (c : RwCall) : RwSystem :=
  match σ.pc[t]? with
  | none => σ
  | some p =>
      { lock := (rw_statement σ.lock c p).1, pc := σ.pc.set t (rw_statement σ.lock c p).2 }

/-- An interleaving (which thread moves, and what it calls if it is idle), run
in order. -/
def RwSystem.run (σ : RwSystem) : List (Nat × RwCall) → RwSystem
  | [] => σ
  | a :: rest => RwSystem.run (σ.step a.1 a.2) rest

/-- The number of threads at a given statement. -/
def RwSystem.at (σ : RwSystem) (p : RwPc) : Nat :=
  σ.pc.count p

/-- Thread `t` holds write access: returned from `write_lock`, `write_unlock`
not yet called. -/
def RwSystem.holdsWrite (σ : RwSystem) (t : Nat) : Prop :=
  σ.pc[t]? = some .writing

/-- Thread `t` holds read access: returned from `read_lock`, `read_unlock` not
yet called. -/
def RwSystem.holdsRead (σ : RwSystem) (t : Nat) : Prop :=
  σ.pc[t]? = some .reading

/-- The readers hold `wrt` as a group: some reader is between acquiring its
share of the gate and its decrement, or the last reader is about to release
the gate. -/
def RwSystem.readersHold (σ : RwSystem) : Prop :=
  0 < σ.at .rl_unlock_mutex + σ.at .reading + σ.at .ru_lock_mutex + σ.at .ru_decr ∨
    0 < σ.at .ru_unlock_wrt ∨ (0 < σ.at .ru_test ∧ σ.lock.readcount = 0)

/-- Invariant of the reader/writer lock: `mutex` is held exactly by the one
thread inside a critical section, `readcount` counts the threads between their
increment and their decrement, and `wrt` is held either by the one writer or
by the readers as a group. -/
def RwSystem.Inv (σ : RwSystem) : Prop :=
  σ.lock.mutex.toNat =
      σ.at .rl_incr + σ.at .rl_test + σ.at .rl_lock_wrt + σ.at .rl_unlock_mutex +
        σ.at .ru_decr + σ.at .ru_test + σ.at .ru_unlock_wrt + σ.at .ru_unlock_mutex ∧
  σ.lock.readcount =
      ((σ.at .rl_test + σ.at .rl_lock_wrt + σ.at .rl_unlock_mutex + σ.at .reading +
        σ.at .ru_lock_mutex + σ.at .ru_decr : Nat) : Int) ∧
  (0 < σ.at .rl_lock_wrt → σ.lock.readcount = 1) ∧
  (0 < σ.at .ru_unlock_wrt → σ.lock.readcount = 0) ∧
  ((σ.lock.wrt.toNat = σ.at .writing ∧ ¬ σ.readersHold) ∨
    (σ.lock.wrt.toNat = σ.at .writing + 1 ∧ σ.readersHold))

/-- A thread is at rest between two calls: outside (`idle`), or holding read
or write access. -/
def RwPc.atRest : RwPc → Bool
  | .idle => true
  | .reading => true
  | .writing => true
  | _ => false

/-- One whole call executed by a thread while no other thread moves: the
statements of `rw_statement` from `p` on, until the thread is at rest again.
The result is the lock, the place where the thread rests, and the statements
executed in order; `none` when a statement does not complete (a
`pthread_mutex_lock` on a held mutex) or the fuel runs out. -/
def rw_call (c : RwCall) : Nat → rw_lock → RwPc → Option (rw_lock × RwPc × List RwPc)
  | 0, _, _ => none
  | fuel + 1, l, p =>
      if (rw_statement l c p).2 = p then none
      else if (rw_statement l c p).2.atRest then
        some ((rw_statement l c p).1, (rw_statement l c p).2, [p])
      else
        (rw_call c fuel (rw_statement l c p).1 (rw_statement l c p).2).map
          fun x => (x.1, x.2.1, p :: x.2.2)

/-- Function `read_lock`, called by an idle thread (the call and at most five
statements). -/
def read_lock (l : rw_lock) : Option (rw_lock × RwPc × List RwPc) :=
  rw_call .read 6 l .idle

/-- Function `read_unlock`, called by a thread that holds read access. -/
def read_unlock (l : rw_lock) : Option (rw_lock × RwPc × List RwPc) :=
  rw_call .read 6 l .reading

/-- Function `write_lock`, called by an idle thread. -/
def write_lock (l : rw_lock) : Option (rw_lock × RwPc × List RwPc) :=
  rw_call .write 6 l .idle

/-- Function `write_unlock`, called by a thread that holds write access. -/
def write_unlock (l : rw_lock) : Option (rw_lock × RwPc × List RwPc) :=
  rw_call .write 6 l .writing

/-- The call `f` made `k` times in succession, each time by another thread;
`none` as soon as one of the calls does not complete. -/
def rw_repeat (f : rw_lock → Option (rw_lock × RwPc × List RwPc)) : Nat → rw_lock → Option rw_lock
  | 0, l => some l
  | k + 1, l => (f l).bind fun r => rw_repeat f k r.1

/-- The number of `read_lock` calls that return during an interleaving: the
steps in which a thread executes the last statement of `read_lock`. -/
def RwSystem.readLockReturns (σ : RwSystem) : List (Nat × RwCall) → Nat
  | [] => 0
  | a :: rest =>
      (if σ.pc[a.1]? = some .rl_unlock_mutex then 1 else 0) +
        RwSystem.readLockReturns (σ.step a.1 a.2) rest

/-- Thread 1 acquires read access, then thread 0 calls `write_lock` and tries
to lock `wrt`. -/
def starvePrefix : List (Nat × RwCall) :=
  List.replicate 6 (1, .read) ++ [(0, .write), (0, .write)]

/-- One round of overlapping readers with the writer (thread 0) trying in
between: thread 2 enters, thread 1 leaves, thread 1 enters, thread 2 leaves. -/
def starveRound : List (Nat × RwCall) :=
  (0, .write) :: List.replicate 5 (2, .read) ++ (0, .write) :: List.replicate 5 (1, .read) ++
    (0, .write) :: List.replicate 5 (1, .read) ++ (0, .write) :: List.replicate 5 (2, .read)

/-- The state in which the writer starves: thread 0 waits for `wrt` inside
`write_lock`, thread 1 holds read access. -/
def starveState : RwSystem :=
  { lock := { mutex := false, wrt := true, readcount := 1 },
    pc := [.wl_lock_wrt, .reading, .idle] }

/-- The rounds of the starving execution, `n` of them. -/
def starveRounds : Nat → List (Nat × RwCall)
  | 0 => []
  | n + 1 => starveRound ++ starveRounds n

/-- The writer (thread 0) waits inside `write_lock`: it stands at the lock of
`wrt`, which is held, and readers are counted. -/
def RwSystem.writerWaits (σ : RwSystem) : Prop :=
  σ.pc[0]? = some .wl_lock_wrt ∧ σ.lock.wrt = true ∧ 0 < σ.lock.readcount

instance (σ : RwSystem) : Decidable σ.writerWaits := by
  unfold RwSystem.writerWaits; exact inferInstance

/-- The writer waits in every state of the execution of `sched` from `σ`. -/
def RwSystem.waitsAlong (σ : RwSystem) : List (Nat × RwCall) → Bool
  | [] => decide σ.writerWaits
  | a :: rest => decide σ.writerWaits && RwSystem.waitsAlong (σ.step a.1 a.2) rest

/-! ## Dining philosophers (philosophers.c) -/

/-- How many philosophers are dining: `#define N 5`. -/
def N : Int := 5

/-- Macro `LEFT(philosopher_number)`. -/
def LEFT (philosopher_number : Int) : Int :=
  Int.tmod (philosopher_number + N - 1) N

/-- Macro `RIGHT(philosopher_number)`. -/
def RIGHT (philosopher_number : Int) : Int :=
  Int.tmod (philosopher_number + 1) N

/-- The three things that philosophers do. -/
inductive state_t where
  | Thinking
  | Hungry
  | Eating
  deriving DecidableEq, Repr

/-- The shared variables `state_array[N]` and `coordinate[N]` (the values of
the POSIX semaphores); `mutex` is represented by the atomicity of the regions
it protects. -/
structure Table where
  state_array : Int → state_t
  coordinate : Int → Nat

/-- Function `test`: a hungry philosopher whose two neighbours are not eating
starts eating and its semaphore is posted. -/
def test (g : Table) (philosopher_number : Int) : Table :=
  if g.state_array philosopher_number = .Hungry ∧
      g.state_array (LEFT philosopher_number) ≠ .Eating ∧
      g.state_array (RIGHT philosopher_number) ≠ .Eating then
    { state_array := store g.state_array philosopher_number .Eating
      coordinate := store g.coordinate philosopher_number
        (sem_post (g.coordinate philosopher_number)) }
  else g

/-- The region of `take_forks` under `mutex`: become hungry, then `test`. -/
def take_forks_enter (g : Table) (philosopher_number : Int) : Table :=
  test { state_array := store g.state_array philosopher_number .Hungry
         coordinate := g.coordinate } philosopher_number

/-- The last statement of `take_forks`: `sem_wait( &coordinate[i] )`, which
blocks (`none`) while the semaphore is 0. -/
def take_forks_wait (g : Table) (philosopher_number : Int) : Option Table :=
  (sem_wait (g.coordinate philosopher_number)).map fun v =>
    { state_array := g.state_array
      coordinate := store g.coordinate philosopher_number v }

/-- Function `put_forks`: back to thinking, then `test` for the left and for
the right neighbour. -/
def put_forks (g : Table) (philosopher_number : Int) : Table :=
  test
    (test { state_array := store g.state_array philosopher_number .Thinking
            coordinate := g.coordinate } (LEFT philosopher_number))
    (RIGHT philosopher_number)

/-- Where a philosopher thread stands in its loop: before `take_forks`
(thinking), inside `take_forks` at `sem_wait`, or between the return of
`take_forks` and `put_forks` (eating). -/
inductive PhilPc where
  | thinking
  | waiting
  | eating
  deriving DecidableEq, Repr

/-- The table and the five philosopher threads. -/
structure Dining where
  g : Table
  pc : Int → PhilPc

/-- The initial state: everybody thinking, all semaphores 0. -/
def Dining.init : Dining :=
  { g := { state_array := fun _ => .Thinking, coordinate := fun _ => 0 }
    pc := fun _ => .thinking }

/-- One step of philosopher `i` in the loop of `philosopher`; `none` when `i`
is blocked in `sem_wait` (or is not one of the philosophers). -/
def Dining.step (σ : Dining) (i : Int) : Option Dining :=
  if 0 ≤ i ∧ i < N then
    match σ.pc i with
    | .thinking => some { g := take_forks_enter σ.g i, pc := store σ.pc i .waiting }
    | .waiting => (take_forks_wait σ.g i).map fun g => { g := g, pc := store σ.pc i .eating }
    | .eating => some { g := put_forks σ.g i, pc := store σ.pc i .thinking }
  else none

/-- An interleaving of philosopher steps; a step of a blocked philosopher
leaves the state as it is. -/
def Dining.run (σ : Dining) : List Int → Dining
  | [] => σ
  | i :: rest => Dining.run ((σ.step i).getD σ) rest

/-- Philosopher `i` is consistent with the table: a thinking thread is
`Thinking`, an eating thread is `Eating`, both with semaphore 0; a thread at
`sem_wait` is `Hungry` with semaphore 0 or `Eating` with semaphore 1. -/
def Dining.consistent (g : Table) (pc : Int → PhilPc) (i : Int) : Prop :=
  (pc i = .thinking → g.state_array i = .Thinking ∧ g.coordinate i = 0) ∧
  (pc i = .eating → g.state_array i = .Eating ∧ g.coordinate i = 0) ∧
  (pc i = .waiting → (g.state_array i = .Hungry ∧ g.coordinate i = 0) ∨
      (g.state_array i = .Eating ∧ g.coordinate i = 1))

/-- Philosopher `i` and its right neighbour do not both eat. -/
def Table.exclusive (g : Table) (i : Int) : Prop :=
  ¬ (g.state_array i = .Eating ∧ g.state_array (RIGHT i) = .Eating)

/-- If philosopher `i` is hungry, one of its neighbours is eating. -/
def Table.hungryHasEatingNeighbour (g : Table) (i : Int) : Prop :=
  g.state_array i = .Hungry →
    g.state_array (LEFT i) = .Eating ∨ g.state_array (RIGHT i) = .Eating

/-- Invariant of the dining philosophers. -/
def Dining.Inv (σ : Dining) : Prop :=
  ∀ i : Int, 0 ≤ i → i < N →
    Dining.consistent σ.g σ.pc i ∧ σ.g.exclusive i ∧ σ.g.hungryHasEatingNeighbour i

/-! ## Pipeline (bfishmt.c) and the single-threaded program (bfish.c) -/

/-- The monitor buffer with the same slots, indices and occupancy as a
semaphore buffer. -/
def pcbuffer_toMonitor {α : Type} (p : pcbuffer_t α) : bounded_buffer_t α :=
  { buffer := p.buffer, next_in := p.next_in, next_out := p.next_out, count := p.used }

/-- The items held by the semaphore buffer, oldest first. -/
def pcbuffer_contents {α : Type} (p : pcbuffer_t α) : List α :=
  bounded_buffer_contents (pcbuffer_toMonitor p)

/-- Representation invariant of the semaphore buffer. -/
def pcbuffer_ok {α : Type} (p : pcbuffer_t α) : Prop :=
  (p.free : Int) = 8 - (p.used : Int) ∧ bounded_buffer_ok (pcbuffer_toMonitor p)

/-- Size of the buffer of a chunk: `#define BUFFER_SIZE 4096`. -/
def BUFFER_SIZE : Int := 4096

/-- The fields of `struct file_chunk`; `buffer` holds the bytes that `read`
stored (the bytes beyond `count` are never looked at). -/
structure file_chunk where
  buffer : List Nat
  count : Int
  ID : Int
  deriving DecidableEq, Repr

/-- The outcome of one call `read(fd, buffer, BUFFER_SIZE)`: the value
returned and the bytes stored in the buffer. -/
structure ReadResult where
  count : Int
  data : List Nat
  deriving DecidableEq, Repr

/-- The system call `read` on a byte source, given as the outcomes of the
calls still to come; once the list is used up, `read` returns 0. -/
def read (source : List ReadResult) : ReadResult × List ReadResult :=
  match source with
  | [] => ({ count := 0, data := [] }, [])
  | r :: rest => (r, rest)

/-- The source delivers chunks of 1 to `BUFFER_SIZE` bytes and then end of
file. -/
def WellFormed (source : List ReadResult) : Prop :=
  ∀ r ∈ source, 0 < r.count ∧ r.count ≤ BUFFER_SIZE ∧ (r.data.length : Int) = r.count

/-- The call `BF_cfb64_encrypt(buffer, buffer, length, &key, IV, &IV_index,
direction)` of the OpenSSL library, in place: the library function `bf` maps
the context (key, IV, IV index, direction) and the first `length` bytes to the
new context and the transformed bytes, which replace them in the buffer. -/
def BF_cfb64_encrypt {κ : Type} (bf : κ → List Nat → κ × List Nat) (ctx : κ)
    (buffer : List Nat) (length : Int) : κ × List Nat :=
  ((bf ctx (buffer.take length.toNat)).1,
    (bf ctx (buffer.take length.toNat)).2 ++ buffer.drop length.toNat)

/-- The bytes written by `write(fd, buffer, count)`, the write succeeding in
full. -/
def write (buffer : List Nat) (count : Int) : List Nat :=
  buffer.take count.toNat

/-- The transform applied by the encryptor to the chunk it holds. -/
def encrypt_chunk {κ : Type} (bf : κ → List Nat → κ × List Nat) (ctx : κ) (c : file_chunk) :
    κ × file_chunk :=
  ((BF_cfb64_encrypt bf ctx c.buffer c.count).1,
    { buffer := (BF_cfb64_encrypt bf ctx c.buffer c.count).2, count := c.count, ID := c.ID })

/-- The bytes written by `write(*out, current->buffer, current->count)`. -/
def write_payload (c : file_chunk) : List Nat :=
  write c.buffer c.count

/-- Where `reader_thread` stands: at `read` (with the ID of the chunk being
filled), at the `pcbuffer_push` inside the loop, at the `pcbuffer_push` after
the loop, or returned. -/
inductive ReaderPc where
  | at_read (ID : Int)
  | at_push (current : file_chunk)
  | at_last_push (current : file_chunk)
  | done
  deriving DecidableEq, Repr

/-- Where `encryptor_thread` stands: at a `pcbuffer_pop`, at the
`pcbuffer_push` inside the loop, at the `pcbuffer_push` after the loop, or
returned. -/
inductive EncryptorPc where
  | at_pop
  | at_push (current : file_chunk)
  | at_last_push (current : file_chunk)
  | done
  deriving DecidableEq, Repr

/-- Where `writer_thread` stands: at a `pcbuffer_pop`, or returned. -/
inductive WriterPc where
  | at_pop
  | done
  deriving DecidableEq, Repr

/-- The three stages of the pipeline. -/
inductive Stage where
  | reader
  | encryptor
  | writer
  deriving DecidableEq, Repr

/-- The pipeline: the byte source, the two queues, the three threads, the
transform context of the encryptor, the payloads written so far, and the
history of the chunks pushed to and popped from the two queues. -/
structure Pipeline (κ : Type) where
  source : List ReadResult
  reader : ReaderPc
  incoming : pcbuffer_t file_chunk
  encryptor : EncryptorPc
  ctx : κ
  outgoing : pcbuffer_t file_chunk
  writer : WriterPc
  sink : List (List Nat)
  pushed_in : List file_chunk
  popped_in : List file_chunk
  pushed_out : List file_chunk
  popped_out : List file_chunk

/-- One step of `reader_thread`: a `read` into the current chunk, which leads
to the push inside the loop when the count is positive and to the push after
the loop otherwise, or a `pcbuffer_push` to `incoming` (`none` while it
blocks); the next chunk gets the next ID. -/
def reader_thread {κ : Type} (σ : Pipeline κ) : Option (Pipeline κ) :=
  match σ.reader with
  | .at_read id =>
      some { σ with
        source := (read σ.source).2
        reader :=
          if (read σ.source).1.count > 0 then
            .at_push { buffer := (read σ.source).1.data, count := (read σ.source).1.count, ID := id }
          else
            .at_last_push
              { buffer := (read σ.source).1.data, count := (read σ.source).1.count, ID := id } }
  | .at_push current =>
      (pcbuffer_push σ.incoming current).map fun q =>
        { σ with
          incoming := q
          reader := .at_read (current.ID + 1)
          pushed_in := σ.pushed_in ++ [current] }
  | .at_last_push current =>
      (pcbuffer_push σ.incoming current).map fun q =>
        { σ with incoming := q, reader := .done, pushed_in := σ.pushed_in ++ [current] }
  | .done => none

/-- One step of `encryptor_thread`: a `pcbuffer_pop` from `incoming` followed
by the transform when `count != 0`, or a `pcbuffer_push` to `outgoing`. -/
def encryptor_thread {κ : Type} (bf : κ → List Nat → κ × List Nat) (σ : Pipeline κ) :
    Option (Pipeline κ) :=
  match σ.encryptor with
  | .at_pop =>
      (pcbuffer_pop σ.incoming).map fun r =>
        if r.2.count ≠ 0 then
          { σ with
            incoming := r.1
            popped_in := σ.popped_in ++ [r.2]
            ctx := (encrypt_chunk bf σ.ctx r.2).1
            encryptor := .at_push (encrypt_chunk bf σ.ctx r.2).2 }
        else
          { σ with
            incoming := r.1
            popped_in := σ.popped_in ++ [r.2]
            encryptor := .at_last_push r.2 }
  | .at_push current =>
      (pcbuffer_push σ.outgoing current).map fun q =>
        { σ with outgoing := q, pushed_out := σ.pushed_out ++ [current], encryptor := .at_pop }
  | .at_last_push current =>
      (pcbuffer_push σ.outgoing current).map fun q =>
        { σ with outgoing := q, pushed_out := σ.pushed_out ++ [current], encryptor := .done }
  | .done => none

/-- One step of `writer_thread`: a `pcbuffer_pop` from `outgoing`, followed by
the `write` when `count != 0` and by the return otherwise. -/
def writer_thread {κ : Type} (σ : Pipeline κ) : Option (Pipeline κ) :=
  match σ.writer with
  | .at_pop =>
      (pcbuffer_pop σ.outgoing).map fun r =>
        if r.2.count ≠ 0 then
          { σ with
            outgoing := r.1
            popped_out := σ.popped_out ++ [r.2]
            sink := σ.sink ++ [write_payload r.2] }
        else
          { σ with outgoing := r.1, popped_out := σ.popped_out ++ [r.2], writer := .done }
  | .done => none

/-- One step of a stage; `none` when the stage is blocked on a queue or has
returned. -/
def Pipeline.step {κ : Type} (bf : κ → List Nat → κ × List Nat) (σ : Pipeline κ) :
    Stage → Option (Pipeline κ)
  | .reader => reader_thread σ
  | .encryptor => encryptor_thread bf σ
  | .writer => writer_thread σ

/-- A schedule of the three threads; a step of a blocked or finished stage
leaves the state as it is. -/
def Pipeline.run {κ : Type} (bf : κ → List Nat → κ × List Nat) (σ : Pipeline κ) :
    List Stage → Pipeline κ
  | [] => σ
  | t :: rest => Pipeline.run bf ((σ.step bf t).getD σ) rest

/-- The state set up by `main` of bfishmt.c: both queues initialised (`p` and
`q` are the queue objects before `pcbuffer_init`), the reader about to fill
the chunk with ID 1, the threads at their first statement. -/
def Pipeline.init {κ : Type} (source : List ReadResult) (ctx : κ)
    (p q : pcbuffer_t file_chunk) : Pipeline κ :=
  { source := source
    reader := .at_read 1
    incoming := pcbuffer_init p
    encryptor := .at_pop
    ctx := ctx
    outgoing := pcbuffer_init q
    writer := .at_pop
    sink := []
    pushed_in := []
    popped_in := []
    pushed_out := []
    popped_out := [] }

/-- All three threads have returned. -/
def Pipeline.allDone {κ : Type} (σ : Pipeline κ) : Prop :=
  σ.reader = .done ∧ σ.encryptor = .done ∧ σ.writer = .done

/-- The loop of `main` in bfish.c: `read` into the buffer, transform in place,
`write`, until `read` returns a count that is not positive (the source list
used up: `read` returns 0); the result is the list of the payloads written
(every write succeeding in full). -/
def bfish_loop {κ : Type} (bf : κ → List Nat → κ × List Nat) : κ → List ReadResult → List (List Nat)
  | _, [] => []
  | ctx, r :: rest =>
      if r.count > 0 then
        write (BF_cfb64_encrypt bf ctx r.data r.count).2 r.count ::
          bfish_loop bf (BF_cfb64_encrypt bf ctx r.data r.count).1 rest
      else []

/-- The chunks the reader pushes from the chunk numbered `id` on: one chunk
per successful read, then the chunk of the read that returned 0. -/
def chunks_from (id : Int) : List ReadResult → List file_chunk
  | [] => [{ buffer := [], count := 0, ID := id }]
  | r :: rest => { buffer := r.data, count := r.count, ID := id } :: chunks_from (id + 1) rest

/-- The chunks as the encryptor hands them on, the context threaded from one
chunk to the next: a chunk with `count != 0` is transformed, a chunk with
`count == 0` is passed on as it is. -/
def encrypt_all {κ : Type} (bf : κ → List Nat → κ × List Nat) : κ → List file_chunk → κ × List file_chunk
  | ctx, [] => (ctx, [])
  | ctx, c :: cs =>
      if c.count ≠ 0 then
        ((encrypt_all bf (encrypt_chunk bf ctx c).1 cs).1,
          (encrypt_chunk bf ctx c).2 :: (encrypt_all bf (encrypt_chunk bf ctx c).1 cs).2)
      else ((encrypt_all bf ctx cs).1, c :: (encrypt_all bf ctx cs).2)

/-- The payloads written for a sequence of chunks popped by the writer. -/
def payloads (cs : List file_chunk) : List (List Nat) :=
  (cs.filter fun c => decide (c.count ≠ 0)).map write_payload

/-- The chunks the reader has still to push. -/
def Pipeline.readerRest {κ : Type} (σ : Pipeline κ) : List file_chunk :=
  match σ.reader with
  | .at_read id => chunks_from id σ.source
  | .at_push c => c :: chunks_from (c.ID + 1) σ.source
  | .at_last_push c => [c]
  | .done => []

/-- The chunk the encryptor has popped and not yet pushed. -/
def Pipeline.encPending {κ : Type} (σ : Pipeline κ) : List file_chunk :=
  match σ.encryptor with
  | .at_push c => [c]
  | .at_last_push c => [c]
  | _ => []

/-- The number of steps the three threads have still to take. -/
def Pipeline.work {κ : Type} (σ : Pipeline κ) : Nat :=
  (match σ.reader with
    | .at_read _ => 2 * σ.source.length + 2
    | .at_push _ => 2 * σ.source.length + 3
    | .at_last_push _ => 1
    | .done => 0) +
  (2 * (σ.incoming.used + σ.readerRest.length) + σ.encPending.length) +
  (σ.outgoing.used + σ.encPending.length + σ.incoming.used + σ.readerRest.length)

/-- The schedule that lets the three threads take turns, `k` times. -/
def roundRobin : Nat → List Stage
  | 0 => []
  | k + 1 => .reader :: .encryptor :: .writer :: roundRobin k

/-- In a list of counts, a zero can only be the last entry. -/
def SentinelLast (counts : List Int) : Prop :=
  ∀ (a : List Int) (n : Int) (b : List Int), counts = a ++ n :: b → n = 0 → b = []

/-- Invariant of the pipeline started on the well-formed source `source0` with
the context `ctx0`. -/
def Pipeline.Inv {κ : Type} (bf : κ → List Nat → κ × List Nat) (ctx0 : κ)
    (source0 : List ReadResult) (σ : Pipeline κ) : Prop :=
  WellFormed σ.source ∧ pcbuffer_ok σ.incoming ∧ pcbuffer_ok σ.outgoing ∧
  σ.pushed_in ++ σ.readerRest = chunks_from 1 source0 ∧
  σ.pushed_in = σ.popped_in ++ pcbuffer_contents σ.incoming ∧
  encrypt_all bf ctx0 σ.popped_in = (σ.ctx, σ.pushed_out ++ σ.encPending) ∧
  σ.pushed_out = σ.popped_out ++ pcbuffer_contents σ.outgoing ∧
  σ.sink = payloads σ.popped_out ∧
  (match σ.reader with
    | .at_push c => c.count ≠ 0
    | .at_last_push c => c.count = 0
    | _ => True) ∧
  (match σ.encryptor with
    | .at_pop => ∀ c ∈ σ.popped_in, c.count ≠ 0
    | .at_push c => c.count ≠ 0 ∧ ∀ c ∈ σ.popped_in, c.count ≠ 0
    | .at_last_push c =>
        c.count = 0 ∧ σ.reader = .done ∧ pcbuffer_contents σ.incoming = []
    | .done => σ.reader = .done ∧ pcbuffer_contents σ.incoming = []) ∧
  (match σ.writer with
    | .at_pop => ∀ c ∈ σ.popped_out, c.count ≠ 0
    | .done => σ.encryptor = .done ∧ pcbuffer_contents σ.outgoing = [])

/-- The identity transform: no context, the bytes come back as they are. -/
def identity_transform : Unit → List Nat → Unit × List Nat :=
  fun ctx bytes => (ctx, bytes)

/-- The bytes of the input, as delivered by the successive reads. -/
def inputBytes (source : List ReadResult) : List Nat :=
  (source.map fun r => r.data).flatten

/-- A queue object before `pcbuffer_init`: every slot holds an arbitrary
chunk pointer, represented by an empty chunk. -/
def pcbuffer_blank : pcbuffer_t file_chunk :=
  { buffer := fun _ => { buffer := [], count := 0, ID := 0 }
    used := 0, free := 0, next_in := 0, next_out := 0 }

/-- A source of two successful reads, of 3 and of 2 bytes. -/
def demoSource : List ReadResult :=
  [{ count := 3, data := [10, 20, 30] }, { count := 2, data := [40, 50] }]

/-- A source whose first `read` fails. -/
def failingSource : List ReadResult :=
  [{ count := -1, data := [] }]

/-- No chunk with `count == 0` exists anywhere in the pipeline and none can
come into being: the reader has pushed none, holds none and will read only
from `source` a result that is not 0, and neither the encryptor nor the
writer has seen one. -/
def Pipeline.NoSentinel {κ : Type} (σ : Pipeline κ) : Prop :=
  pcbuffer_ok σ.incoming ∧ pcbuffer_ok σ.outgoing ∧
  (∀ c ∈ pcbuffer_contents σ.incoming, c.count ≠ 0) ∧
  (∀ c ∈ pcbuffer_contents σ.outgoing, c.count ≠ 0) ∧
  (∀ c ∈ σ.pushed_in, c.count ≠ 0) ∧
  (match σ.reader with
    | .at_read _ => σ.source = failingSource
    | .at_push _ => False
    | .at_last_push c => c.count ≠ 0
    | .done => True) ∧
  (match σ.encryptor with
    | .at_pop => True
    | .at_push c => c.count ≠ 0
    | .at_last_push _ => False
    | .done => False) ∧
  σ.writer = .at_pop

/-- A schedule that stops in mid-run: the reader has pushed the first chunk
and read the second, the encryptor holds the first chunk, the writer has found
`outgoing` empty. -/
def demoSchedule : List Stage :=
  [.reader, .reader, .encryptor, .reader, .writer]

/-! ### Lemmas on the monitor buffer -/

theorem bounded_buffer_init_ok {α : Type} (p : bounded_buffer_t α) :
    bounded_buffer_ok (bounded_buffer_init p) := by
  simp [bounded_buffer_ok, bounded_buffer_init]

theorem bounded_buffer_init_contents {α : Type} (p : bounded_buffer_t α) :
    bounded_buffer_contents (bounded_buffer_init p) = [] := by
  simp [bounded_buffer_contents, bounded_buffer_init]

theorem bounded_buffer_contents_length {α : Type} (p : bounded_buffer_t α) :
    (bounded_buffer_contents p).length = p.count.toNat := by
  simp [bounded_buffer_contents]

theorem tmod_eight {a : Int} (h : 0 ≤ a) : Int.tmod a 8 = a % 8 :=
  Int.tmod_eq_emod h (by decide)

theorem bounded_buffer_push_spec {α : Type} {p q : bounded_buffer_t α} {x : α}
    (hp : bounded_buffer_ok p) (h : bounded_buffer_push p x = some q) :
    p.count < 8 ∧ q.count = p.count + 1 ∧ bounded_buffer_ok q ∧
      bounded_buffer_contents q = bounded_buffer_contents p ++ [x] := by
  obtain ⟨h0, h8, ho0, ho8, hin⟩ := hp
  unfold bounded_buffer_push at h
  simp only [BOUNDED_BUFFER_SIZE] at h
  split at h
  · exact absurd h (by simp)
  · rename_i hne
    have hq := Option.some.inj h
    subst hq
    have hin0 : 0 ≤ p.next_in := by rw [hin]; omega
    rw [tmod_eight (by omega)]
    refine ⟨by omega, rfl, ⟨by simp only; omega, by simp only; omega, ho0, ho8, ?_⟩, ?_⟩
    · simp only; omega
    · have hn : (p.count + 1).toNat = p.count.toNat + 1 := by omega
      simp only [bounded_buffer_contents, hn, List.range_succ, List.map_append, List.map_cons,
        List.map_nil]
      congr 1
      · apply List.map_congr_left
        intro i hi
        have hi2 : i < p.count.toNat := List.mem_range.mp hi
        have : (p.next_out + (i : Int)) % 8 ≠ p.next_in := by omega
        simp [store, this]
      · have : (p.next_out + (p.count.toNat : Int)) % 8 = p.next_in := by omega
        simp only [store, this, if_true]

theorem bounded_buffer_pop_spec {α : Type} {p : bounded_buffer_t α}
    {r : bounded_buffer_t α × α}
    (hp : bounded_buffer_ok p) (h : bounded_buffer_pop p = some r) :
    0 < p.count ∧ r.1.count = p.count - 1 ∧ bounded_buffer_ok r.1 ∧
      bounded_buffer_contents p = r.2 :: bounded_buffer_contents r.1 := by
  obtain ⟨h0, h8, ho0, ho8, hin⟩ := hp
  unfold bounded_buffer_pop at h
  simp only [BOUNDED_BUFFER_SIZE] at h
  split at h
  · exact absurd h (by simp)
  · rename_i hne
    have hq := Option.some.inj h
    subst hq
    rw [tmod_eight (by omega)]
    refine ⟨by omega, rfl, ⟨by simp only; omega, by simp only; omega, by simp only; omega,
      by simp only; omega, ?_⟩, ?_⟩
    · simp only; omega
    · obtain ⟨n, hn⟩ : ∃ n : Nat, p.count.toNat = n + 1 := ⟨p.count.toNat - 1, by omega⟩
      have hn2 : (p.count - 1).toNat = n := by omega
      simp only [bounded_buffer_contents, hn, hn2, List.range_succ_eq_map, List.map_cons,
        List.map_map]
      congr 1
      · have : (p.next_out + ((0 : Nat) : Int)) % 8 = p.next_out := by omega
        rw [this]
      · apply List.map_congr_left
        intro i _
        have : (p.next_out + ((i + 1 : Nat) : Int)) % 8 = ((p.next_out + 1) % 8 + (i : Int)) % 8 := by
          omega
        simp only [Function.comp, Nat.succ_eq_add_one, this]

theorem bounded_buffer_reachable_ok {α : Type} {p : bounded_buffer_t α}
    (h : bounded_buffer_reachable p) : bounded_buffer_ok p := by
  induction h with
  | init p => exact bounded_buffer_init_ok p
  | push x _ hpush ih => exact (bounded_buffer_push_spec ih hpush).2.2.1
  | pop _ hpop ih => exact (bounded_buffer_pop_spec ih hpop).2.2.1

theorem bounded_buffer_exec_spec {α : Type} (ops : List (Request α)) :
    ∀ (p q : bounded_buffer_t α) (outs : List α), bounded_buffer_ok p →
      bounded_buffer_exec p ops = some (q, outs) →
      bounded_buffer_ok q ∧ outs.length = popCount ops ∧
        bounded_buffer_contents p ++ pushedItems ops = outs ++ bounded_buffer_contents q := by
  induction ops with
  | nil =>
    intro p q outs hp h
    simp only [bounded_buffer_exec, Option.some.injEq, Prod.mk.injEq] at h
    obtain ⟨rfl, rfl⟩ := h
    simp [popCount, pushedItems, hp]
  | cons op rest ih =>
    intro p q outs hp h
    cases op with
    | push x =>
      simp only [bounded_buffer_exec, Option.bind_eq_some] at h
      obtain ⟨p1, h1, h2⟩ := h
      obtain ⟨_, _, hok, hc⟩ := bounded_buffer_push_spec hp h1
      obtain ⟨hq, hl, hcat⟩ := ih p1 q outs hok h2
      refine ⟨hq, by simpa [popCount] using hl, ?_⟩
      rw [hc] at hcat
      simpa [pushedItems] using hcat
    | pop =>
      simp only [bounded_buffer_exec, Option.bind_eq_some, Option.map_eq_some', Prod.mk.injEq,
        Prod.exists] at h
      obtain ⟨p1, v, h1, q1, o1, h2, rfl, rfl⟩ := h
      obtain ⟨_, _, hok, hc⟩ := bounded_buffer_pop_spec hp h1
      obtain ⟨hq, hl, hcat⟩ := ih p1 q1 o1 hok h2
      refine ⟨hq, by simpa [popCount] using hl, ?_⟩
      rw [hc]
      simpa [pushedItems] using hcat


/-! ### The semaphore buffer simulates the monitor buffer -/

theorem sim_init {α : Type} (p : pcbuffer_t α) (b : bounded_buffer_t α)
    (h : p.buffer = b.buffer) : Sim (pcbuffer_init p) (bounded_buffer_init b) := by
  simp [Sim, pcbuffer_init, bounded_buffer_init, PCBUFFER_SIZE, h]

theorem sim_push {α : Type} {p : pcbuffer_t α} {b : bounded_buffer_t α} (x : α)
    (hs : Sim p b) (hb : bounded_buffer_ok b) :
    (pcbuffer_push p x = none ∧ bounded_buffer_push b x = none) ∨
      ∃ q c, pcbuffer_push p x = some q ∧ bounded_buffer_push b x = some c ∧ Sim q c := by
  obtain ⟨hu, hf, hi, ho, hbuf⟩ := hs
  obtain ⟨h0, h8, ho0, ho8, hin⟩ := hb
  by_cases hc : b.count = 8
  · left
    have hf0 : p.free = 0 := by omega
    simp [pcbuffer_push, bounded_buffer_push, sem_wait, BOUNDED_BUFFER_SIZE, hc, hf0]
  · right
    have hf0 : p.free ≠ 0 := by omega
    have hin0 : 0 ≤ b.next_in := by omega
    have hin8 : b.next_in < 8 := by omega
    refine ⟨_, _, by simp [pcbuffer_push, sem_wait, hf0]; rfl,
      by simp [bounded_buffer_push, BOUNDED_BUFFER_SIZE, hc]; rfl, ?_⟩
    simp only [Sim, sem_post, PCBUFFER_SIZE, BOUNDED_BUFFER_SIZE, hbuf, hi, ho,
      tmod_eight (show 0 ≤ b.next_in + 1 by omega), true_and, and_true]
    refine ⟨by omega, by omega, ?_⟩
    split <;> omega

theorem sim_pop {α : Type} {p : pcbuffer_t α} {b : bounded_buffer_t α}
    (hs : Sim p b) (hb : bounded_buffer_ok b) :
    (pcbuffer_pop p = none ∧ bounded_buffer_pop b = none) ∨
      ∃ q c v, pcbuffer_pop p = some (q, v) ∧ bounded_buffer_pop b = some (c, v) ∧ Sim q c := by
  obtain ⟨hu, hf, hi, ho, hbuf⟩ := hs
  obtain ⟨h0, h8, ho0, ho8, hin⟩ := hb
  by_cases hc : b.count = 0
  · left
    have hu0 : p.used = 0 := by omega
    simp [pcbuffer_pop, bounded_buffer_pop, sem_wait, hc, hu0]
  · right
    have hu0 : p.used ≠ 0 := by omega
    simp only [pcbuffer_pop, bounded_buffer_pop, sem_wait, hu0, hc, if_false, Option.map_some',
      ← hbuf, ← ho]
    refine ⟨_, _, _, rfl, rfl, ?_⟩
    simp only [Sim, sem_post, PCBUFFER_SIZE, BOUNDED_BUFFER_SIZE, hi,
      tmod_eight (show 0 ≤ p.next_out + 1 by omega), true_and, and_true]
    refine ⟨by omega, by omega, ?_⟩
    split <;> omega

theorem sim_exec {α : Type} (ops : List (Request α)) :
    ∀ (p : pcbuffer_t α) (b : bounded_buffer_t α), Sim p b → bounded_buffer_ok b →
      (pcbuffer_exec p ops = none ∧ bounded_buffer_exec b ops = none) ∨
        ∃ q c outs, pcbuffer_exec p ops = some (q, outs) ∧
          bounded_buffer_exec b ops = some (c, outs) ∧ Sim q c := by
  induction ops with
  | nil => intro p b hs _; exact Or.inr ⟨p, b, [], rfl, rfl, hs⟩
  | cons op rest ih =>
    intro p b hs hb
    cases op with
    | push x =>
      rcases sim_push x hs hb with ⟨h1, h2⟩ | ⟨q, c, h1, h2, hqc⟩
      · left; simp [pcbuffer_exec, bounded_buffer_exec, h1, h2]
      · have hc := (bounded_buffer_push_spec hb h2).2.2.1
        rcases ih q c hqc hc with ⟨h3, h4⟩ | ⟨q2, c2, outs, h3, h4, hs2⟩
        · left; simp [pcbuffer_exec, bounded_buffer_exec, h1, h2, h3, h4]
        · right
          exact ⟨q2, c2, outs, by simp [pcbuffer_exec, h1, h3],
            by simp [bounded_buffer_exec, h2, h4], hs2⟩
    | pop =>
      rcases sim_pop hs hb with ⟨h1, h2⟩ | ⟨q, c, v, h1, h2, hqc⟩
      · left; simp [pcbuffer_exec, bounded_buffer_exec, h1, h2]
      · have hc := (bounded_buffer_pop_spec hb h2).2.2.1
        rcases ih q c hqc hc with ⟨h3, h4⟩ | ⟨q2, c2, outs, h3, h4, hs2⟩
        · left; simp [pcbuffer_exec, bounded_buffer_exec, h1, h2, h3, h4]
        · right
          exact ⟨q2, c2, v :: outs, by simp [pcbuffer_exec, h1, h3],
            by simp [bounded_buffer_exec, h2, h4], hs2⟩

theorem bounded_buffer_serveAll_ok {α : Type} (reqs : List (Request α)) :
    ∀ b : bounded_buffer_t α, bounded_buffer_ok b →
      bounded_buffer_ok (bounded_buffer_serveAll b reqs).1 := by
  induction reqs with
  | nil => intro b hb; exact hb
  | cons r rest ih =>
    intro b hb
    simp only [bounded_buffer_serveAll]
    apply ih
    cases r with
    | push x =>
      simp only [bounded_buffer_serve]
      split
      · rename_i q hq; exact (bounded_buffer_push_spec hb hq).2.2.1
      · exact hb
    | pop =>
      simp only [bounded_buffer_serve]
      split
      · rename_i q hq; exact (bounded_buffer_pop_spec hb hq).2.2.1
      · exact hb

theorem sim_serve {α : Type} {p : pcbuffer_t α} {b : bounded_buffer_t α} (r : Request α)
    (hs : Sim p b) (hb : bounded_buffer_ok b) :
    Sim (pcbuffer_serve p r).1 (bounded_buffer_serve b r).1 ∧
      (pcbuffer_serve p r).2 = (bounded_buffer_serve b r).2 := by
  cases r with
  | push x =>
    rcases sim_push x hs hb with ⟨h1, h2⟩ | ⟨q, c, h1, h2, hqc⟩
    · simp [pcbuffer_serve, bounded_buffer_serve, h1, h2, hs]
    · simp [pcbuffer_serve, bounded_buffer_serve, h1, h2, hqc]
  | pop =>
    rcases sim_pop hs hb with ⟨h1, h2⟩ | ⟨q, c, v, h1, h2, hqc⟩
    · simp [pcbuffer_serve, bounded_buffer_serve, h1, h2, hs]
    · simp [pcbuffer_serve, bounded_buffer_serve, h1, h2, hqc]

theorem sim_serveAll {α : Type} (reqs : List (Request α)) :
    ∀ (p : pcbuffer_t α) (b : bounded_buffer_t α), Sim p b → bounded_buffer_ok b →
      Sim (pcbuffer_serveAll p reqs).1 (bounded_buffer_serveAll b reqs).1 ∧
        (pcbuffer_serveAll p reqs).2 = (bounded_buffer_serveAll b reqs).2 := by
  induction reqs with
  | nil => intro p b hs _; exact ⟨hs, rfl⟩
  | cons r rest ih =>
    intro p b hs hb
    obtain ⟨h1, h2⟩ := sim_serve r hs hb
    have hb2 : bounded_buffer_ok (bounded_buffer_serve b r).1 :=
      bounded_buffer_serveAll_ok [r] b hb
    obtain ⟨h3, h4⟩ := ih _ _ h1 hb2
    exact ⟨h3, by simp only [pcbuffer_serveAll, bounded_buffer_serveAll, h2, h4]⟩

theorem bounded_buffer_exec_alternating {α : Type} (xs : List α) :
    ∀ p : bounded_buffer_t α, bounded_buffer_ok p → p.count = 0 →
      ∃ q, bounded_buffer_exec p (alternating xs) = some (q, xs) ∧ q.count = 0 := by
  induction xs with
  | nil => intro p _ h0; exact ⟨p, rfl, h0⟩
  | cons x xs ih =>
    intro p hp h0
    obtain ⟨p1, h1⟩ : ∃ p1, bounded_buffer_push p x = some p1 := by
      simp [bounded_buffer_push, BOUNDED_BUFFER_SIZE, h0]
    obtain ⟨_, hc1, hok1, hcont1⟩ := bounded_buffer_push_spec hp h1
    obtain ⟨r, h2⟩ : ∃ r, bounded_buffer_pop p1 = some r := by
      have : p1.count ≠ 0 := by omega
      simp [bounded_buffer_pop, this]
    obtain ⟨_, hc2, hok2, hcont2⟩ := bounded_buffer_pop_spec hok1 h2
    have hlen := congrArg List.length hcont1
    have hp0 : bounded_buffer_contents p = [] := by
      apply List.eq_nil_of_length_eq_zero
      rw [bounded_buffer_contents_length, h0]; rfl
    rw [hp0, hcont2] at hcont1
    simp only [List.nil_append, List.cons.injEq] at hcont1
    obtain ⟨q, hq, hq0⟩ := ih r.1 hok2 (by omega)
    exact ⟨q, by simp [alternating, bounded_buffer_exec, h1, h2, hq, hcont1.1], hq0⟩

theorem pushedItems_alternating {α : Type} (xs : List α) :
    pushedItems (alternating xs) = xs ∧ popCount (alternating xs) = xs.length := by
  induction xs with
  | nil => exact ⟨rfl, rfl⟩
  | cons x xs ih => simp [alternating, pushedItems, popCount, ih.1, ih.2]


/-! ### Helper lemmas for the queue claims -/

theorem bounded_buffer_exec_pushes {α : Type} (x : α) (n : Nat) :
    ∀ p : bounded_buffer_t α, bounded_buffer_ok p →
      ((bounded_buffer_exec p (List.replicate n (.push x))).isSome ↔ p.count + n ≤ 8) := by
  induction n with
  | zero =>
    intro p hp
    obtain ⟨_, h8, _⟩ := hp
    simp [bounded_buffer_exec, h8]
  | succ n ih =>
    intro p hp
    simp only [List.replicate_succ, bounded_buffer_exec]
    by_cases hc : p.count = 8
    · have : bounded_buffer_push p x = none := by
        simp [bounded_buffer_push, BOUNDED_BUFFER_SIZE, hc]
      simp only [this, Option.none_bind, Option.isSome_none, Bool.false_eq_true, false_iff]
      omega
    · obtain ⟨q, hq⟩ : ∃ q, bounded_buffer_push p x = some q := by
        simp [bounded_buffer_push, BOUNDED_BUFFER_SIZE, hc]
      obtain ⟨_, hcq, hok, _⟩ := bounded_buffer_push_spec hp hq
      simp only [hq, Option.some_bind, ih q hok, hcq]
      omega

theorem sim_exec_isSome {α : Type} (ops : List (Request α)) (p : pcbuffer_t α)
    (b : bounded_buffer_t α) (hs : Sim p b) (hb : bounded_buffer_ok b) :
    (pcbuffer_exec p ops).isSome = (bounded_buffer_exec b ops).isSome := by
  rcases sim_exec ops p b hs hb with ⟨h1, h2⟩ | ⟨q, c, outs, h1, h2, _⟩
  · simp [h1, h2]
  · simp [h1, h2]

theorem bounded_buffer_holds_iff {α : Type} (p : bounded_buffer_t α) (x : α) (n : Nat)
    (hp : bounded_buffer_ok p) :
    bounded_buffer_holds p x n = true ↔ p.count + n = 8 := by
  have h1 := bounded_buffer_exec_pushes x n p hp
  have h2 := bounded_buffer_exec_pushes x (n + 1) p hp
  simp only [bounded_buffer_holds, Bool.and_eq_true, h1, Option.isNone_iff_eq_none]
  rw [← Option.not_isSome_iff_eq_none, h2]
  push_cast
  omega

theorem pcbuffer_holds_eq {α : Type} (p : pcbuffer_t α) (b : bounded_buffer_t α) (x : α)
    (n : Nat) (hs : Sim p b) (hb : bounded_buffer_ok b) :
    pcbuffer_holds p x n = bounded_buffer_holds b x n := by
  have h1 := sim_exec_isSome (List.replicate n (.push x)) p b hs hb
  have h2 := sim_exec_isSome (List.replicate (n + 1) (.push x)) p b hs hb
  simp only [pcbuffer_holds, bounded_buffer_holds, h1, Option.isNone_iff_eq_none]
  congr 1
  cases h3 : pcbuffer_exec p (List.replicate (n + 1) (.push x)) <;>
    cases h4 : bounded_buffer_exec b (List.replicate (n + 1) (.push x)) <;>
    simp_all

/-! ### Claims on the bounded queues -/

/-- C1. FIFO round trip: in every interleaving of completed pushes and pops,
started on an initialised queue, in which the pushes carry the items `xs` and
there are as many pops as pushes, the pops return exactly `xs`, in order; this
holds for the monitor buffer and for the semaphore buffer, and for every `xs`
such an interleaving exists for both. -/
theorem fifo_round_trip {α : Type} (xs : List α) (ops : List (Request α))
    (hpush : pushedItems ops = xs) (hpop : popCount ops = xs.length) :
    (∀ (p q : bounded_buffer_t α) (outs : List α),
        bounded_buffer_exec (bounded_buffer_init p) ops = some (q, outs) → outs = xs) ∧
    (∀ (p q : pcbuffer_t α) (outs : List α),
        pcbuffer_exec (pcbuffer_init p) ops = some (q, outs) → outs = xs) ∧
    (∃ ops2 : List (Request α), pushedItems ops2 = xs ∧ popCount ops2 = xs.length ∧
        (∀ p : bounded_buffer_t α, ∃ q,
          bounded_buffer_exec (bounded_buffer_init p) ops2 = some (q, xs)) ∧
        (∀ p : pcbuffer_t α, ∃ q, pcbuffer_exec (pcbuffer_init p) ops2 = some (q, xs))) := by
  have key : ∀ (p q : bounded_buffer_t α) (outs : List α),
      bounded_buffer_exec (bounded_buffer_init p) ops = some (q, outs) → outs = xs := by
    intro p q outs h
    obtain ⟨_, hl, hcat⟩ :=
      bounded_buffer_exec_spec ops _ q outs (bounded_buffer_init_ok p) h
    rw [bounded_buffer_init_contents, hpush, List.nil_append] at hcat
    have hlen := congrArg List.length hcat
    rw [List.length_append, hl, hpop] at hlen
    have hnil : bounded_buffer_contents q = [] := List.eq_nil_of_length_eq_zero (by omega)
    rw [hnil, List.append_nil] at hcat
    exact hcat.symm
  refine ⟨key, ?_, alternating xs, (pushedItems_alternating xs).1,
    (pushedItems_alternating xs).2, ?_, ?_⟩
  · intro p q outs h
    rcases sim_exec ops (pcbuffer_init p) (bounded_buffer_init ⟨p.buffer, 0, 0, 0⟩)
      (sim_init _ _ rfl) (bounded_buffer_init_ok _) with ⟨h1, _⟩ | ⟨q2, c, outs2, h1, h2, _⟩
    · rw [h1] at h; exact absurd h (by simp)
    · rw [h1] at h
      simp only [Option.some.injEq, Prod.mk.injEq] at h
      rw [← h.2]
      exact key _ c outs2 h2
  · intro p
    obtain ⟨q, hq, _⟩ :=
      bounded_buffer_exec_alternating xs (bounded_buffer_init p) (bounded_buffer_init_ok p) rfl
    exact ⟨q, hq⟩
  · intro p
    obtain ⟨c, hc, _⟩ := bounded_buffer_exec_alternating xs
      (bounded_buffer_init ⟨p.buffer, 0, 0, 0⟩) (bounded_buffer_init_ok _) rfl
    rcases sim_exec (alternating xs) (pcbuffer_init p) (bounded_buffer_init ⟨p.buffer, 0, 0, 0⟩)
      (sim_init _ _ rfl) (bounded_buffer_init_ok _) with ⟨_, h2⟩ | ⟨q2, c2, outs2, h1, h2, _⟩
    · rw [h2] at hc; exact absurd hc (by simp)
    · rw [h2] at hc
      simp only [Option.some.injEq, Prod.mk.injEq] at hc
      exact ⟨q2, by rw [h1, hc.2]⟩

/-- Witness of C1: ten items pushed with pops interleaved so that the queue
fills to its capacity of 8 on the way; both variants return them in order. -/
theorem fifo_round_trip_witness :
    (bounded_buffer_exec (bounded_buffer_init bounded_buffer_zero)
        ((List.range 8).map Request.push ++ [.pop, .pop, .push 8, .push 9] ++
          List.replicate 8 .pop)).map Prod.snd = some (List.range 10) ∧
    (pcbuffer_exec (pcbuffer_init pcbuffer_zero)
        ((List.range 8).map Request.push ++ [.pop, .pop, .push 8, .push 9] ++
          List.replicate 8 .pop)).map Prod.snd = some (List.range 10) := by
  have h := fifo_round_trip (List.range 10)
    ((List.range 8).map Request.push ++ [.pop, .pop, .push 8, .push 9] ++
      List.replicate 8 .pop) (by decide) (by decide)
  constructor
  · cases he : bounded_buffer_exec (bounded_buffer_init bounded_buffer_zero)
        ((List.range 8).map Request.push ++ [.pop, .pop, .push 8, .push 9] ++
          List.replicate 8 .pop) with
    | none => exact absurd (congrArg Option.isSome he) (by decide)
    | some r => simp only [Option.map_some', h.1 _ r.1 r.2 he]
  · cases he : pcbuffer_exec (pcbuffer_init pcbuffer_zero)
        ((List.range 8).map Request.push ++ [.pop, .pop, .push 8, .push 9] ++
          List.replicate 8 .pop) with
    | none => exact absurd (congrArg Option.isSome he) (by decide)
    | some r => simp only [Option.map_some', h.2.1 _ r.1 r.2 he]

/-- C2. Capacity invariant of the monitor queue: in every state reachable
from `bounded_buffer_init` by completed pushes and pops, `0 ≤ count ≤ 8`; a
push completes only when `count < 8` and raises `count` by exactly 1; a pop
completes only when `count > 0` and lowers `count` by exactly 1; a push on a
full queue and a pop on an empty queue do not complete and leave the state
unchanged. -/
theorem bounded_buffer_capacity_invariant {α : Type} {p : bounded_buffer_t α}
    (h : bounded_buffer_reachable p) :
    (0 ≤ p.count ∧ p.count ≤ BOUNDED_BUFFER_SIZE) ∧
    (∀ (x : α) (q : bounded_buffer_t α), bounded_buffer_push p x = some q →
        p.count < BOUNDED_BUFFER_SIZE ∧ q.count = p.count + 1) ∧
    (∀ r : bounded_buffer_t α × α, bounded_buffer_pop p = some r →
        0 < p.count ∧ r.1.count = p.count - 1) ∧
    (p.count = BOUNDED_BUFFER_SIZE → ∀ x : α,
        bounded_buffer_push p x = none ∧ bounded_buffer_serve p (.push x) = (p, .blocked)) ∧
    (p.count = 0 →
        bounded_buffer_pop p = none ∧ bounded_buffer_serve p .pop = (p, .blocked)) := by
  have hok := bounded_buffer_reachable_ok h
  refine ⟨⟨hok.1, hok.2.1⟩, ?_, ?_, ?_, ?_⟩
  · intro x q hq
    obtain ⟨h1, h2, _⟩ := bounded_buffer_push_spec hok hq
    exact ⟨h1, h2⟩
  · intro r hr
    obtain ⟨h1, h2, _⟩ := bounded_buffer_pop_spec hok hr
    exact ⟨h1, h2⟩
  · intro hc x
    have : bounded_buffer_push p x = none := by simp [bounded_buffer_push, hc]
    exact ⟨this, by simp [bounded_buffer_serve, this]⟩
  · intro hc
    have : bounded_buffer_pop p = none := by simp [bounded_buffer_pop, hc]
    exact ⟨this, by simp [bounded_buffer_serve, this]⟩

/-- Witness of C2: the state reached from an initialised buffer by one
completed push. -/
theorem bounded_buffer_capacity_invariant_witness :
    bounded_buffer_reachable
        ({ buffer := store (fun _ => 0) 0 7, next_in := 1, next_out := 0, count := 1 } :
          bounded_buffer_t Nat) ∧
      (0 : Int) ≤ 1 ∧ (1 : Int) ≤ BOUNDED_BUFFER_SIZE :=
  have hr : bounded_buffer_reachable
      ({ buffer := store (fun _ => 0) 0 7, next_in := 1, next_out := 0, count := 1 } :
        bounded_buffer_t Nat) :=
    bounded_buffer_reachable.push 7 (bounded_buffer_reachable.init bounded_buffer_zero) rfl
  ⟨hr, (bounded_buffer_capacity_invariant hr).1⟩

/-- C3. The semaphore variant and the monitor variant are functionally
equivalent: the relation `Sim` (`used = count`, `free = 8 - count`, equal
`next_in`, `next_out` and slots) holds after the two `init` functions (neither
writes the slots, so they are taken equal beforehand) and after every sequence
of requests served by both; the same requests block in both variants and every
pop returns the same item in both. -/
theorem pcbuffer_simulates_bounded_buffer {α : Type} (p : pcbuffer_t α)
    (b : bounded_buffer_t α) (hbuf : p.buffer = b.buffer) (reqs : List (Request α)) :
    Sim (pcbuffer_init p) (bounded_buffer_init b) ∧
    Sim (pcbuffer_serveAll (pcbuffer_init p) reqs).1
        (bounded_buffer_serveAll (bounded_buffer_init b) reqs).1 ∧
    (pcbuffer_serveAll (pcbuffer_init p) reqs).2 =
        (bounded_buffer_serveAll (bounded_buffer_init b) reqs).2 :=
  ⟨sim_init p b hbuf,
    sim_serveAll reqs _ _ (sim_init p b hbuf) (bounded_buffer_init_ok b)⟩

/-- Witness of C3: a pop on the empty queue blocks, nine pushes of which the
ninth blocks, then a pop and a push that complete, in both variants alike. -/
theorem pcbuffer_simulates_bounded_buffer_witness :
    (pcbuffer_serveAll (pcbuffer_init pcbuffer_zero) demoRequests).2 =
      (bounded_buffer_serveAll (bounded_buffer_init bounded_buffer_zero) demoRequests).2 ∧
    (bounded_buffer_serveAll (bounded_buffer_init bounded_buffer_zero) demoRequests).2 =
      .blocked :: List.replicate 8 .pushed ++ [.blocked, .popped 0, .pushed] := by
  refine ⟨?_, ?_⟩
  · exact (pcbuffer_simulates_bounded_buffer pcbuffer_zero bounded_buffer_zero rfl
      demoRequests).2.2
  · decide

/-- C4 as stated fails: a requested capacity of 1 would give a queue that
holds exactly `max 1 1 = 1` item, but the initialised queue (there is no
capacity argument) does not block the second push. -/
theorem capacity_not_clamped :
    ¬ (bounded_buffer_holds (bounded_buffer_init bounded_buffer_zero) 0
          (max (1 : Int) 1).toNat = true) ∧
    ¬ (pcbuffer_holds (pcbuffer_init pcbuffer_zero) 0 (max (1 : Int) 1).toNat = true) := by
  constructor <;> decide

/-- C4 amended. Neither `init` takes a capacity: the initialised queue holds
exactly `n` items before a further push blocks if and only if `n = 8`, the
compile-time size, and it starts empty (`count = 0`, `used = 0`,
`free = 8`). -/
theorem capacity_is_fixed {α : Type} (b : bounded_buffer_t α) (p : pcbuffer_t α) (x : α)
    (n : Nat) :
    (bounded_buffer_holds (bounded_buffer_init b) x n = true ↔ (n : Int) = BOUNDED_BUFFER_SIZE) ∧
    (pcbuffer_holds (pcbuffer_init p) x n = true ↔ (n : Int) = PCBUFFER_SIZE) ∧
    (bounded_buffer_init b).count = 0 ∧
    (pcbuffer_init p).used = 0 ∧ ((pcbuffer_init p).free : Int) = PCBUFFER_SIZE := by
  have h1 := bounded_buffer_holds_iff (bounded_buffer_init b) x n (bounded_buffer_init_ok b)
  have h2 := bounded_buffer_holds_iff (bounded_buffer_init ⟨p.buffer, 0, 0, 0⟩) x n
    (bounded_buffer_init_ok _)
  have h3 := pcbuffer_holds_eq (pcbuffer_init p) (bounded_buffer_init ⟨p.buffer, 0, 0, 0⟩) x n
    (sim_init _ _ rfl) (bounded_buffer_init_ok _)
  refine ⟨?_, ?_, rfl, rfl, rfl⟩
  · rw [h1]; simp [bounded_buffer_init, BOUNDED_BUFFER_SIZE]
  · rw [h3, h2]; simp [bounded_buffer_init, PCBUFFER_SIZE]


/-! ### Claims on the counting semaphore -/

theorem semaphore_step_nonneg (σ : SemSystem) (e : SemEvent) (h : 0 ≤ σ.sem.raw_count) :
    0 ≤ (σ.step e).1.sem.raw_count := by
  cases e with
  | up => simp only [SemSystem.step, semaphore_up]; omega
  | down =>
    simp only [SemSystem.step, semaphore_down]
    split <;> rename_i heq
    · split at heq
      · exact absurd heq (by simp)
      · have := Option.some.inj heq; subst this; simp only; omega
    · exact h
  | wake =>
    simp only [SemSystem.step, semaphore_down]
    split
    · exact h
    · split <;> rename_i heq
      · split at heq
        · exact absurd heq (by simp)
        · have := Option.some.inj heq; subst this; simp only; omega
      · exact h

theorem semaphore_run_nonneg (es : List SemEvent) :
    ∀ σ : SemSystem, 0 ≤ σ.sem.raw_count → 0 ≤ (σ.run es).sem.raw_count := by
  induction es with
  | nil => intro σ h; exact h
  | cons e es ih => intro σ h; exact ih _ (semaphore_step_nonneg σ e h)

theorem semaphore_init_nonneg (initial_count : Int) :
    0 ≤ (semaphore_init initial_count).raw_count := by
  simp only [semaphore_init]; split <;> omega

/-- C5. Counting-semaphore invariant: `semaphore_init` stores
`max initial_count 0`; in every state reached from it by any finite sequence
of `semaphore_up` calls, `semaphore_down` calls and wake-ups of waiting
threads, `raw_count ≥ 0`; there `semaphore_up` raises `raw_count` by exactly 1,
a step in which `semaphore_down` returns starts with `raw_count > 0` and lowers
it by exactly 1, and with `raw_count = 0` neither a fresh call nor a woken
waiter returns (`raw_count` stays 0). -/
theorem semaphore_invariant (initial_count : Int) (es : List SemEvent) :
    (semaphore_init initial_count).raw_count = max initial_count 0 ∧
    0 ≤ ((SemSystem.init initial_count).run es).sem.raw_count ∧
    (semaphore_up ((SemSystem.init initial_count).run es).sem).raw_count =
        ((SemSystem.init initial_count).run es).sem.raw_count + 1 ∧
    (∀ e : SemEvent, (((SemSystem.init initial_count).run es).step e).2 = true →
        0 < ((SemSystem.init initial_count).run es).sem.raw_count ∧
        (((SemSystem.init initial_count).run es).step e).1.sem.raw_count =
          ((SemSystem.init initial_count).run es).sem.raw_count - 1) ∧
    (((SemSystem.init initial_count).run es).sem.raw_count = 0 →
        semaphore_down ((SemSystem.init initial_count).run es).sem = none ∧
        ∀ e : SemEvent, e ≠ .up →
          (((SemSystem.init initial_count).run es).step e).2 = false ∧
          (((SemSystem.init initial_count).run es).step e).1.sem.raw_count = 0) := by
  have hinit : 0 ≤ (SemSystem.init initial_count).sem.raw_count :=
    semaphore_init_nonneg initial_count
  have hnn := semaphore_run_nonneg es _ hinit
  generalize (SemSystem.init initial_count).run es = σ at hnn ⊢
  refine ⟨?_, hnn, rfl, ?_, ?_⟩
  · simp only [semaphore_init]; split <;> omega
  · intro e he
    by_cases h0 : σ.sem.raw_count = 0
    · cases e <;> simp [SemSystem.step, semaphore_down, h0] at he
    · refine ⟨by omega, ?_⟩
      cases e with
      | up => simp [SemSystem.step] at he
      | down => simp [SemSystem.step, semaphore_down, h0]
      | wake =>
        by_cases hw : σ.waiting = 0
        · simp [SemSystem.step, hw] at he
        · simp [SemSystem.step, semaphore_down, h0, hw]
  · intro h0
    refine ⟨by simp [semaphore_down, h0], ?_⟩
    intro e hne
    cases e with
    | up => exact absurd rfl hne
    | down => simp [SemSystem.step, semaphore_down, h0]
    | wake =>
      by_cases hw : σ.waiting = 0
      · simp [SemSystem.step, hw, h0]
      · simp [SemSystem.step, semaphore_down, h0, hw]

/-- Witness of C5: initialised with -3 the count is 0; a down has to wait, a
spurious wake-up lets it wait on, an up followed by a wake-up lets it return
from count 1 and leaves 0. -/
theorem semaphore_invariant_witness :
    (((SemSystem.init (-3)).run [.down, .wake, .up]).step .wake).2 = true ∧
    (0 < ((SemSystem.init (-3)).run [.down, .wake, .up]).sem.raw_count ∧
      (((SemSystem.init (-3)).run [.down, .wake, .up]).step .wake).1.sem.raw_count =
        ((SemSystem.init (-3)).run [.down, .wake, .up]).sem.raw_count - 1) ∧
    ((SemSystem.init (-3)).run [.down, .wake]).sem.raw_count = 0 ∧
    (((SemSystem.init (-3)).run [.down, .wake]).step .wake).2 = false :=
  ⟨by decide,
    (semaphore_invariant (-3) [.down, .wake, .up]).2.2.2.1 .wake (by decide),
    by decide,
    (((semaphore_invariant (-3) [.down, .wake]).2.2.2.2 (by decide)).2 .wake (by decide)).1⟩


/-! ### Lemmas on the barrier -/

theorem count_set_add {α : Type} [DecidableEq α] (l : List α) (t : Nat) (x y b : α)
    (h : l[t]? = some x) :
    (l.set t y).count b + (if x = b then 1 else 0) = l.count b + (if y = b then 1 else 0) := by
  induction l generalizing t with
  | nil => simp at h
  | cons a l ih =>
    cases t with
    | zero =>
      simp only [List.getElem?_cons_zero, Option.some.injEq] at h
      subst h
      simp only [List.set_cons_zero, List.count_cons, beq_iff_eq]
      omega
    | succ t =>
      simp only [List.getElem?_cons_succ] at h
      have := ih t h
      simp only [List.set_cons_succ, List.count_cons, beq_iff_eq]
      omega

theorem barrier_init_inv (limit : Int) (threads : Nat) :
    (BarrierSystem.init limit threads).Inv (max limit 1) 0 := by
  have hc : (List.replicate threads BarrierPc.outside).count .wait_enough = 0 := by
    simp [List.count_replicate]
  unfold BarrierSystem.Inv BarrierSystem.waiters BarrierSystem.init barrier_init
  refine ⟨?_, ?_, ?_, ?_, Or.inl ⟨rfl, ?_, ?_⟩⟩
  · dsimp only; split <;> omega
  · dsimp only; rw [hc]; rfl
  · dsimp only; rfl
  · dsimp only; omega
  · dsimp only; simp
  · dsimp only; intro hh; omega

theorem barrier_step_inv (n : Int) (σ : BarrierSystem) (k : Nat) (t : Nat)
    (h : σ.Inv n k) : (σ.step t).Inv n k ∨ (σ.step t).Inv n (k + 1) := by
  obtain ⟨hmax, hcnt, hret, hlt, hph⟩ := h
  have hk : n * ((k : Int) + 1) = n * (k : Int) + n := by ring
  simp only [BarrierSystem.waiters] at hcnt
  unfold BarrierSystem.step
  split
  · exact Or.inl ⟨hmax, hcnt, hret, hlt, hph⟩
  · rename_i hpc
    have hset := fun y => count_set_add σ.pc t .wait_enough y .wait_enough hpc
    have hset1 := hset .outside
    have hset2 := hset .wait_enough
    simp only [if_true, reduceCtorEq, if_false] at hset1 hset2
    left
    simp only [barrier_resume]
    split
    · rename_i hw
      unfold BarrierSystem.Inv BarrierSystem.waiters
      refine ⟨hmax, ?_, ?_, hlt, ?_⟩
      · dsimp only; omega
      · dsimp only; simp only [reduceCtorEq, if_false]; exact hret
      · exact hph
    · rename_i hw
      have hw0 : σ.b.wait_needed = 0 := by simpa using hw
      have hrel : σ.b.releasing = 1 ∧ (σ.arrivals : Int) = n * k := by
        rcases hph with ⟨_, _, hwn⟩ | ⟨hr, harr, _, _⟩
        · have := hwn (by omega); omega
        · exact ⟨hr, harr⟩
      split
      · rename_i h0
        unfold BarrierSystem.Inv BarrierSystem.waiters
        refine ⟨hmax, ?_, ?_, ?_, Or.inl ⟨rfl, ?_, ?_⟩⟩
        · dsimp only; omega
        · dsimp only; simp only [if_true]; push_cast; omega
        · dsimp only; omega
        · dsimp only; omega
        · dsimp only; intro hh; omega
      · rename_i h0
        unfold BarrierSystem.Inv BarrierSystem.waiters
        refine ⟨hmax, ?_, ?_, ?_, Or.inr ⟨hrel.1, hrel.2, hw0, ?_⟩⟩
        · dsimp only; omega
        · dsimp only; simp only [if_true]; push_cast; omega
        · dsimp only; omega
        · dsimp only; intro _; omega
  · rename_i x hne hpc
    have hx : x ≠ .wait_enough := hne
    have hset := fun y => count_set_add σ.pc t x y .wait_enough hpc
    have hset1 := hset .outside
    have hset2 := hset .wait_enough
    have hset3 := hset .wait_released
    simp only [hx, if_true, reduceCtorEq, if_false] at hset1 hset2 hset3
    simp only [barrier_enter, barrier_arrive]
    split
    · rename_i hr
      left
      unfold BarrierSystem.Inv BarrierSystem.waiters
      refine ⟨hmax, ?_, ?_, hlt, ?_⟩
      · dsimp only; omega
      · dsimp only; simp only [reduceCtorEq, if_false, Bool.false_eq_true]; exact hret
      · dsimp only; simp only [Bool.false_eq_true, if_false]; exact hph
    · rename_i hr
      have hr0 : σ.b.releasing = 0 := by simpa using hr
      have harr : (σ.arrivals : Int) = n * k + σ.b.count := by
        rcases hph with ⟨_, harr, _⟩ | ⟨hr1, _, _, _⟩
        · exact harr
        · omega
      split
      · rename_i heq
        right
        unfold BarrierSystem.Inv BarrierSystem.waiters
        refine ⟨hmax, ?_, ?_, ?_, Or.inr ⟨rfl, ?_, rfl, ?_⟩⟩
        · dsimp only; omega
        · dsimp only; simp only [if_true]; push_cast; omega
        · dsimp only; omega
        · dsimp only; simp only [if_true]; push_cast; omega
        · dsimp only; intro _; omega
      · rename_i hneq
        left
        unfold BarrierSystem.Inv BarrierSystem.waiters
        refine ⟨hmax, ?_, ?_, ?_, Or.inl ⟨hr0, ?_, fun _ => rfl⟩⟩
        · dsimp only; omega
        · dsimp only; simp only [if_true, reduceCtorEq, if_false]; push_cast; omega
        · dsimp only; omega
        · dsimp only; simp only [if_true]; push_cast; omega

theorem barrier_run_inv (n : Int) (ts : List Nat) :
    ∀ (σ : BarrierSystem) (k : Nat), σ.Inv n k → ∃ k2, (σ.run ts).Inv n k2 := by
  induction ts with
  | nil => intro σ k h; exact ⟨k, h⟩
  | cons t ts ih =>
    intro σ k h
    rcases barrier_step_inv n σ k t h with h1 | h1
    · exact ih _ _ h1
    · exact ih _ _ h1

theorem barrier_reachable_inv (limit : Int) (threads : Nat) (ts : List Nat) :
    ∃ k, ((BarrierSystem.init limit threads).run ts).Inv (max limit 1) k :=
  barrier_run_inv _ ts _ 0 (barrier_init_inv limit threads)

theorem barrier_groups (n a c : Int) (k : Nat) (hn : 0 < n) (hc0 : 0 ≤ c) (hc : c < n)
    (ha : a = n * k + c) : a / n = k ∧ a % n = c := by
  rw [Int.ediv_emod_unique hn]
  exact ⟨by rw [ha]; ring, hc0, hc⟩

/-- The state in which a barrier of limit 1 is left by its first caller: the
release flag is set and nobody is inside to clear it. -/
theorem barrier_stuck_step (σ : BarrierSystem) (t : Nat)
    (h : σ.b.releasing = 1 ∧ σ.waiters = 0) :
    (σ.step t).b = σ.b ∧ (σ.step t).waiters = 0 ∧ (σ.step t).arrivals = σ.arrivals ∧
      (σ.step t).returns = σ.returns := by
  obtain ⟨hr, hw⟩ := h
  simp only [BarrierSystem.waiters] at hw
  unfold BarrierSystem.step
  split
  · exact ⟨rfl, hw, rfl, rfl⟩
  · rename_i hpc
    have := count_set_add σ.pc t .wait_enough .outside .wait_enough hpc
    simp only [if_true, reduceCtorEq, if_false] at this
    omega
  · rename_i x hne hpc
    have hset := count_set_add σ.pc t x .wait_released .wait_enough hpc
    simp only [hne, reduceCtorEq, if_false] at hset
    have hr2 : σ.b.releasing ≠ 0 := by omega
    simp only [barrier_enter, hr2, ne_eq, not_false_eq_true, if_true, BarrierSystem.waiters,
      reduceCtorEq, if_false, Bool.false_eq_true]
    refine ⟨?_, ?_, ?_, ?_⟩ <;> first | trivial | rfl | omega

theorem barrier_stuck_run (ts : List Nat) :
    ∀ σ : BarrierSystem, σ.b.releasing = 1 ∧ σ.waiters = 0 →
      (σ.run ts).b = σ.b ∧ (σ.run ts).arrivals = σ.arrivals ∧
        (σ.run ts).returns = σ.returns := by
  induction ts with
  | nil => intro σ _; exact ⟨rfl, rfl, rfl⟩
  | cons t ts ih =>
    intro σ h
    obtain ⟨h1, h2, h3, h4⟩ := barrier_stuck_step σ t h
    obtain ⟨h5, h6, h7⟩ := ih (σ.step t) ⟨by rw [h1]; exact h.1, h2⟩
    exact ⟨by rw [← h1]; exact h5, by rw [← h3]; exact h6, by rw [← h4]; exact h7⟩

/-- For a limit of at least 2 the barrier is open again as soon as every
registered arrival has returned. -/
theorem barrier_reopens (limit : Int) (threads : Nat) (ts : List Nat) (h2 : 2 ≤ limit)
    (hall : ((BarrierSystem.init limit threads).run ts).returns =
      ((BarrierSystem.init limit threads).run ts).arrivals) :
    ((BarrierSystem.init limit threads).run ts).b.releasing = 0 ∧
      ((BarrierSystem.init limit threads).run ts).b.count = 0 := by
  obtain ⟨k, hmax, hcnt, hret, hlt, hph⟩ := barrier_reachable_inv limit threads ts
  have hn : max limit 1 = limit := by omega
  rw [hn] at hph hlt
  rcases hph with ⟨hr, _, _⟩ | ⟨_, _, _, hpos⟩
  · exact ⟨hr, by omega⟩
  · have := hpos h2; omega

/-! ### Claims on the barrier -/

/-- C6. Barrier rendezvous: for a barrier initialised with limit `n ≥ 1`, any
number of threads and any schedule (every step one lock-protected region of
`barrier_wait`, every waiting thread free to wake at any time), the calls that
have returned never exceed `n` times the number of complete groups of `n`
registered arrivals; every registered arrival has either returned or still
waits on `not_enough`; and whenever the barrier is open (`releasing = 0`) or
nobody waits on `not_enough`, exactly `n` calls per complete group have
returned. -/
theorem barrier_rendezvous (n : Int) (threads : Nat) (ts : List Nat) (hn : 1 ≤ n) :
    (((BarrierSystem.init n threads).run ts).returns : Int) ≤
        n * ((((BarrierSystem.init n threads).run ts).arrivals : Int) / n) ∧
    ((BarrierSystem.init n threads).run ts).returns +
        ((BarrierSystem.init n threads).run ts).waiters =
      ((BarrierSystem.init n threads).run ts).arrivals ∧
    (((BarrierSystem.init n threads).run ts).b.releasing = 0 ∨
        ((BarrierSystem.init n threads).run ts).waiters = 0 →
      (((BarrierSystem.init n threads).run ts).returns : Int) =
        n * ((((BarrierSystem.init n threads).run ts).arrivals : Int) / n)) := by
  obtain ⟨k, hmax, hcnt, hret, hlt, hph⟩ := barrier_reachable_inv n threads ts
  have hmn : max n 1 = n := by omega
  rw [hmn] at hph hlt
  generalize (BarrierSystem.init n threads).run ts = σ at *
  have hw0 : (0 : Int) ≤ σ.waiters := Int.natCast_nonneg _
  rcases hph with ⟨hr, harr, _⟩ | ⟨hr, harr, _, _⟩
  · obtain ⟨hq, _⟩ := barrier_groups n σ.arrivals σ.b.count k (by omega) (by omega) hlt harr
    rw [hq]
    refine ⟨by omega, by omega, fun _ => by omega⟩
  · obtain ⟨hq, _⟩ := barrier_groups n σ.arrivals 0 k (by omega) (by omega) (by omega)
      (by omega)
    rw [hq]
    refine ⟨by omega, by omega, ?_⟩
    rintro (h | h)
    · omega
    · omega

/-- Witness of C6 (the seed): limit 5, five threads, three successive rounds;
in the middle of the third round 10 calls have returned for 13 arrivals, at
its end 15 for 15. -/
theorem barrier_rendezvous_witness :
    (((BarrierSystem.init 5 5).run
        [0, 1, 2, 3, 4, 0, 1, 2, 3, 3, 2, 1, 0, 4, 4, 0, 1, 2, 3, 0, 1, 2]).returns : Int) ≤
      5 * ((((BarrierSystem.init 5 5).run
        [0, 1, 2, 3, 4, 0, 1, 2, 3, 3, 2, 1, 0, 4, 4, 0, 1, 2, 3, 0, 1, 2]).arrivals : Int) / 5) ∧
    ((BarrierSystem.init 5 5).run
        [0, 1, 2, 3, 4, 0, 1, 2, 3, 3, 2, 1, 0, 4, 4, 0, 1, 2, 3, 0, 1, 2]).arrivals = 13 ∧
    ((BarrierSystem.init 5 5).run
        [0, 1, 2, 3, 4, 0, 1, 2, 3, 3, 2, 1, 0, 4, 4, 0, 1, 2, 3, 0, 1, 2]).returns = 10 :=
  ⟨(barrier_rendezvous 5 5
      [0, 1, 2, 3, 4, 0, 1, 2, 3, 3, 2, 1, 0, 4, 4, 0, 1, 2, 3, 0, 1, 2] (by decide)).1,
    by decide, by decide⟩

/-- C7 at the failing input. With a limit of at most 1 (stored as 1) the first
call of `barrier_wait` registers its arrival and returns, which completes the
round; from then on, under every schedule, `releasing` stays 1 (the barrier is
not back in its open state) and no further call is registered or returns. -/
theorem barrier_limit_one_stuck (limit : Int) (threads t : Nat) (ts : List Nat)
    (hl : limit ≤ 1) (ht : t < threads) :
    (((BarrierSystem.init limit threads).step t).run ts).arrivals = 1 ∧
    (((BarrierSystem.init limit threads).step t).run ts).returns = 1 ∧
    (((BarrierSystem.init limit threads).step t).run ts).b.max = 1 ∧
    (((BarrierSystem.init limit threads).step t).run ts).b.count = 0 ∧
    (((BarrierSystem.init limit threads).step t).run ts).b.releasing = 1 := by
  have hmax : (barrier_init limit).max = 1 := by
    simp only [barrier_init]; split <;> omega
  have hpc : (BarrierSystem.init limit threads).pc[t]? = some .outside := by
    simp [BarrierSystem.init, List.getElem?_replicate, ht]
  have hb : (BarrierSystem.init limit threads).b = barrier_init limit := rfl
  have hfirst : ((BarrierSystem.init limit threads).step t).b =
        { max := 1, count := 0, releasing := 1, wait_needed := 0 } ∧
      ((BarrierSystem.init limit threads).step t).arrivals = 1 ∧
      ((BarrierSystem.init limit threads).step t).returns = 1 ∧
      ((BarrierSystem.init limit threads).step t).waiters = 0 := by
    have hc := count_set_add (BarrierSystem.init limit threads).pc t .outside .outside
      .wait_enough hpc
    have hc0 : (BarrierSystem.init limit threads).pc.count .wait_enough = 0 := by
      simp [BarrierSystem.init, List.count_replicate]
    simp only [reduceCtorEq, if_false] at hc
    unfold BarrierSystem.step
    rw [hpc]
    have hcount : (barrier_init limit).count = 0 := rfl
    have hrel : (barrier_init limit).releasing = 0 := rfl
    simp only [hb, barrier_enter, barrier_arrive, hrel, hcount, hmax, ne_eq, not_true_eq_false,
      if_false, zero_add, if_true, BarrierSystem.waiters]
    refine ⟨by simp, rfl, rfl, by omega⟩
  obtain ⟨h1, h2, h3, h4⟩ := hfirst
  obtain ⟨h5, h6, h7⟩ := barrier_stuck_run ts ((BarrierSystem.init limit threads).step t)
    ⟨by rw [h1], h4⟩
  rw [h5, h6, h7, h1, h2, h3]
  exact ⟨rfl, rfl, rfl, rfl, rfl⟩

/-- Witness of C7 at the failing input: limit 1, two threads; thread 0 passes
the barrier once, afterwards both threads call again and again and stay
blocked. -/
theorem barrier_limit_one_stuck_witness :
    (((BarrierSystem.init 1 2).step 0).run [1, 0, 1, 1, 0, 0]).returns = 1 ∧
    (((BarrierSystem.init 1 2).step 0).run [1, 0, 1, 1, 0, 0]).b.releasing = 1 ∧
    (((BarrierSystem.init 1 2).step 0).run [1, 0, 1, 1, 0, 0]).pc =
      [.wait_released, .wait_released] :=
  ⟨(barrier_limit_one_stuck 1 2 0 [1, 0, 1, 1, 0, 0] (by decide) (by decide)).2.1,
    (barrier_limit_one_stuck 1 2 0 [1, 0, 1, 1, 0, 0] (by decide) (by decide)).2.2.2.2,
    by decide⟩

/-- C8. Arrival-count invariant and round separation: in every state reachable
from `barrier_init(limit)`, `0 ≤ count ≤ max` (even `count + 1 ≤ max`, so the
incremented value inside a region stays within `max`); a step registers an
arrival only from a state with `releasing = 0`; while `releasing ≠ 0` a thread
that calls `barrier_wait` blocks on `all_released` without touching the
barrier, and no step increases `count`. -/
theorem barrier_count_invariant (limit : Int) (threads : Nat) (ts : List Nat) (t : Nat) :
    (0 ≤ ((BarrierSystem.init limit threads).run ts).b.count ∧
      ((BarrierSystem.init limit threads).run ts).b.count + 1 ≤
        ((BarrierSystem.init limit threads).run ts).b.max ∧
      ((BarrierSystem.init limit threads).run ts).b.count ≤
        ((BarrierSystem.init limit threads).run ts).b.max) ∧
    ((((BarrierSystem.init limit threads).run ts).step t).arrivals ≠
        ((BarrierSystem.init limit threads).run ts).arrivals →
      ((BarrierSystem.init limit threads).run ts).b.releasing = 0) ∧
    (((BarrierSystem.init limit threads).run ts).b.releasing ≠ 0 →
      ((BarrierSystem.init limit threads).run ts).pc[t]? = some .outside →
      (((BarrierSystem.init limit threads).run ts).step t).pc[t]? = some .wait_released ∧
      (((BarrierSystem.init limit threads).run ts).step t).b =
        ((BarrierSystem.init limit threads).run ts).b) ∧
    (((BarrierSystem.init limit threads).run ts).b.releasing ≠ 0 →
      (((BarrierSystem.init limit threads).run ts).step t).b.count ≤
        ((BarrierSystem.init limit threads).run ts).b.count) := by
  obtain ⟨k, hmax, hcnt, hret, hlt, hph⟩ := barrier_reachable_inv limit threads ts
  generalize (BarrierSystem.init limit threads).run ts = σ at *
  have hw0 : (0 : Int) ≤ σ.waiters := Int.natCast_nonneg _
  refine ⟨⟨by omega, by omega, by omega⟩, ?_, ?_, ?_⟩
  · intro harr
    by_contra hr
    apply harr
    unfold BarrierSystem.step
    split
    · rfl
    · rfl
    · simp [barrier_enter, hr]
  · intro hr hpc
    have hlen : t < σ.pc.length := by
      rcases Nat.lt_or_ge t σ.pc.length with h | h
      · exact h
      · rw [List.getElem?_eq_none h] at hpc; exact absurd hpc (by simp)
    unfold BarrierSystem.step
    rw [hpc]
    simp [barrier_enter, hr, hlen]
  · intro hr
    unfold BarrierSystem.step
    split
    · exact le_refl _
    · simp only [barrier_resume]
      split
      · exact le_refl _
      · split <;> simp only <;> omega
    · simp [barrier_enter, hr]

/-- Witness of C8: limit 2, three threads; threads 0 and 1 meet, the release
of their round is going on (`releasing = 1`, thread 0 still inside) when
thread 2 calls: it blocks and is not counted. -/
theorem barrier_count_invariant_witness :
    ((BarrierSystem.init 2 3).run [0, 1]).b.releasing = 1 ∧
    (((BarrierSystem.init 2 3).run [0, 1]).step 2).pc[2]? = some .wait_released ∧
    (((BarrierSystem.init 2 3).run [0, 1]).step 2).b = ((BarrierSystem.init 2 3).run [0, 1]).b :=
  ⟨by decide,
    (barrier_count_invariant 2 3 [0, 1] 2).2.2.1 (by decide) (by decide)⟩


/-! ### Lemmas on the reader/writer lock -/

theorem count_set_sub {α : Type} [DecidableEq α] (l : List α) (t : Nat) (x y b : α)
    (h : l[t]? = some x) :
    (l.set t y).count b = l.count b + (if y = b then 1 else 0) - (if x = b then 1 else 0) := by
  have := count_set_add l t x y b h
  omega

theorem count_pos_of_getElem? {α : Type} [DecidableEq α] (l : List α) (t : Nat) (x : α)
    (h : l[t]? = some x) : 1 ≤ l.count x :=
  List.count_pos_iff.mpr (List.getElem?_mem h)

set_option maxHeartbeats 4000000 in
theorem rw_step_inv (σ : RwSystem) (t : Nat) (c : RwCall) (h : σ.Inv) : (σ.step t c).Inv := by
  obtain ⟨⟨mutex, wrt, rc⟩, pcs⟩ := σ
  unfold RwSystem.step
  dsimp only
  split
  · exact h
  · rename_i p hpc
    have hpos := count_pos_of_getElem? pcs t p hpc
    simp only [RwSystem.Inv, RwSystem.readersHold, RwSystem.at] at h ⊢
    cases p <;> cases c <;> cases mutex <;> cases wrt <;>
      simp only [rw_statement, count_set_sub pcs t _ _ _ hpc, reduceCtorEq, if_true, if_false,
        Bool.false_eq_true, Bool.toNat_true, Bool.toNat_false] at h hpos ⊢ <;>
      (try split) <;>
      (try simp only [count_set_sub pcs t _ _ _ hpc, reduceCtorEq, if_true, if_false,
        Bool.toNat_true, Bool.toNat_false, false_and, and_false, or_false, false_or,
        true_and, and_true] at h hpos ⊢) <;>
      omega

theorem rw_init_inv (threads : Nat) : (RwSystem.init threads).Inv := by
  simp [RwSystem.Inv, RwSystem.readersHold, RwSystem.at, RwSystem.init, rw_init,
    List.count_replicate]

theorem rw_run_inv (sched : List (Nat × RwCall)) :
    ∀ σ : RwSystem, σ.Inv → (σ.run sched).Inv := by
  induction sched with
  | nil => intro σ h; exact h
  | cons a rest ih => intro σ h; exact ih _ (rw_step_inv σ a.1 a.2 h)

theorem rw_reachable_inv (threads : Nat) (sched : List (Nat × RwCall)) :
    ((RwSystem.init threads).run sched).Inv :=
  rw_run_inv sched _ (rw_init_inv threads)

theorem two_le_count {α : Type} [DecidableEq α] (l : List α) (i j : Nat) (a : α)
    (hi : l[i]? = some a) (hj : l[j]? = some a) (hij : i ≠ j) : 2 ≤ l.count a := by
  have h1 := count_set_add l i a a a hi
  induction l generalizing i j with
  | nil => simp at hi
  | cons b l ih =>
    cases i with
    | zero =>
      cases j with
      | zero => exact absurd rfl hij
      | succ j =>
        simp only [List.getElem?_cons_zero, Option.some.injEq] at hi
        simp only [List.getElem?_cons_succ] at hj
        have := count_pos_of_getElem? l j a hj
        simp only [List.count_cons, hi, beq_self_eq_true, if_true]
        omega
    | succ i =>
      cases j with
      | zero =>
        simp only [List.getElem?_cons_zero, Option.some.injEq] at hj
        simp only [List.getElem?_cons_succ] at hi
        have := count_pos_of_getElem? l i a hi
        simp only [List.count_cons, hj, beq_self_eq_true, if_true]
        omega
      | succ j =>
        simp only [List.getElem?_cons_succ] at hi hj
        have := ih i j hi hj (by omega) (count_set_add l i a a a hi)
        simp only [List.count_cons]
        omega

/-! ### Claims on the reader/writer lock -/

/-- C9. Reader/writer exclusion: in every state reachable from `rw_init` by
any interleaving of the statements of well-bracketed `read_lock` ...
`read_unlock` and `write_lock` ... `write_unlock` calls of any number of
threads, no two distinct threads both hold write access, and no thread holds
write access while another holds read access. -/
theorem rw_exclusion (threads : Nat) (sched : List (Nat × RwCall)) (t1 t2 : Nat) :
    (((RwSystem.init threads).run sched).holdsWrite t1 →
      ((RwSystem.init threads).run sched).holdsWrite t2 → t1 = t2) ∧
    (((RwSystem.init threads).run sched).holdsWrite t1 →
      ¬ ((RwSystem.init threads).run sched).holdsRead t2) := by
  have hinv := rw_reachable_inv threads sched
  generalize (RwSystem.init threads).run sched = σ at *
  obtain ⟨_, _, _, _, hw⟩ := hinv
  have hle : σ.lock.wrt.toNat ≤ 1 := Bool.toNat_le _
  simp only [RwSystem.readersHold, RwSystem.at] at hw
  constructor
  · intro h1 h2
    by_contra hne
    have := two_le_count σ.pc t1 t2 .writing h1 h2 hne
    omega
  · intro h1 h2
    have hc1 := count_pos_of_getElem? σ.pc t1 .writing h1
    have hc2 := count_pos_of_getElem? σ.pc t2 .reading h2
    omega

/-- Witness of C9: thread 0 acquires read access, thread 1 calls `write_lock`
and is held at `wrt`; thread 0 runs `read_unlock` to its end, and only then
does thread 1 get write access. -/
theorem rw_exclusion_witness :
    ((RwSystem.init 3).run
        [(0, .read), (0, .read), (0, .read), (0, .read), (0, .read), (0, .read),
          (1, .write), (1, .write), (0, .read), (0, .read), (0, .read), (0, .read),
          (0, .read), (0, .read), (1, .write)]).holdsWrite 1 ∧
    ¬ ((RwSystem.init 3).run
        [(0, .read), (0, .read), (0, .read), (0, .read), (0, .read), (0, .read),
          (1, .write), (1, .write), (0, .read), (0, .read), (0, .read), (0, .read),
          (0, .read), (0, .read), (1, .write)]).holdsRead 0 :=
  have hw : ((RwSystem.init 3).run
        [(0, .read), (0, .read), (0, .read), (0, .read), (0, .read), (0, .read),
          (1, .write), (1, .write), (0, .read), (0, .read), (0, .read), (0, .read),
          (0, .read), (0, .read), (1, .write)]).holdsWrite 1 := by
    unfold RwSystem.holdsWrite; decide
  ⟨hw, (rw_exclusion 3 _ 1 0).2 hw⟩

/-- C10 as stated fails: a writer (thread 0) holds access while a reader
(thread 1) inside `read_lock` has already incremented `readcount`, which is 1
and not 0. -/
theorem rw_readcount_with_writer :
    ¬ (((RwSystem.init 2).run
          [(0, .write), (0, .write), (1, .read), (1, .read), (1, .read)]).holdsWrite 0 →
        ((RwSystem.init 2).run
          [(0, .write), (0, .write), (1, .read), (1, .read), (1, .read)]).lock.readcount = 0) := by
  unfold RwSystem.holdsWrite; decide

/-- C10 amended. In every reachable state `readcount ≥ 0`; if a writer holds
access then `readcount` is 0 or 1, no thread is between the return of its
`read_lock` and the decrement in its `read_unlock`, and `readcount = 1` exactly
when one reader inside `read_lock` has incremented the counter and has not yet
acquired `wrt`. -/
theorem rw_readcount_invariant (threads : Nat) (sched : List (Nat × RwCall)) (t : Nat) :
    0 ≤ ((RwSystem.init threads).run sched).lock.readcount ∧
    (((RwSystem.init threads).run sched).holdsWrite t →
      ((RwSystem.init threads).run sched).lock.readcount ≤ 1 ∧
      ((RwSystem.init threads).run sched).lock.readcount =
        ((((RwSystem.init threads).run sched).at .rl_test +
          ((RwSystem.init threads).run sched).at .rl_lock_wrt : Nat) : Int) ∧
      ((RwSystem.init threads).run sched).at .rl_unlock_mutex +
        ((RwSystem.init threads).run sched).at .reading +
        ((RwSystem.init threads).run sched).at .ru_lock_mutex +
        ((RwSystem.init threads).run sched).at .ru_decr = 0) := by
  have hinv := rw_reachable_inv threads sched
  generalize (RwSystem.init threads).run sched = σ at *
  obtain ⟨hm, hrc, _, _, hw⟩ := hinv
  have hle : σ.lock.wrt.toNat ≤ 1 := Bool.toNat_le _
  have hlm : σ.lock.mutex.toNat ≤ 1 := Bool.toNat_le _
  simp only [RwSystem.readersHold] at hw
  refine ⟨by omega, ?_⟩
  intro h1
  have hc1 : 1 ≤ σ.at .writing := count_pos_of_getElem? σ.pc t .writing h1
  refine ⟨by omega, by omega, by omega⟩

/-- Witness of C10 amended: the state of the counterexample, writer inside,
one reader counted and held at `wrt`. -/
theorem rw_readcount_invariant_witness :
    ((RwSystem.init 2).run
        [(0, .write), (0, .write), (1, .read), (1, .read), (1, .read)]).holdsWrite 0 ∧
    ((RwSystem.init 2).run
        [(0, .write), (0, .write), (1, .read), (1, .read), (1, .read)]).lock.readcount ≤ 1 :=
  have hw : ((RwSystem.init 2).run
        [(0, .write), (0, .write), (1, .read), (1, .read), (1, .read)]).holdsWrite 0 := by
    unfold RwSystem.holdsWrite; decide
  ⟨hw, ((rw_readcount_invariant 2 _ 0).2 hw).1⟩


/-! ### Whole calls on the reader/writer lock -/

theorem read_lock_first :
    read_lock { mutex := false, wrt := false, readcount := 0 } =
      some ({ mutex := false, wrt := true, readcount := 1 }, .reading,
        [.idle, .rl_lock_mutex, .rl_incr, .rl_test, .rl_lock_wrt, .rl_unlock_mutex]) := by
  decide

theorem read_lock_next (w : Bool) (n : Int) (hn : n ≠ 0) :
    read_lock { mutex := false, wrt := w, readcount := n } =
      some ({ mutex := false, wrt := w, readcount := n + 1 }, .reading,
        [.idle, .rl_lock_mutex, .rl_incr, .rl_test, .rl_unlock_mutex]) := by
  have h1 : ¬ (n + 1 = 1) := by omega
  simp [read_lock, rw_call, rw_statement, RwPc.atRest, h1]

theorem read_unlock_last (w : Bool) :
    read_unlock { mutex := false, wrt := w, readcount := 1 } =
      some ({ mutex := false, wrt := false, readcount := 0 }, .idle,
        [.reading, .ru_lock_mutex, .ru_decr, .ru_test, .ru_unlock_wrt, .ru_unlock_mutex]) := by
  simp [read_unlock, rw_call, rw_statement, RwPc.atRest]

theorem read_unlock_more (w : Bool) (n : Int) (hn : n ≠ 1) :
    read_unlock { mutex := false, wrt := w, readcount := n } =
      some ({ mutex := false, wrt := w, readcount := n - 1 }, .idle,
        [.reading, .ru_lock_mutex, .ru_decr, .ru_test, .ru_unlock_mutex]) := by
  have h1 : ¬ (n - 1 = 0) := by omega
  simp [read_unlock, rw_call, rw_statement, RwPc.atRest, h1]

theorem rw_repeat_succ (f : rw_lock → Option (rw_lock × RwPc × List RwPc)) (k : Nat) :
    ∀ l : rw_lock, rw_repeat f (k + 1) l =
      (rw_repeat f k l).bind fun m => (f m).map fun r => r.1 := by
  induction k with
  | zero => intro l; simp [rw_repeat]; cases f l <;> rfl
  | succ k ihk =>
    intro l
    cases h : f l with
    | none => simp [rw_repeat, h]
    | some r =>
      have h1 : rw_repeat f (k + 1 + 1) l = rw_repeat f (k + 1) r.1 := by
        rw [rw_repeat, h]; rfl
      have h2 : rw_repeat f (k + 1) l = rw_repeat f k r.1 := by
        rw [rw_repeat, h]; rfl
      rw [h1, h2, ihk r.1]

theorem rw_repeat_read_lock (j : Nat) :
    rw_repeat read_lock j rw_init =
      some { mutex := false, wrt := decide (0 < j), readcount := j } := by
  induction j with
  | zero => rfl
  | succ j ih =>
    rw [rw_repeat_succ, ih]
    simp only [Option.some_bind]
    cases j with
    | zero => rw [show (({ mutex := false, wrt := decide (0 < 0), readcount := ((0 : Nat) : Int) }
          : rw_lock)) = { mutex := false, wrt := false, readcount := 0 } from rfl,
        read_lock_first]; rfl
    | succ j =>
      rw [read_lock_next _ _ (by omega)]
      simp

theorem rw_repeat_read_unlock (k j : Nat) (hk : 1 ≤ k) (hj : j ≤ k) :
    rw_repeat read_unlock j { mutex := false, wrt := true, readcount := k } =
      some { mutex := false, wrt := decide (j < k), readcount := (k : Int) - j } := by
  induction j with
  | zero =>
    have e : decide (0 < k) = true := by simpa using hk
    simp [rw_repeat, e]
  | succ j ih =>
    rw [rw_repeat_succ, ih (by omega)]
    simp only [Option.some_bind]
    have hjk : j < k := by omega
    have e1 : decide (j < k) = true := by simpa using hjk
    rw [e1]
    by_cases hlast : j + 1 = k
    · have h1 : (k : Int) - j = 1 := by omega
      have e2 : decide (j + 1 < k) = false := by simp; omega
      have h2 : (k : Int) - ((j + 1 : Nat) : Int) = 0 := by omega
      rw [h1, read_unlock_last, e2, h2]
      rfl
    · have h1 : (k : Int) - j ≠ 1 := by omega
      have e2 : decide (j + 1 < k) = true := by simp; omega
      have h2 : (k : Int) - ((j + 1 : Nat) : Int) = (k : Int) - j - 1 := by omega
      rw [read_unlock_more _ _ h1, e2, h2]
      rfl

theorem rw_call_run (c : RwCall) (fuel : Nat) :
    ∀ (σ : RwSystem) (t : Nat) (p : RwPc) (r : rw_lock × RwPc × List RwPc),
      σ.pc[t]? = some p → rw_call c fuel σ.lock p = some r →
      σ.run (List.replicate r.2.2.length (t, c)) = { lock := r.1, pc := σ.pc.set t r.2.1 } := by
  induction fuel with
  | zero => intro σ t p r _ h; simp [rw_call] at h
  | succ fuel ih =>
    intro σ t p r hpc h
    have hlt : t < σ.pc.length := by
      rcases Nat.lt_or_ge t σ.pc.length with h1 | h1
      · exact h1
      · rw [List.getElem?_eq_none h1] at hpc; exact absurd hpc (by simp)
    have hstep : σ.step t c =
        { lock := (rw_statement σ.lock c p).1, pc := σ.pc.set t (rw_statement σ.lock c p).2 } := by
      unfold RwSystem.step; rw [hpc]
    unfold rw_call at h
    split at h
    · exact absurd h (by simp)
    · split at h
      · have hr := Option.some.inj h
        subst hr
        simp only [List.length_singleton, List.replicate_one, RwSystem.run, hstep]
      · simp only [Option.map_eq_some'] at h
        obtain ⟨x, hx, rfl⟩ := h
        have hpc2 : (σ.step t c).pc[t]? = some (rw_statement σ.lock c p).2 := by
          rw [hstep]; simp [hlt]
        have hl2 : (σ.step t c).lock = (rw_statement σ.lock c p).1 := by rw [hstep]
        have := ih (σ.step t c) t _ x hpc2 (by rw [hl2]; exact hx)
        simp only [List.length_cons, List.replicate_succ, RwSystem.run, this]
        rw [hstep]
        simp

theorem rw_run_append (a b : List (Nat × RwCall)) :
    ∀ σ : RwSystem, σ.run (a ++ b) = (σ.run a).run b := by
  induction a with
  | nil => intro σ; rfl
  | cons x a ih => intro σ; exact ih (σ.step x.1 x.2)

theorem rw_returns_append (a b : List (Nat × RwCall)) :
    ∀ σ : RwSystem, σ.readLockReturns (a ++ b) =
      σ.readLockReturns a + (σ.run a).readLockReturns b := by
  induction a with
  | nil => intro σ; simp [RwSystem.readLockReturns, RwSystem.run]
  | cons x a ih =>
    intro σ
    have := ih (σ.step x.1 x.2)
    show _ + (σ.step x.1 x.2).readLockReturns (a ++ b) =
      _ + (σ.step x.1 x.2).readLockReturns a + ((σ.step x.1 x.2).run a).readLockReturns b
    omega

set_option maxRecDepth 100000 in
theorem starve_prefix_run : (RwSystem.init 3).run starvePrefix = starveState := by decide

set_option maxRecDepth 100000 in
theorem starve_round_run : starveState.run starveRound = starveState := by decide

set_option maxRecDepth 100000 in
theorem starve_round_returns : starveState.readLockReturns starveRound = 2 := by decide

theorem set_getElem?_self {α : Type} (l : List α) (t : Nat) (x : α) (h : l[t]? = some x) :
    l.set t x = l := by
  induction l generalizing t with
  | nil => rfl
  | cons a l ih =>
    cases t with
    | zero =>
      simp only [List.getElem?_cons_zero, Option.some.injEq] at h
      simp [h]
    | succ t =>
      simp only [List.getElem?_cons_succ] at h
      simp [ih t h]

theorem writerWaits_blocked (σ : RwSystem) (h : σ.writerWaits) : σ.step 0 .write = σ := by
  obtain ⟨hpc, hw, _⟩ := h
  unfold RwSystem.step
  rw [hpc]
  simp only [rw_statement, hw, if_true]
  rw [set_getElem?_self _ _ _ hpc]

theorem waitsAlong_take (sched : List (Nat × RwCall)) :
    ∀ (σ : RwSystem) (m : Nat), σ.waitsAlong sched = true →
      (σ.run (sched.take m)).writerWaits := by
  induction sched with
  | nil =>
    intro σ m h
    simp only [RwSystem.waitsAlong, decide_eq_true_eq] at h
    simpa [RwSystem.run] using h
  | cons a rest ih =>
    intro σ m h
    simp only [RwSystem.waitsAlong, Bool.and_eq_true, decide_eq_true_eq] at h
    cases m with
    | zero => simpa [RwSystem.run] using h.1
    | succ m => simpa [RwSystem.run] using ih (σ.step a.1 a.2) m h.2

set_option maxRecDepth 100000 in
set_option maxHeartbeats 4000000 in
theorem starve_round_waitsAlong : starveState.waitsAlong starveRound = true := by decide

theorem starve_round_waits (m : Nat) : (starveState.run (starveRound.take m)).writerWaits :=
  waitsAlong_take starveRound starveState m starve_round_waitsAlong

theorem starve_rounds_run (n : Nat) : starveState.run (starveRounds n) = starveState := by
  induction n with
  | zero => rfl
  | succ n ih => rw [starveRounds, rw_run_append, starve_round_run, ih]

theorem starve_rounds_returns (n : Nat) :
    starveState.readLockReturns (starveRounds n) = 2 * n := by
  induction n with
  | zero => rfl
  | succ n ih =>
    rw [starveRounds, rw_returns_append, starve_round_run, starve_round_returns, ih]
    omega

theorem starve_rounds_attempts (n : Nat) : (starveRounds n).count (0, .write) = 4 * n := by
  induction n with
  | zero => rfl
  | succ n ih =>
    rw [starveRounds, List.count_append, ih]
    have : starveRound.count (0, .write) = 4 := by decide
    omega

theorem starve_rounds_waits (n : Nat) :
    ∀ m : Nat, (starveState.run ((starveRounds n).take m)).writerWaits := by
  induction n with
  | zero =>
    intro m
    simp only [starveRounds, List.take_nil]
    exact starve_round_waits 0
  | succ n ih =>
    intro m
    have hlen : starveRound.length = 24 := by decide
    rw [starveRounds, List.take_append_eq_append_take, rw_run_append, hlen]
    rcases Nat.lt_or_ge m 25 with h | h
    · have h0 : m - 24 = 0 := by omega
      rw [h0, List.take_zero]
      exact starve_round_waits m
    · have h1 : starveRound.take m = starveRound := List.take_of_length_le (by omega)
      rw [h1, starve_round_run]
      exact ih (m - 24)

/-! ### Claims on whole calls of the reader/writer lock -/

/-- C11. Readers share the lock through the write gate: for every `k ≥ 1`,
starting from `rw_init`, `k` successive `read_lock` calls all complete and
leave `readcount = k`; the first of them executes the lock of `wrt`
(`wrt` goes from free to held), the others do not and leave `wrt` as it is;
`k` matching `read_unlock` calls all complete, only the last of them executes
the unlock of `wrt`, and they return the lock to its initial state. -/
theorem readers_share_gate (k : Nat) (hk : 1 ≤ k) :
    rw_repeat read_lock k rw_init = some { mutex := false, wrt := true, readcount := k } ∧
    (∀ j : Nat, j < k → ∃ l r, rw_repeat read_lock j rw_init = some l ∧
        read_lock l = some r ∧ r.2.1 = .reading ∧ r.1.readcount = (j : Int) + 1 ∧
        (RwPc.rl_lock_wrt ∈ r.2.2 ↔ j = 0) ∧
        (j = 0 → l.wrt = false ∧ r.1.wrt = true) ∧ (j ≠ 0 → r.1.wrt = l.wrt)) ∧
    rw_repeat read_unlock k { mutex := false, wrt := true, readcount := k } = some rw_init ∧
    (∀ j : Nat, j < k → ∃ l r,
        rw_repeat read_unlock j { mutex := false, wrt := true, readcount := k } = some l ∧
        read_unlock l = some r ∧ r.2.1 = .idle ∧ r.1.readcount = (k : Int) - ((j : Int) + 1) ∧
        (RwPc.ru_unlock_wrt ∈ r.2.2 ↔ j + 1 = k) ∧
        (j + 1 < k → l.wrt = true ∧ r.1.wrt = true) ∧ (j + 1 = k → r.1.wrt = false)) := by
  refine ⟨?_, ?_, ?_, ?_⟩
  · rw [rw_repeat_read_lock]
    have e : decide (0 < k) = true := by simpa using hk
    rw [e]
  · intro j _
    cases j with
    | zero =>
      exact ⟨_, _, rw_repeat_read_lock 0, read_lock_first, rfl, rfl, by simp,
        fun _ => ⟨rfl, rfl⟩, fun h => absurd rfl h⟩
    | succ j =>
      exact ⟨_, _, rw_repeat_read_lock (j + 1), read_lock_next _ _ (by omega), rfl,
        by simp, by simp, by simp, fun _ => rfl⟩
  · rw [rw_repeat_read_unlock k k hk (le_refl k)]
    simp [rw_init]
  · intro j hj
    have e1 : decide (j < k) = true := by simpa using hj
    have hrep := rw_repeat_read_unlock k j hk (by omega)
    rw [e1] at hrep
    by_cases hlast : j + 1 = k
    · have h1 : (k : Int) - j = 1 := by omega
      rw [h1] at hrep
      exact ⟨_, _, hrep, read_unlock_last true, rfl, by simp only; omega, by simp [hlast],
        fun h => by omega, fun _ => rfl⟩
    · have h1 : (k : Int) - j ≠ 1 := by omega
      exact ⟨_, _, hrep, read_unlock_more true _ h1, rfl, by simp only; omega, by simp [hlast],
        fun _ => ⟨rfl, rfl⟩, fun h => absurd h hlast⟩

/-- Witness of C11: three readers enter one after the other and leave again. -/
theorem readers_share_gate_witness :
    rw_repeat read_lock 3 rw_init = some { mutex := false, wrt := true, readcount := 3 } ∧
    rw_repeat read_unlock 3 { mutex := false, wrt := true, readcount := 3 } = some rw_init :=
  ⟨(readers_share_gate 3 (by decide)).1, (readers_share_gate 3 (by decide)).2.2.1⟩

/-- C12. The lock is reader-preferring and a writer can starve: there is a
reachable state in which thread 0 has called `write_lock` and waits for `wrt`,
and for every `n` an execution from it in which at least `n` further
`read_lock` calls return and the writer is scheduled at least `n` times, while
in every state on the way the writer still stands at the lock of `wrt`, which
is held, `readcount` has not returned to 0, and a step of the writer changes
nothing. -/
theorem writer_can_starve (n : Nat) :
    ∃ sched : List (Nat × RwCall),
      ((RwSystem.init 3).run starvePrefix).pc[0]? = some .wl_lock_wrt ∧
      n ≤ ((RwSystem.init 3).run starvePrefix).readLockReturns sched ∧
      n ≤ sched.count (0, .write) ∧
      ∀ m : Nat, (((RwSystem.init 3).run starvePrefix).run (sched.take m)).writerWaits ∧
        (((RwSystem.init 3).run starvePrefix).run (sched.take m)).step 0 .write =
          ((RwSystem.init 3).run starvePrefix).run (sched.take m) := by
  refine ⟨starveRounds n, ?_, ?_, ?_, ?_⟩
  · rw [starve_prefix_run]; rfl
  · rw [starve_prefix_run, starve_rounds_returns]; omega
  · rw [starve_rounds_attempts]; omega
  · intro m
    rw [starve_prefix_run]
    exact ⟨starve_rounds_waits n m, writerWaits_blocked _ (starve_rounds_waits n m)⟩


/-! ### Lemmas on the dining philosophers -/

theorem LEFT_eq (i : Int) (h0 : 0 ≤ i) : LEFT i = (i + 4) % 5 := by
  unfold LEFT N
  rw [Int.tmod_eq_emod (by omega) (by decide)]
  congr 1; omega

theorem RIGHT_eq (i : Int) (h0 : 0 ≤ i) : RIGHT i = (i + 1) % 5 := by
  unfold RIGHT N
  rw [Int.tmod_eq_emod (by omega) (by decide)]

theorem test_cases (g : Table) (j : Int) :
    (g.state_array j = .Hungry ∧ g.state_array (LEFT j) ≠ .Eating ∧
        g.state_array (RIGHT j) ≠ .Eating ∧
        test g j = { state_array := store g.state_array j .Eating
                     coordinate := store g.coordinate j (g.coordinate j + 1) }) ∨
    (¬ (g.state_array j = .Hungry ∧ g.state_array (LEFT j) ≠ .Eating ∧
        g.state_array (RIGHT j) ≠ .Eating) ∧ test g j = g) := by
  by_cases h : g.state_array j = .Hungry ∧ g.state_array (LEFT j) ≠ .Eating ∧
      g.state_array (RIGHT j) ≠ .Eating
  · left
    exact ⟨h.1, h.2.1, h.2.2, by unfold test; rw [if_pos h]; rfl⟩
  · right
    exact ⟨h, by unfold test; rw [if_neg h]⟩

theorem test_consistent (g : Table) (pc : Int → PhilPc) (i j : Int)
    (hi : Dining.consistent g pc i) : Dining.consistent (test g j) pc i := by
  rcases test_cases g j with ⟨hh, _, _, he⟩ | ⟨_, he⟩
  · rw [he]
    by_cases hij : i = j
    · subst hij
      obtain ⟨h1, h2, h3⟩ := hi
      refine ⟨?_, ?_, ?_⟩
      · intro hp; have := (h1 hp).1; rw [hh] at this; exact absurd this (by simp)
      · intro hp; have := (h2 hp).1; rw [hh] at this; exact absurd this (by simp)
      · intro hp
        rcases h3 hp with ⟨_, hc⟩ | ⟨hs, _⟩
        · right; simp [store, hc]
        · rw [hh] at hs; exact absurd hs (by simp)
    · simpa [Dining.consistent, store, hij] using hi
  · rw [he]; exact hi

theorem test_exclusive (g : Table) (i j : Int) (hi0 : 0 ≤ i) (hi5 : i < 5) (hj0 : 0 ≤ j)
    (hj5 : j < 5) (hi : g.exclusive i) : (test g j).exclusive i := by
  rcases test_cases g j with ⟨_, hl, hr, he⟩ | ⟨_, he⟩
  · rw [he]
    unfold Table.exclusive at *
    rw [RIGHT_eq i hi0] at *
    rw [RIGHT_eq j hj0] at hr
    rw [LEFT_eq j hj0] at hl
    simp only [store]
    by_cases hij : i = j
    · subst hij
      have hne : (i + 1) % 5 ≠ i := by omega
      simp [hne, hr]
    · by_cases hrj : (i + 1) % 5 = j
      · have hil : i = (j + 4) % 5 := by omega
        rw [← hil] at hl
        simp [hij, hl]
      · simpa [hij, hrj] using hi
  · rw [he]; exact hi

theorem test_hungry_other (g : Table) (i j : Int)
    (hi : g.hungryHasEatingNeighbour i) : (test g j).hungryHasEatingNeighbour i := by
  rcases test_cases g j with ⟨_, _, _, he⟩ | ⟨_, he⟩
  · rw [he]
    unfold Table.hungryHasEatingNeighbour at *
    simp only [store]
    intro hh
    by_cases hij : i = j
    · simp [hij] at hh
    · simp only [hij, if_false] at hh
      rcases hi hh with h | h
      · left; split <;> first | rfl | exact h
      · right; split <;> first | rfl | exact h
  · rw [he]; exact hi

theorem test_hungry_self (g : Table) (j : Int) : (test g j).hungryHasEatingNeighbour j := by
  rcases test_cases g j with ⟨_, _, _, he⟩ | ⟨hn, he⟩
  · rw [he]
    intro hh
    simp [store] at hh
  · rw [he]
    intro hh
    by_contra hcon
    apply hn
    refine ⟨hh, fun h => hcon (Or.inl h), fun h => hcon (Or.inr h)⟩

theorem dining_init_inv : Dining.init.Inv := by
  intro i _ _
  refine ⟨⟨fun _ => ⟨rfl, rfl⟩, fun h => ?_, fun h => ?_⟩, ?_, ?_⟩
  · simp [Dining.init] at h
  · simp [Dining.init] at h
  · simp [Table.exclusive, Dining.init]
  · simp [Table.hungryHasEatingNeighbour, Dining.init]

theorem take_forks_enter_inv (σ : Dining) (j : Int) (hj0 : 0 ≤ j) (hj5 : j < 5)
    (hpc : σ.pc j = .thinking) (h : σ.Inv) :
    Dining.Inv { g := take_forks_enter σ.g j, pc := store σ.pc j .waiting } := by
  intro i hi0 hi5
  have hi5' : i < 5 := hi5
  obtain ⟨hc, he, hh⟩ := h i hi0 hi5
  obtain ⟨hcj, _, _⟩ := h j hj0 hj5
  have hjT := (hcj.1 hpc)
  unfold take_forks_enter
  refine ⟨test_consistent _ _ i j ?_, test_exclusive _ i j hi0 hi5' hj0 hj5 ?_, ?_⟩
  · by_cases hij : i = j
    · subst hij
      refine ⟨fun hp => ?_, fun hp => ?_, fun _ => Or.inl ⟨?_, hjT.2⟩⟩
      · simp [store] at hp
      · simp [store] at hp
      · simp [store]
    · simpa [Dining.consistent, store, hij] using hc
  · unfold Table.exclusive at *
    rw [RIGHT_eq i hi0] at *
    simp only [store]
    by_cases hij : i = j
    · simp [hij]
    · by_cases hrj : (i + 1) % 5 = j
      · simp [hrj]
      · simpa [hij, hrj] using he
  · by_cases hij : i = j
    · subst hij; exact test_hungry_self _ i
    · apply test_hungry_other
      unfold Table.hungryHasEatingNeighbour at *
      rw [LEFT_eq i hi0, RIGHT_eq i hi0] at *
      simp only [store, hij, if_false]
      intro hhi
      rcases hh hhi with hl | hr
      · left
        have : (i + 4) % 5 ≠ j := fun e => by rw [e, hjT.1] at hl; exact absurd hl (by simp)
        simp [this, hl]
      · right
        have : (i + 1) % 5 ≠ j := fun e => by rw [e, hjT.1] at hr; exact absurd hr (by simp)
        simp [this, hr]

theorem take_forks_wait_inv (σ : Dining) (j : Int) (g : Table) (hj0 : 0 ≤ j) (hj5 : j < 5)
    (hpc : σ.pc j = .waiting) (hw : take_forks_wait σ.g j = some g) (h : σ.Inv) :
    Dining.Inv { g := g, pc := store σ.pc j .eating } := by
  obtain ⟨hcj, _, _⟩ := h j hj0 hj5
  have hco : σ.g.coordinate j ≠ 0 := by
    intro h0
    simp [take_forks_wait, sem_wait, h0] at hw
  have hg : g = { state_array := σ.g.state_array
                  coordinate := store σ.g.coordinate j (σ.g.coordinate j - 1) } := by
    simp only [take_forks_wait, sem_wait, hco, if_false, Option.map_some',
      Option.some.injEq] at hw
    exact hw.symm
  have hje : σ.g.state_array j = .Eating ∧ σ.g.coordinate j = 1 := by
    rcases hcj.2.2 hpc with ⟨_, h0⟩ | h1
    · exact absurd h0 hco
    · exact h1
  subst hg
  intro i hi0 hi5
  obtain ⟨hc, he, hh⟩ := h i hi0 hi5
  refine ⟨?_, he, hh⟩
  by_cases hij : i = j
  · subst hij
    refine ⟨fun hp => ?_, fun _ => ⟨hje.1, ?_⟩, fun hp => ?_⟩
    · simp [store] at hp
    · simp [store, hje.2]
    · simp [store] at hp
  · simpa [Dining.consistent, store, hij] using hc

theorem put_forks_inv (σ : Dining) (j : Int) (hj0 : 0 ≤ j) (hj5 : j < 5)
    (hpc : σ.pc j = .eating) (h : σ.Inv) :
    Dining.Inv { g := put_forks σ.g j, pc := store σ.pc j .thinking } := by
  intro i hi0 hi5
  have hi5' : i < 5 := hi5
  obtain ⟨hc, he, hh⟩ := h i hi0 hi5
  obtain ⟨hcj, _, _⟩ := h j hj0 hj5
  have hjE := (hcj.2.1 hpc)
  have hL := LEFT_eq j hj0
  have hR := RIGHT_eq j hj0
  unfold put_forks
  refine ⟨test_consistent _ _ i _ (test_consistent _ _ i _ ?_),
    test_exclusive _ i _ hi0 hi5' (by omega) (by omega)
      (test_exclusive _ i _ hi0 hi5' (by omega) (by omega) ?_), ?_⟩
  · by_cases hij : i = j
    · subst hij
      refine ⟨fun _ => ⟨?_, hjE.2⟩, fun hp => ?_, fun hp => ?_⟩
      · simp [store]
      · simp [store] at hp
      · simp [store] at hp
    · simpa [Dining.consistent, store, hij] using hc
  · unfold Table.exclusive at *
    rw [RIGHT_eq i hi0] at *
    simp only [store]
    by_cases hij : i = j
    · simp [hij]
    · by_cases hrj : (i + 1) % 5 = j
      · simp [hrj]
      · simpa [hij, hrj] using he
  · by_cases hiR : i = RIGHT j
    · rw [hiR]; exact test_hungry_self _ _
    · apply test_hungry_other
      by_cases hiL : i = LEFT j
      · rw [hiL]; exact test_hungry_self _ _
      · apply test_hungry_other
        unfold Table.hungryHasEatingNeighbour at *
        rw [LEFT_eq i hi0, RIGHT_eq i hi0] at *
        rw [hR] at hiR
        rw [hL] at hiL
        simp only [store]
        by_cases hij : i = j
        · simp [hij]
        · simp only [hij, if_false]
          intro hhi
          have h1 : (i + 4) % 5 ≠ j := by omega
          have h2 : (i + 1) % 5 ≠ j := by omega
          simpa [h1, h2] using hh hhi

theorem dining_step_inv (σ τ : Dining) (j : Int) (h : σ.Inv) (hs : σ.step j = some τ) :
    τ.Inv := by
  unfold Dining.step at hs
  split at hs
  · rename_i hj
    have hj5 : j < 5 := hj.2
    split at hs
    · rename_i hpc
      have := Option.some.inj hs; subst this
      exact take_forks_enter_inv σ j hj.1 hj5 hpc h
    · rename_i hpc
      simp only [Option.map_eq_some'] at hs
      obtain ⟨g, hg, rfl⟩ := hs
      exact take_forks_wait_inv σ j g hj.1 hj5 hpc hg h
    · rename_i hpc
      have := Option.some.inj hs; subst this
      exact put_forks_inv σ j hj.1 hj5 hpc h
  · exact absurd hs (by simp)

theorem dining_run_inv (sched : List Int) : ∀ σ : Dining, σ.Inv → (σ.run sched).Inv := by
  induction sched with
  | nil => intro σ h; exact h
  | cons i rest ih =>
    intro σ h
    apply ih
    cases hs : σ.step i with
    | none => simpa using h
    | some τ => simpa using dining_step_inv σ τ i h hs

theorem dining_reachable_inv (sched : List Int) : (Dining.init.run sched).Inv :=
  dining_run_inv sched _ dining_init_inv

theorem dining_can_step_of_eating (σ : Dining) (k : Int) (hk0 : 0 ≤ k) (hk5 : k < 5)
    (h : σ.Inv) (he : σ.g.state_array k = .Eating) : (σ.step k).isSome = true := by
  obtain ⟨⟨h1, _, h3⟩, _, _⟩ := h k hk0 hk5
  have hk : 0 ≤ k ∧ k < N := ⟨hk0, hk5⟩
  unfold Dining.step
  rw [if_pos hk]
  cases hpc : σ.pc k with
  | thinking => rfl
  | eating => rfl
  | waiting =>
    rcases h3 hpc with ⟨hs, _⟩ | ⟨_, hc⟩
    · rw [he] at hs; exact absurd hs (by simp)
    · simp [take_forks_wait, sem_wait, hc]

/-! ### Claims on the dining philosophers -/

/-- C16. Neighbour exclusion: in every state reachable from the initial state
(all five philosophers thinking, all semaphores 0) by any interleaving of the
steps of the philosopher loops, no philosopher `i` in `0..4` eats together
with its right neighbour. -/
theorem neighbours_never_both_eat (sched : List Int) (i : Int) (h0 : 0 ≤ i) (h5 : i < N) :
    ¬ ((Dining.init.run sched).g.state_array i = .Eating ∧
        (Dining.init.run sched).g.state_array (RIGHT i) = .Eating) :=
  (dining_reachable_inv sched i h0 h5).2.1

/-- Witness of C16: philosopher 0 takes its forks and eats, philosopher 1
becomes hungry and has to wait at its semaphore. -/
theorem neighbours_never_both_eat_witness :
    (Dining.init.run [0, 0, 1, 1]).g.state_array 0 = .Eating ∧
    (Dining.init.run [0, 0, 1, 1]).g.state_array 1 = .Hungry ∧
    ¬ ((Dining.init.run [0, 0, 1, 1]).g.state_array 0 = .Eating ∧
        (Dining.init.run [0, 0, 1, 1]).g.state_array (RIGHT 0) = .Eating) :=
  ⟨by decide, by decide, neighbours_never_both_eat [0, 0, 1, 1] 0 (by decide) (by decide)⟩

/-- C17. No deadlock: in every reachable state some philosopher can take a
step, so the five are never all blocked in `sem_wait`; a hungry philosopher
has semaphore 0 and a neighbour that is eating; a semaphore is at most 1, and
it is 1 only while its philosopher is `Eating` and still stands at its
`sem_wait`. -/
theorem philosophers_never_deadlock (sched : List Int) :
    (∃ i : Int, 0 ≤ i ∧ i < N ∧ ((Dining.init.run sched).step i).isSome = true) ∧
    ¬ (∀ i : Int, 0 ≤ i → i < N →
        (Dining.init.run sched).pc i = .waiting ∧
          (Dining.init.run sched).g.coordinate i = 0) ∧
    (∀ i : Int, 0 ≤ i → i < N → (Dining.init.run sched).g.state_array i = .Hungry →
        (Dining.init.run sched).g.coordinate i = 0 ∧
        ((Dining.init.run sched).g.state_array (LEFT i) = .Eating ∨
          (Dining.init.run sched).g.state_array (RIGHT i) = .Eating)) ∧
    (∀ i : Int, 0 ≤ i → i < N → (Dining.init.run sched).g.coordinate i ≤ 1 ∧
        ((Dining.init.run sched).g.coordinate i = 1 →
          (Dining.init.run sched).g.state_array i = .Eating ∧
            (Dining.init.run sched).pc i = .waiting)) := by
  have hinv := dining_reachable_inv sched
  generalize Dining.init.run sched = σ at *
  have hungry : ∀ i : Int, 0 ≤ i → i < N → σ.g.state_array i = .Hungry →
      σ.g.coordinate i = 0 ∧
        (σ.g.state_array (LEFT i) = .Eating ∨ σ.g.state_array (RIGHT i) = .Eating) := by
    intro i hi0 hi5 hh
    obtain ⟨⟨h1, h2, h3⟩, _, hn⟩ := hinv i hi0 hi5
    refine ⟨?_, hn hh⟩
    cases hpc : σ.pc i with
    | thinking => have := (h1 hpc).1; rw [hh] at this; exact absurd this (by simp)
    | eating => have := (h2 hpc).1; rw [hh] at this; exact absurd this (by simp)
    | waiting =>
      rcases h3 hpc with ⟨_, hc⟩ | ⟨hs, _⟩
      · exact hc
      · rw [hh] at hs; exact absurd hs (by simp)
  have progress : ∃ i : Int, 0 ≤ i ∧ i < N ∧ (σ.step i).isSome = true := by
    obtain ⟨⟨_, _, h3⟩, _, _⟩ := hinv 0 (by decide) (by decide)
    have h00 : (0 : Int) ≤ 0 ∧ (0 : Int) < N := ⟨by decide, by decide⟩
    cases hpc : σ.pc 0 with
    | thinking => exact ⟨0, by decide, by decide, by unfold Dining.step; rw [if_pos h00, hpc]; rfl⟩
    | eating => exact ⟨0, by decide, by decide, by unfold Dining.step; rw [if_pos h00, hpc]; rfl⟩
    | waiting =>
      rcases h3 hpc with ⟨hs, _⟩ | ⟨hs, _⟩
      · rcases (hungry 0 (by decide) (by decide) hs).2 with hl | hr
        · rw [LEFT_eq 0 (by decide)] at hl
          exact ⟨(0 + 4) % 5, by decide, by decide,
            dining_can_step_of_eating σ _ (by decide) (by decide) hinv hl⟩
        · rw [RIGHT_eq 0 (by decide)] at hr
          exact ⟨(0 + 1) % 5, by decide, by decide,
            dining_can_step_of_eating σ _ (by decide) (by decide) hinv hr⟩
      · exact ⟨0, by decide, by decide,
          dining_can_step_of_eating σ 0 (by decide) (by decide) hinv hs⟩
  refine ⟨progress, ?_, hungry, ?_⟩
  · intro hall
    obtain ⟨i, hi0, hi5, hstep⟩ := progress
    obtain ⟨hpc, hc⟩ := hall i hi0 hi5
    have hi : 0 ≤ i ∧ i < N := ⟨hi0, hi5⟩
    unfold Dining.step at hstep
    rw [if_pos hi, hpc] at hstep
    simp [take_forks_wait, sem_wait, hc] at hstep
  · intro i hi0 hi5
    obtain ⟨⟨h1, h2, h3⟩, _, _⟩ := hinv i hi0 hi5
    cases hpc : σ.pc i with
    | thinking => have := (h1 hpc).2; exact ⟨by omega, fun h => by omega⟩
    | eating => have := (h2 hpc).2; exact ⟨by omega, fun h => by omega⟩
    | waiting =>
      rcases h3 hpc with ⟨_, hc⟩ | ⟨hs, hc⟩
      · exact ⟨by omega, fun h => by omega⟩
      · exact ⟨by omega, fun _ => ⟨hs, rfl⟩⟩

/-- Witness of C17: with philosopher 0 eating and philosopher 1 hungry at its
semaphore, philosopher 1 has semaphore 0 and an eating neighbour. -/
theorem philosophers_never_deadlock_witness :
    (Dining.init.run [0, 0, 1, 1]).g.state_array 1 = .Hungry ∧
    (Dining.init.run [0, 0, 1, 1]).g.coordinate 1 = 0 ∧
    ((Dining.init.run [0, 0, 1, 1]).g.state_array (LEFT 1) = .Eating ∨
      (Dining.init.run [0, 0, 1, 1]).g.state_array (RIGHT 1) = .Eating) :=
  ⟨by decide,
    (philosophers_never_deadlock [0, 0, 1, 1]).2.2.1 1 (by decide) (by decide) (by decide)⟩


/-! ### The semaphore buffer as a FIFO list -/

theorem pcbuffer_ok_sim {α : Type} {p : pcbuffer_t α} (h : pcbuffer_ok p) :
    Sim p (pcbuffer_toMonitor p) :=
  ⟨rfl, h.1, rfl, rfl, rfl⟩

theorem toMonitor_of_sim {α : Type} {q : pcbuffer_t α} {c : bounded_buffer_t α}
    (h : Sim q c) : pcbuffer_toMonitor q = c := by
  obtain ⟨h1, _, h3, h4, h5⟩ := h
  cases c
  simp only [pcbuffer_toMonitor, bounded_buffer_t.mk.injEq]
  exact ⟨h5, h3, h4, h1⟩

theorem pcbuffer_init_ok {α : Type} (p : pcbuffer_t α) :
    pcbuffer_ok (pcbuffer_init p) ∧ pcbuffer_contents (pcbuffer_init p) = [] := by
  refine ⟨⟨by simp [pcbuffer_init, PCBUFFER_SIZE], ?_⟩, ?_⟩
  · simp [bounded_buffer_ok, pcbuffer_toMonitor, pcbuffer_init]
  · simp [pcbuffer_contents, bounded_buffer_contents, pcbuffer_toMonitor, pcbuffer_init]

theorem pcbuffer_contents_length {α : Type} (p : pcbuffer_t α) :
    (pcbuffer_contents p).length = p.used := by
  simp [pcbuffer_contents, bounded_buffer_contents_length, pcbuffer_toMonitor]

theorem pcbuffer_push_some {α : Type} {p q : pcbuffer_t α} {x : α} (hp : pcbuffer_ok p)
    (h : pcbuffer_push p x = some q) :
    pcbuffer_ok q ∧ pcbuffer_contents q = pcbuffer_contents p ++ [x] := by
  rcases sim_push x (pcbuffer_ok_sim hp) hp.2 with ⟨h1, _⟩ | ⟨q2, c, h1, h2, hs⟩
  · rw [h1] at h; exact absurd h (by simp)
  · rw [h1] at h
    have := Option.some.inj h
    subst this
    obtain ⟨_, _, hok, hc⟩ := bounded_buffer_push_spec hp.2 h2
    have hm := toMonitor_of_sim hs
    refine ⟨⟨?_, by rw [hm]; exact hok⟩, by unfold pcbuffer_contents; rw [hm]; exact hc⟩
    obtain ⟨hs1, hs2, _⟩ := hs
    omega

theorem pcbuffer_pop_some {α : Type} {p : pcbuffer_t α} {r : pcbuffer_t α × α}
    (hp : pcbuffer_ok p) (h : pcbuffer_pop p = some r) :
    pcbuffer_ok r.1 ∧ pcbuffer_contents p = r.2 :: pcbuffer_contents r.1 := by
  rcases sim_pop (pcbuffer_ok_sim hp) hp.2 with ⟨h1, _⟩ | ⟨q2, c, v, h1, h2, hs⟩
  · rw [h1] at h; exact absurd h (by simp)
  · rw [h1] at h
    have := Option.some.inj h
    subst this
    obtain ⟨_, _, hok, hc⟩ := bounded_buffer_pop_spec hp.2 h2
    have hm := toMonitor_of_sim hs
    refine ⟨⟨?_, by rw [hm]; exact hok⟩, by unfold pcbuffer_contents; rw [hm]; exact hc⟩
    obtain ⟨hs1, hs2, _⟩ := hs
    show (q2.free : Int) = 8 - (q2.used : Int)
    omega

theorem pcbuffer_push_isSome {α : Type} {p : pcbuffer_t α} (x : α) (hp : pcbuffer_ok p)
    (h : (pcbuffer_contents p).length < 8) : (pcbuffer_push p x).isSome = true := by
  rw [pcbuffer_contents_length] at h
  have hf : p.free ≠ 0 := by have := hp.1; omega
  simp [pcbuffer_push, sem_wait, hf]

theorem pcbuffer_pop_isSome {α : Type} {p : pcbuffer_t α}
    (h : pcbuffer_contents p ≠ []) : (pcbuffer_pop p).isSome = true := by
  have hu : p.used ≠ 0 := by
    intro h0
    apply h
    apply List.eq_nil_of_length_eq_zero
    rw [pcbuffer_contents_length, h0]
  simp [pcbuffer_pop, sem_wait, hu]

/-! ### The stream of chunks -/

theorem chunks_from_length (src : List ReadResult) :
    ∀ id : Int, (chunks_from id src).length = src.length + 1 := by
  induction src with
  | nil => intro id; rfl
  | cons r rest ih => intro id; simp [chunks_from, ih]

theorem chunks_from_has_sentinel (src : List ReadResult) :
    ∀ id : Int, ∃ c ∈ chunks_from id src, c.count = 0 := by
  induction src with
  | nil => intro id; exact ⟨_, List.mem_singleton.mpr rfl, rfl⟩
  | cons r rest ih =>
    intro id
    obtain ⟨c, hc, h0⟩ := ih (id + 1)
    exact ⟨c, List.mem_cons_of_mem _ hc, h0⟩

theorem wellFormed_tail {r : ReadResult} {rest : List ReadResult}
    (h : WellFormed (r :: rest)) : WellFormed rest :=
  fun x hx => h x (List.mem_cons_of_mem _ hx)

theorem chunks_from_sentinelLast (src : List ReadResult) (hwf : WellFormed src) :
    ∀ id : Int, SentinelLast ((chunks_from id src).map fun c => c.count) := by
  induction src with
  | nil =>
    intro id a n b h _
    cases a with
    | nil => simp [chunks_from] at h; exact h.2
    | cons x a => simp [chunks_from] at h
  | cons r rest ih =>
    intro id a n b h hn
    cases a with
    | nil =>
      simp only [chunks_from, List.map_cons, List.nil_append, List.cons.injEq] at h
      have := (hwf r (List.mem_cons_self _ _)).1
      omega
    | cons x a =>
      simp only [chunks_from, List.map_cons, List.cons_append, List.cons.injEq] at h
      exact ih (wellFormed_tail hwf) (id + 1) a n b h.2 hn

theorem sentinelLast_split {l a b : List file_chunk} {c : file_chunk}
    (hl : SentinelLast (l.map fun c => c.count)) (h : l = a ++ c :: b) (hc : c.count = 0) :
    b = [] := by
  have := hl (a.map fun c => c.count) c.count (b.map fun c => c.count) (by rw [h]; simp) hc
  simpa using this

theorem encrypt_all_append {κ : Type} (bf : κ → List Nat → κ × List Nat) (a b : List file_chunk) :
    ∀ ctx : κ, encrypt_all bf ctx (a ++ b) =
      ((encrypt_all bf (encrypt_all bf ctx a).1 b).1,
        (encrypt_all bf ctx a).2 ++ (encrypt_all bf (encrypt_all bf ctx a).1 b).2) := by
  induction a with
  | nil => intro ctx; simp [encrypt_all]
  | cons c a ih =>
    intro ctx
    simp only [List.cons_append, encrypt_all]
    split
    · simp only [List.append_eq, ih, List.cons_append]
    · simp only [List.append_eq, ih, List.cons_append]

theorem encrypt_all_keys {κ : Type} (bf : κ → List Nat → κ × List Nat) (l : List file_chunk) :
    ∀ ctx : κ, (encrypt_all bf ctx l).2.map (fun c => (c.count, c.ID)) =
      l.map (fun c => (c.count, c.ID)) := by
  induction l with
  | nil => intro ctx; rfl
  | cons c l ih =>
    intro ctx
    simp only [encrypt_all]
    split
    · simp [ih, encrypt_chunk]
    · simp [ih]

theorem encrypt_all_counts {κ : Type} (bf : κ → List Nat → κ × List Nat) (l : List file_chunk)
    (ctx : κ) : (encrypt_all bf ctx l).2.map (fun c => c.count) = l.map (fun c => c.count) := by
  have := congrArg (List.map Prod.fst) (encrypt_all_keys bf l ctx)
  simpa [List.map_map, Function.comp] using this

theorem encrypt_all_length {κ : Type} (bf : κ → List Nat → κ × List Nat) (l : List file_chunk)
    (ctx : κ) : (encrypt_all bf ctx l).2.length = l.length := by
  have := congrArg List.length (encrypt_all_counts bf l ctx)
  simpa using this

theorem pipeline_init_inv {κ : Type} (bf : κ → List Nat → κ × List Nat) (ctx : κ)
    (source : List ReadResult) (p q : pcbuffer_t file_chunk) (hwf : WellFormed source) :
    (Pipeline.init source ctx p q).Inv bf ctx source := by
  unfold Pipeline.Inv Pipeline.init
  refine ⟨hwf, (pcbuffer_init_ok p).1, (pcbuffer_init_ok q).1, ?_, ?_, ?_, ?_, ?_, ?_, ?_, ?_⟩
  · simp [Pipeline.readerRest]
  · simp [(pcbuffer_init_ok p).2]
  · simp [encrypt_all, Pipeline.encPending]
  · simp [(pcbuffer_init_ok q).2]
  · simp [payloads]
  · trivial
  · simp
  · simp

theorem reader_thread_inv {κ : Type} (bf : κ → List Nat → κ × List Nat) (ctx0 : κ)
    (source0 : List ReadResult) (σ τ : Pipeline κ) (h : σ.Inv bf ctx0 source0)
    (hs : reader_thread σ = some τ) : τ.Inv bf ctx0 source0 := by
  obtain ⟨hwf, hin, hout, hall, hqi, henc, hqo, hsink, hr, he, hw⟩ := h
  unfold reader_thread at hs
  split at hs
  · -- at_read
    rename_i id hpc
    have hτ := Option.some.inj hs
    subst hτ
    have hnd : σ.reader ≠ .done := by rw [hpc]; simp
    unfold Pipeline.Inv
    cases hsrc : σ.source with
    | nil =>
      simp only [Pipeline.readerRest, Pipeline.encPending, hpc, hsrc, read, chunks_from] at *
      refine ⟨by intro r hr; simp at hr, hin, hout, ?_, hqi, henc, hqo, hsink, ?_, ?_, hw⟩
      · simpa using hall
      · simp
      · cases henc2 : σ.encryptor <;> simp only [henc2] at he ⊢
        · exact he
        · exact he
        · exact absurd he.2.1 (by simp)
        · exact absurd he.1 (by simp)
    | cons r rest =>
      have hr0 := (hwf r (by rw [hsrc]; exact List.mem_cons_self _ _)).1
      have hr1 : r.count ≠ 0 := by omega
      have hwf2 : WellFormed rest := by rw [hsrc] at hwf; exact wellFormed_tail hwf
      simp only [Pipeline.readerRest, Pipeline.encPending, hpc, hsrc, read, chunks_from,
        hr0, if_true] at *
      refine ⟨hwf2, hin, hout, hall, hqi, henc, hqo, hsink, hr1, ?_, hw⟩
      cases henc2 : σ.encryptor <;> simp only [henc2] at he ⊢
      · exact he
      · exact he
      · exact absurd he.2.1 (by simp)
      · exact absurd he.1 (by simp)
  · -- at_push
    rename_i c hpc
    simp only [Option.map_eq_some'] at hs
    obtain ⟨q, hq, rfl⟩ := hs
    obtain ⟨hokq, hcq⟩ := pcbuffer_push_some hin hq
    unfold Pipeline.Inv
    simp only [Pipeline.readerRest, Pipeline.encPending, hpc] at *
    refine ⟨hwf, hokq, hout, ?_, ?_, henc, hqo, hsink, trivial, ?_, hw⟩
    · simpa using hall
    · rw [hcq, hqi]; simp
    · cases henc2 : σ.encryptor <;> simp only [henc2] at he ⊢
      · exact he
      · exact he
      · exact absurd he.2.1 (by simp)
      · exact absurd he.1 (by simp)
  · -- at_last_push
    rename_i c hpc
    simp only [Option.map_eq_some'] at hs
    obtain ⟨q, hq, rfl⟩ := hs
    obtain ⟨hokq, hcq⟩ := pcbuffer_push_some hin hq
    unfold Pipeline.Inv
    simp only [Pipeline.readerRest, Pipeline.encPending, hpc] at *
    refine ⟨hwf, hokq, hout, ?_, ?_, henc, hqo, hsink, trivial, ?_, hw⟩
    · simpa using hall
    · rw [hcq, hqi]; simp
    · cases henc2 : σ.encryptor <;> simp only [henc2] at he ⊢
      · exact he
      · exact he
      · exact absurd he.2.1 (by simp)
      · exact absurd he.1 (by simp)
  · exact absurd hs (by simp)

theorem readerRest_eq_nil {κ : Type} (σ : Pipeline κ) (h : σ.readerRest = []) :
    σ.reader = .done := by
  unfold Pipeline.readerRest at h
  split at h
  · rename_i id _
    have := chunks_from_length σ.source id
    rw [h] at this
    simp at this
  · simp at h
  · simp at h
  · assumption

theorem pipeline_incoming_stream {κ : Type} (bf : κ → List Nat → κ × List Nat) (ctx0 : κ)
    (source0 : List ReadResult) (σ : Pipeline κ) (h : σ.Inv bf ctx0 source0) :
    chunks_from 1 source0 =
      σ.popped_in ++ (pcbuffer_contents σ.incoming ++ σ.readerRest) := by
  obtain ⟨_, _, _, hall, hqi, _⟩ := h
  rw [← hall, hqi, List.append_assoc]

theorem pipeline_outgoing_stream {κ : Type} (bf : κ → List Nat → κ × List Nat) (ctx0 : κ)
    (source0 : List ReadResult) (σ : Pipeline κ) (h : σ.Inv bf ctx0 source0) :
    (encrypt_all bf ctx0 (chunks_from 1 source0)).2 =
      σ.popped_out ++ (pcbuffer_contents σ.outgoing ++ (σ.encPending ++
        (encrypt_all bf σ.ctx (pcbuffer_contents σ.incoming ++ σ.readerRest)).2)) := by
  have hin := pipeline_incoming_stream bf ctx0 source0 σ h
  obtain ⟨_, _, _, _, _, henc, hqo, _⟩ := h
  rw [hin, encrypt_all_append, henc]
  simp only [hqo, List.append_assoc]

theorem encryptor_thread_inv {κ : Type} (bf : κ → List Nat → κ × List Nat) (ctx0 : κ)
    (source0 : List ReadResult) (hwf0 : WellFormed source0) (σ τ : Pipeline κ)
    (h : σ.Inv bf ctx0 source0) (hs : encryptor_thread bf σ = some τ) :
    τ.Inv bf ctx0 source0 := by
  have hstream := pipeline_incoming_stream bf ctx0 source0 σ h
  obtain ⟨hwf, hin, hout, hall, hqi, henc, hqo, hsink, hr, he, hw⟩ := h
  unfold encryptor_thread at hs
  split at hs
  · -- at_pop
    rename_i hpc
    simp only [Option.map_eq_some'] at hs
    obtain ⟨r, hpop, rfl⟩ := hs
    obtain ⟨hokq, hcq⟩ := pcbuffer_pop_some hin hpop
    have hwd : σ.writer = .at_pop := by
      cases hwr : σ.writer with
      | at_pop => rfl
      | done => simp only [hwr] at hw; rw [hpc] at hw; exact absurd hw.1 (by simp)
    simp only [hpc, Pipeline.encPending, List.append_nil] at he henc
    split
    · -- a data chunk
      rename_i hc
      unfold Pipeline.Inv
      simp only [Pipeline.readerRest, Pipeline.encPending, hwd] at *
      refine ⟨hwf, hokq, hout, hall, ?_, ?_, hqo, hsink, hr, ⟨hc, ?_⟩, hw⟩
      · rw [hqi, hcq]; simp
      · rw [encrypt_all_append, henc]
        simp [encrypt_all, hc]
      · intro x hx
        rcases List.mem_append.mp hx with h1 | h1
        · exact he x h1
        · rw [List.mem_singleton.mp h1]; exact hc
    · -- the chunk with count 0
      rename_i hc
      have hc0 : r.2.count = 0 := by simpa using hc
      rw [hcq] at hstream
      have hnil : pcbuffer_contents r.1 ++ σ.readerRest = [] :=
        sentinelLast_split (a := σ.popped_in) (chunks_from_sentinelLast source0 hwf0 1)
          (by rw [hstream]; simp) hc0
      have hq0 : pcbuffer_contents r.1 = [] := (List.append_eq_nil.mp hnil).1
      have hrd : σ.reader = .done := readerRest_eq_nil σ (List.append_eq_nil.mp hnil).2
      unfold Pipeline.Inv
      simp only [Pipeline.readerRest, Pipeline.encPending, hwd, hrd] at *
      refine ⟨hwf, hokq, hout, hall, ?_, ?_, hqo, hsink, trivial, ⟨hc0, trivial, hq0⟩, hw⟩
      · rw [hqi, hcq]; simp
      · rw [encrypt_all_append, henc]
        simp [encrypt_all, hc0]
  · -- at_push
    rename_i c hpc
    simp only [Option.map_eq_some'] at hs
    obtain ⟨q, hq, rfl⟩ := hs
    obtain ⟨hokq, hcq⟩ := pcbuffer_push_some hout hq
    have hwd : σ.writer = .at_pop := by
      cases hwr : σ.writer with
      | at_pop => rfl
      | done => simp only [hwr] at hw; rw [hpc] at hw; exact absurd hw.1 (by simp)
    simp only [hpc, Pipeline.encPending] at he henc
    unfold Pipeline.Inv
    simp only [Pipeline.readerRest, Pipeline.encPending, hwd] at *
    refine ⟨hwf, hin, hokq, hall, hqi, ?_, ?_, hsink, hr, he.2, hw⟩
    · rw [henc]; simp
    · rw [hcq, hqo]; simp
  · -- at_last_push
    rename_i c hpc
    simp only [Option.map_eq_some'] at hs
    obtain ⟨q, hq, rfl⟩ := hs
    obtain ⟨hokq, hcq⟩ := pcbuffer_push_some hout hq
    have hwd : σ.writer = .at_pop := by
      cases hwr : σ.writer with
      | at_pop => rfl
      | done => simp only [hwr] at hw; rw [hpc] at hw; exact absurd hw.1 (by simp)
    simp only [hpc, Pipeline.encPending] at he henc
    unfold Pipeline.Inv
    simp only [Pipeline.readerRest, Pipeline.encPending, hwd] at *
    refine ⟨hwf, hin, hokq, hall, hqi, ?_, ?_, hsink, hr, ⟨he.2.1, he.2.2⟩, hw⟩
    · rw [henc]; simp
    · rw [hcq, hqo]; simp
  · exact absurd hs (by simp)

theorem payloads_append_data (l : List file_chunk) (c : file_chunk) (hc : c.count ≠ 0) :
    payloads (l ++ [c]) = payloads l ++ [write_payload c] := by
  simp [payloads, List.filter_append, List.filter_cons, hc]

theorem payloads_append_sentinel (l : List file_chunk) (c : file_chunk) (hc : c.count = 0) :
    payloads (l ++ [c]) = payloads l := by
  simp [payloads, List.filter_append, List.filter_cons, hc]

theorem writer_thread_inv {κ : Type} (bf : κ → List Nat → κ × List Nat) (ctx0 : κ)
    (source0 : List ReadResult) (hwf0 : WellFormed source0) (σ τ : Pipeline κ)
    (h : σ.Inv bf ctx0 source0) (hs : writer_thread σ = some τ) :
    τ.Inv bf ctx0 source0 := by
  have hstream := pipeline_incoming_stream bf ctx0 source0 σ h
  have hstream2 := pipeline_outgoing_stream bf ctx0 source0 σ h
  obtain ⟨hwf, hin, hout, hall, hqi, henc, hqo, hsink, hr, he, hw⟩ := h
  unfold writer_thread at hs
  split at hs
  · rename_i hpc
    simp only [Option.map_eq_some'] at hs
    obtain ⟨r, hpop, rfl⟩ := hs
    obtain ⟨hokq, hcq⟩ := pcbuffer_pop_some hout hpop
    simp only [hpc] at hw
    split
    · rename_i hc
      unfold Pipeline.Inv
      simp only [Pipeline.readerRest, Pipeline.encPending, hpc] at *
      refine ⟨hwf, hin, hokq, hall, hqi, henc, ?_, ?_, hr, he, ?_⟩
      · rw [hqo, hcq]; simp
      · rw [hsink, payloads_append_data _ _ hc]
      · intro x hx
        rcases List.mem_append.mp hx with h1 | h1
        · exact hw x h1
        · rw [List.mem_singleton.mp h1]; exact hc
    · rename_i hc
      have hc0 : r.2.count = 0 := by simpa using hc
      rw [hcq] at hstream2
      have hsl : SentinelLast ((encrypt_all bf ctx0 (chunks_from 1 source0)).2.map
          fun c => c.count) := by
        rw [encrypt_all_counts]; exact chunks_from_sentinelLast source0 hwf0 1
      have hnil : pcbuffer_contents r.1 ++ (σ.encPending ++
          (encrypt_all bf σ.ctx (pcbuffer_contents σ.incoming ++ σ.readerRest)).2) = [] :=
        sentinelLast_split (a := σ.popped_out) hsl (by rw [hstream2]; simp) hc0
      obtain ⟨hq0, hrest⟩ := List.append_eq_nil.mp hnil
      obtain ⟨hpend, hE⟩ := List.append_eq_nil.mp hrest
      have hIn : pcbuffer_contents σ.incoming ++ σ.readerRest = [] := by
        apply List.eq_nil_of_length_eq_zero
        rw [← encrypt_all_length bf _ σ.ctx, hE]; rfl
      have hed : σ.encryptor = .done := by
        cases hen : σ.encryptor with
        | at_pop =>
          simp only [hen] at he
          rw [hIn, List.append_nil] at hstream
          obtain ⟨c, hc1, hc2⟩ := chunks_from_has_sentinel source0 1
          rw [hstream] at hc1
          exact absurd hc2 (he c hc1)
        | at_push c => simp [Pipeline.encPending, hen] at hpend
        | at_last_push c => simp [Pipeline.encPending, hen] at hpend
        | done => rfl
      unfold Pipeline.Inv
      simp only [Pipeline.readerRest, Pipeline.encPending, hpc] at *
      refine ⟨hwf, hin, hokq, hall, hqi, henc, ?_, ?_, hr, he, ⟨hed, hq0⟩⟩
      · rw [hqo, hcq]; simp
      · rw [hsink, payloads_append_sentinel _ _ hc0]
  · exact absurd hs (by simp)

theorem pipeline_step_inv {κ : Type} (bf : κ → List Nat → κ × List Nat) (ctx0 : κ)
    (source0 : List ReadResult) (hwf0 : WellFormed source0) (σ : Pipeline κ) (t : Stage)
    (h : σ.Inv bf ctx0 source0) : ((σ.step bf t).getD σ).Inv bf ctx0 source0 := by
  cases hs : σ.step bf t with
  | none => simpa using h
  | some τ =>
    simp only [Option.getD_some]
    cases t with
    | reader => exact reader_thread_inv bf ctx0 source0 σ τ h hs
    | encryptor => exact encryptor_thread_inv bf ctx0 source0 hwf0 σ τ h hs
    | writer => exact writer_thread_inv bf ctx0 source0 hwf0 σ τ h hs

theorem pipeline_run_inv {κ : Type} (bf : κ → List Nat → κ × List Nat) (ctx0 : κ)
    (source0 : List ReadResult) (hwf0 : WellFormed source0) (sched : List Stage) :
    ∀ σ : Pipeline κ, σ.Inv bf ctx0 source0 → (σ.run bf sched).Inv bf ctx0 source0 := by
  induction sched with
  | nil => intro σ h; exact h
  | cons t rest ih =>
    intro σ h
    exact ih _ (pipeline_step_inv bf ctx0 source0 hwf0 σ t h)

/-! ### Progress and termination of the pipeline -/

theorem pcbuffer_push_used {α : Type} {p q : pcbuffer_t α} {x : α}
    (h : pcbuffer_push p x = some q) : q.used = p.used + 1 := by
  unfold pcbuffer_push at h
  simp only [Option.map_eq_some'] at h
  obtain ⟨f, _, rfl⟩ := h
  rfl

theorem pcbuffer_pop_used {α : Type} {p : pcbuffer_t α} {r : pcbuffer_t α × α}
    (h : pcbuffer_pop p = some r) : r.1.used + 1 = p.used := by
  unfold pcbuffer_pop sem_wait at h
  split at h
  · simp at h
  · simp only [Option.map_some', Option.some.injEq] at h
    subst h
    show p.used - 1 + 1 = p.used
    omega

theorem encrypt_all_has_sentinel {κ : Type} (bf : κ → List Nat → κ × List Nat) (ctx : κ)
    (source : List ReadResult) :
    ∃ c ∈ (encrypt_all bf ctx (chunks_from 1 source)).2, c.count = 0 := by
  obtain ⟨c, hc, h0⟩ := chunks_from_has_sentinel source 1
  have hm : c.count ∈ (chunks_from 1 source).map (fun c => c.count) := List.mem_map_of_mem _ hc
  rw [← encrypt_all_counts bf _ ctx] at hm
  obtain ⟨d, hd, hdc⟩ := List.mem_map.mp hm
  exact ⟨d, hd, by rw [hdc, h0]⟩

theorem pipeline_progress {κ : Type} (bf : κ → List Nat → κ × List Nat) (ctx0 : κ)
    (source0 : List ReadResult) (σ : Pipeline κ) (h : σ.Inv bf ctx0 source0)
    (hnd : ¬ σ.allDone) : ∃ t : Stage, (σ.step bf t).isSome = true := by
  have hstream := pipeline_incoming_stream bf ctx0 source0 σ h
  have hstream2 := pipeline_outgoing_stream bf ctx0 source0 σ h
  obtain ⟨hwf, hin, hout, hall, hqi, henc, hqo, hsink, hr, he, hw⟩ := h
  cases hwr : σ.writer with
  | done =>
    simp only [hwr] at hw
    have hed := hw.1
    simp only [hed] at he
    exact absurd ⟨he.1, hed, hwr⟩ hnd
  | at_pop =>
    simp only [hwr] at hw
    by_cases ho : pcbuffer_contents σ.outgoing = []
    · cases hen : σ.encryptor with
      | at_push c =>
        refine ⟨.encryptor, ?_⟩
        have := pcbuffer_push_isSome c hout (by rw [ho]; decide)
        simp only [Pipeline.step, encryptor_thread, hen, Option.isSome_map']
        exact this
      | at_last_push c =>
        refine ⟨.encryptor, ?_⟩
        have := pcbuffer_push_isSome c hout (by rw [ho]; decide)
        simp only [Pipeline.step, encryptor_thread, hen, Option.isSome_map']
        exact this
      | done =>
        simp only [hen] at he
        have hrr : σ.readerRest = [] := by simp [Pipeline.readerRest, he.1]
        rw [ho, he.2, hrr] at hstream2
        simp only [Pipeline.encPending, hen, List.append_nil, List.nil_append,
          encrypt_all] at hstream2
        obtain ⟨c, hc1, hc2⟩ := encrypt_all_has_sentinel bf ctx0 source0
        rw [hstream2] at hc1
        exact absurd hc2 (hw c hc1)
      | at_pop =>
        simp only [hen] at he
        by_cases hi : pcbuffer_contents σ.incoming = []
        · cases hrd : σ.reader with
          | at_read id =>
            exact ⟨.reader, by simp [Pipeline.step, reader_thread, hrd]⟩
          | at_push c =>
            refine ⟨.reader, ?_⟩
            have := pcbuffer_push_isSome c hin (by rw [hi]; decide)
            simp only [Pipeline.step, reader_thread, hrd, Option.isSome_map']
            exact this
          | at_last_push c =>
            refine ⟨.reader, ?_⟩
            have := pcbuffer_push_isSome c hin (by rw [hi]; decide)
            simp only [Pipeline.step, reader_thread, hrd, Option.isSome_map']
            exact this
          | done =>
            have hrr : σ.readerRest = [] := by simp [Pipeline.readerRest, hrd]
            rw [hi, hrr] at hstream
            simp only [List.append_nil] at hstream
            obtain ⟨c, hc1, hc2⟩ := chunks_from_has_sentinel source0 1
            rw [hstream] at hc1
            exact absurd hc2 (he c hc1)
        · refine ⟨.encryptor, ?_⟩
          have := pcbuffer_pop_isSome hi
          simp only [Pipeline.step, encryptor_thread, hen, Option.isSome_map']
          exact this
    · refine ⟨.writer, ?_⟩
      have := pcbuffer_pop_isSome ho
      simp only [Pipeline.step, writer_thread, hwr, Option.isSome_map']
      exact this

theorem pipeline_work_step {κ : Type} (bf : κ → List Nat → κ × List Nat) (ctx0 : κ)
    (source0 : List ReadResult) (σ τ : Pipeline κ) (t : Stage) (h : σ.Inv bf ctx0 source0)
    (hs : σ.step bf t = some τ) : τ.work + 1 = σ.work := by
  obtain ⟨hwf, _⟩ := h
  cases t with
  | reader =>
    simp only [Pipeline.step] at hs
    unfold reader_thread at hs
    split at hs
    · rename_i id hpc
      have hτ := Option.some.inj hs
      subst hτ
      cases hsrc : σ.source with
      | nil =>
        simp [Pipeline.work, Pipeline.readerRest, Pipeline.encPending, hpc, hsrc, read,
          chunks_from]
        omega
      | cons r rest =>
        have hr0 := (hwf r (by rw [hsrc]; exact List.mem_cons_self _ _)).1
        simp [Pipeline.work, Pipeline.readerRest, Pipeline.encPending, hpc, hsrc, read,
          chunks_from, hr0, chunks_from_length]
        omega
    · rename_i c hpc
      simp only [Option.map_eq_some'] at hs
      obtain ⟨q, hq, rfl⟩ := hs
      have := pcbuffer_push_used hq
      simp [Pipeline.work, Pipeline.readerRest, Pipeline.encPending, hpc, chunks_from_length,
        this]
      omega
    · rename_i c hpc
      simp only [Option.map_eq_some'] at hs
      obtain ⟨q, hq, rfl⟩ := hs
      have := pcbuffer_push_used hq
      simp [Pipeline.work, Pipeline.readerRest, Pipeline.encPending, hpc, this]
      omega
    · exact absurd hs (by simp)
  | encryptor =>
    simp only [Pipeline.step] at hs
    unfold encryptor_thread at hs
    split at hs
    · rename_i hpc
      simp only [Option.map_eq_some'] at hs
      obtain ⟨r, hpop, rfl⟩ := hs
      have := pcbuffer_pop_used hpop
      split <;>
        · simp only [Pipeline.work, Pipeline.readerRest, Pipeline.encPending, hpc,
            List.length_singleton, List.length_nil]
          omega
    · rename_i c hpc
      simp only [Option.map_eq_some'] at hs
      obtain ⟨q, hq, rfl⟩ := hs
      have := pcbuffer_push_used hq
      simp only [Pipeline.work, Pipeline.readerRest, Pipeline.encPending, hpc,
        List.length_singleton, List.length_nil, this]
      omega
    · rename_i c hpc
      simp only [Option.map_eq_some'] at hs
      obtain ⟨q, hq, rfl⟩ := hs
      have := pcbuffer_push_used hq
      simp only [Pipeline.work, Pipeline.readerRest, Pipeline.encPending, hpc,
        List.length_singleton, List.length_nil, this]
      omega
    · exact absurd hs (by simp)
  | writer =>
    simp only [Pipeline.step] at hs
    unfold writer_thread at hs
    split at hs
    · rename_i hpc
      simp only [Option.map_eq_some'] at hs
      obtain ⟨r, hpop, rfl⟩ := hs
      have := pcbuffer_pop_used hpop
      split <;>
        · simp only [Pipeline.work, Pipeline.readerRest, Pipeline.encPending]
          omega
    · exact absurd hs (by simp)

theorem pipeline_work_getD {κ : Type} (bf : κ → List Nat → κ × List Nat) (ctx0 : κ)
    (source0 : List ReadResult) (σ : Pipeline κ) (t : Stage) (h : σ.Inv bf ctx0 source0) :
    ((σ.step bf t).getD σ).work ≤ σ.work ∧
      ((σ.step bf t).isSome = true → ((σ.step bf t).getD σ).work < σ.work) := by
  cases hs : σ.step bf t with
  | none => simp
  | some τ =>
    have := pipeline_work_step bf ctx0 source0 σ τ t h hs
    simp only [Option.getD_some, Option.isSome_some, forall_true_left]
    omega

theorem pipeline_work_zero {κ : Type} (bf : κ → List Nat → κ × List Nat) (ctx0 : κ)
    (source0 : List ReadResult) (σ : Pipeline κ) (h : σ.Inv bf ctx0 source0)
    (h0 : σ.work = 0) : σ.allDone := by
  by_contra hnd
  obtain ⟨t, ht⟩ := pipeline_progress bf ctx0 source0 σ h hnd
  have := (pipeline_work_getD bf ctx0 source0 σ t h).2 ht
  omega

theorem pipeline_round {κ : Type} (bf : κ → List Nat → κ × List Nat) (ctx0 : κ)
    (source0 : List ReadResult) (hwf0 : WellFormed source0) (σ : Pipeline κ)
    (h : σ.Inv bf ctx0 source0) :
    (σ.run bf [.reader, .encryptor, .writer]).Inv bf ctx0 source0 ∧
      (σ.run bf [.reader, .encryptor, .writer]).work ≤ σ.work - 1 := by
  have h1 := pipeline_step_inv bf ctx0 source0 hwf0 σ .reader h
  have w1 := pipeline_work_getD bf ctx0 source0 σ .reader h
  have h2 := pipeline_step_inv bf ctx0 source0 hwf0 _ .encryptor h1
  have w2 := pipeline_work_getD bf ctx0 source0 _ .encryptor h1
  have h3 := pipeline_step_inv bf ctx0 source0 hwf0 _ .writer h2
  have w3 := pipeline_work_getD bf ctx0 source0 _ .writer h2
  refine ⟨h3, ?_⟩
  show ((((σ.step bf .reader).getD σ).step bf .encryptor |>.getD
      ((σ.step bf .reader).getD σ)).step bf .writer |>.getD _).work ≤ σ.work - 1
  by_cases hd : σ.allDone
  · obtain ⟨hrd, hed, hwd⟩ := hd
    have e1 : σ.step bf .reader = none := by simp [Pipeline.step, reader_thread, hrd]
    have e2 : σ.step bf .encryptor = none := by simp [Pipeline.step, encryptor_thread, hed]
    have e3 : σ.step bf .writer = none := by simp [Pipeline.step, writer_thread, hwd]
    have hw0 : σ.work = 0 := by
      obtain ⟨_, _, _, _, _, _, _, _, _, he, hw⟩ := h
      simp only [hed] at he
      simp only [hwd] at hw
      have l1 := pcbuffer_contents_length σ.incoming
      have l2 := pcbuffer_contents_length σ.outgoing
      rw [he.2] at l1
      rw [hw.2] at l2
      simp only [List.length_nil] at l1 l2
      simp [Pipeline.work, Pipeline.readerRest, Pipeline.encPending, hrd, hed, ← l1, ← l2]
    simp only [e1, Option.getD_none, e2, e3]
    omega
  · by_cases s1 : (σ.step bf .reader).isSome = true
    · have := w1.2 s1; omega
    · have e1 : σ.step bf .reader = none := by simpa using s1
      simp only [e1, Option.getD_none] at w2 w3 ⊢
      by_cases s2 : (σ.step bf .encryptor).isSome = true
      · have := w2.2 s2; omega
      · have e2 : σ.step bf .encryptor = none := by simpa using s2
        simp only [e2, Option.getD_none] at w3 ⊢
        obtain ⟨t, ht⟩ := pipeline_progress bf ctx0 source0 σ h hd
        cases t with
        | reader => rw [e1] at ht; simp at ht
        | encryptor => rw [e2] at ht; simp at ht
        | writer => have := w3.2 ht; omega

theorem pipeline_run_append {κ : Type} (bf : κ → List Nat → κ × List Nat) (a b : List Stage) :
    ∀ σ : Pipeline κ, σ.run bf (a ++ b) = (σ.run bf a).run bf b := by
  induction a with
  | nil => intro σ; rfl
  | cons t a ih => intro σ; exact ih _

theorem pipeline_roundRobin {κ : Type} (bf : κ → List Nat → κ × List Nat) (ctx0 : κ)
    (source0 : List ReadResult) (hwf0 : WellFormed source0) (k : Nat) :
    ∀ σ : Pipeline κ, σ.Inv bf ctx0 source0 → σ.work ≤ k →
      (σ.run bf (roundRobin k)).allDone := by
  induction k with
  | zero =>
    intro σ h hk
    exact pipeline_work_zero bf ctx0 source0 σ h (by omega)
  | succ k ih =>
    intro σ h hk
    obtain ⟨h3, w3⟩ := pipeline_round bf ctx0 source0 hwf0 σ h
    have := ih _ h3 (by omega)
    exact this

/-! ### What the pipeline writes -/

theorem payloads_append (a b : List file_chunk) : payloads (a ++ b) = payloads a ++ payloads b := by
  simp [payloads, List.filter_append]

theorem payloads_encrypt_all {κ : Type} (bf : κ → List Nat → κ × List Nat)
    (source : List ReadResult) (hwf : WellFormed source) :
    ∀ (ctx : κ) (id : Int),
      payloads (encrypt_all bf ctx (chunks_from id source)).2 = bfish_loop bf ctx source := by
  induction source with
  | nil => intro ctx id; simp [chunks_from, encrypt_all, payloads, bfish_loop]
  | cons r rest ih =>
    intro ctx id
    have hr0 := (hwf r (List.mem_cons_self _ _)).1
    have hr1 : r.count ≠ 0 := by omega
    have := ih (wellFormed_tail hwf) (BF_cfb64_encrypt bf ctx r.data r.count).1 (id + 1)
    simp only [chunks_from, encrypt_all, hr1, ne_eq, not_false_eq_true, if_true, bfish_loop, hr0]
    rw [← this]
    simp [payloads, List.filter_cons, encrypt_chunk, hr1, write_payload]

theorem pipeline_done_streams {κ : Type} (bf : κ → List Nat → κ × List Nat) (ctx0 : κ)
    (source0 : List ReadResult) (σ : Pipeline κ) (h : σ.Inv bf ctx0 source0)
    (hd : σ.allDone) :
    σ.pushed_in = chunks_from 1 source0 ∧ σ.popped_in = chunks_from 1 source0 ∧
    σ.pushed_out = (encrypt_all bf ctx0 (chunks_from 1 source0)).2 ∧
    σ.popped_out = (encrypt_all bf ctx0 (chunks_from 1 source0)).2 := by
  obtain ⟨hrd, hed, hwd⟩ := hd
  obtain ⟨_, _, _, hall, hqi, henc, hqo, _, _, he, hw⟩ := h
  simp only [hed] at he
  simp only [hwd] at hw
  simp only [Pipeline.readerRest, hrd, List.append_nil] at hall
  simp only [Pipeline.encPending, hed, List.append_nil] at henc
  rw [he.2, List.append_nil] at hqi
  rw [hw.2, List.append_nil] at hqo
  have h1 : σ.popped_in = chunks_from 1 source0 := by rw [← hqi, hall]
  have h2 : σ.pushed_out = (encrypt_all bf ctx0 (chunks_from 1 source0)).2 := by
    rw [← h1, henc]
  exact ⟨hall, h1, h2, by rw [← hqo, h2]⟩


/-! ### Claims on the pipeline -/

theorem bfish_loop_identity (source : List ReadResult) (hwf : WellFormed source) :
    ∀ ctx : Unit, (bfish_loop identity_transform ctx source).flatten = inputBytes source := by
  induction source with
  | nil => intro ctx; rfl
  | cons r rest ih =>
    intro ctx
    obtain ⟨hr0, _, hlen⟩ := hwf r (List.mem_cons_self _ _)
    have hn : r.count.toNat = r.data.length := by omega
    simp only [bfish_loop, hr0, if_true, List.flatten_cons, inputBytes, List.map_cons]
    have := ih (wellFormed_tail hwf) ctx
    simp only [inputBytes] at this
    simp [BF_cfb64_encrypt, identity_transform, write, hn, this]

theorem pipeline_sink_sofar {κ : Type} (bf : κ → List Nat → κ × List Nat) (ctx0 : κ)
    (source0 : List ReadResult) (hwf0 : WellFormed source0) (σ : Pipeline κ)
    (h : σ.Inv bf ctx0 source0) :
    ∃ rest, bfish_loop bf ctx0 source0 = σ.sink ++ rest := by
  have hs := pipeline_outgoing_stream bf ctx0 source0 σ h
  have hp := payloads_encrypt_all bf source0 hwf0 ctx0 1
  obtain ⟨_, _, _, _, _, _, _, hsink, _⟩ := h
  rw [hs, payloads_append, ← hsink] at hp
  exact ⟨_, hp.symm⟩

theorem pipeline_sink_done {κ : Type} (bf : κ → List Nat → κ × List Nat) (ctx0 : κ)
    (source0 : List ReadResult) (hwf0 : WellFormed source0) (σ : Pipeline κ)
    (h : σ.Inv bf ctx0 source0) (hd : σ.allDone) :
    σ.sink = bfish_loop bf ctx0 source0 := by
  have hp := payloads_encrypt_all bf source0 hwf0 ctx0 1
  have hs := (pipeline_done_streams bf ctx0 source0 σ h hd).2.2.2
  obtain ⟨_, _, _, _, _, _, _, hsink, _⟩ := h
  rw [hsink, hs, hp]

/-- C18. The three-stage pipeline refines the single-threaded program: for
every source of successful reads, every transform `bf` with its context
carried from chunk to chunk, and every schedule of the three threads, the
payloads written so far are a prefix of what the loop of bfish.c writes; the
chunks handed on by the encryptor are the popped chunks transformed once each,
in order, on the one context, the chunk with count 0 untouched; when the three
threads have returned the payloads written are exactly those of bfish.c;
and letting the threads take turns for as many rounds as there is work left
brings all three to their return. -/
theorem pipeline_refines_bfish {κ : Type} (bf : κ → List Nat → κ × List Nat) (ctx : κ)
    (source : List ReadResult) (p q : pcbuffer_t file_chunk) (sched : List Stage)
    (hwf : WellFormed source) :
    (∃ rest, bfish_loop bf ctx source =
        ((Pipeline.init source ctx p q).run bf sched).sink ++ rest) ∧
    encrypt_all bf ctx ((Pipeline.init source ctx p q).run bf sched).popped_in =
        (((Pipeline.init source ctx p q).run bf sched).ctx,
          ((Pipeline.init source ctx p q).run bf sched).pushed_out ++
            ((Pipeline.init source ctx p q).run bf sched).encPending) ∧
    (((Pipeline.init source ctx p q).run bf sched).allDone →
        ((Pipeline.init source ctx p q).run bf sched).sink = bfish_loop bf ctx source) ∧
    (((Pipeline.init source ctx p q).run bf sched).run bf
        (roundRobin ((Pipeline.init source ctx p q).run bf sched).work)).allDone ∧
    (((Pipeline.init source ctx p q).run bf sched).run bf
        (roundRobin ((Pipeline.init source ctx p q).run bf sched).work)).sink =
      bfish_loop bf ctx source := by
  have hinv := pipeline_run_inv bf ctx source hwf sched _
    (pipeline_init_inv bf ctx source p q hwf)
  generalize (Pipeline.init source ctx p q).run bf sched = σ at *
  have hfin := pipeline_run_inv bf ctx source hwf (roundRobin σ.work) σ hinv
  have hdone := pipeline_roundRobin bf ctx source hwf σ.work σ hinv (le_refl _)
  exact ⟨pipeline_sink_sofar bf ctx source hwf σ hinv, hinv.2.2.2.2.2.1,
    pipeline_sink_done bf ctx source hwf σ hinv, hdone,
    pipeline_sink_done bf ctx source hwf _ hfin hdone⟩

/-- Witness of C18: the two-read source, the identity transform, the reader
run ahead by two steps; the completed run writes what bfish.c writes. -/
theorem pipeline_refines_bfish_witness :
    WellFormed demoSource ∧
    (((Pipeline.init demoSource () pcbuffer_blank pcbuffer_blank).run identity_transform
        [.reader, .reader]).run identity_transform
      (roundRobin ((Pipeline.init demoSource () pcbuffer_blank pcbuffer_blank).run
        identity_transform [.reader, .reader]).work)).sink =
      bfish_loop identity_transform () demoSource :=
  have hwf : WellFormed demoSource := by
    intro r hr
    simp only [demoSource, List.mem_cons, List.mem_singleton, List.not_mem_nil, or_false] at hr
    rcases hr with rfl | rfl <;> decide
  ⟨hwf, (pipeline_refines_bfish identity_transform () demoSource pcbuffer_blank pcbuffer_blank
    [.reader, .reader] hwf).2.2.2.2⟩

/-- C13. Pipeline end-to-end identity: for every input delivered by successive
reads as chunks of 1 to 4096 bytes followed by a read that returns 0 (an empty
list of reads is the input of 0 bytes), with the identity transform and every
write succeeding in full, under every schedule the bytes written so far are a
prefix of the input; a state in which not all three threads have returned has
a thread that can step, and every step uses up one unit of the finite work
left, so the threads terminate; when they have returned, and in particular
after they have taken turns for as many rounds as there is work left, the
bytes written are exactly the input. -/
theorem pipeline_identity (source : List ReadResult) (p q : pcbuffer_t file_chunk)
    (sched : List Stage) (hwf : WellFormed source) :
    (∃ rest, inputBytes source =
        ((Pipeline.init source () p q).run identity_transform sched).sink.flatten ++ rest) ∧
    (((Pipeline.init source () p q).run identity_transform sched).allDone →
        ((Pipeline.init source () p q).run identity_transform sched).sink.flatten =
          inputBytes source) ∧
    (¬ ((Pipeline.init source () p q).run identity_transform sched).allDone →
        ∃ t : Stage,
          (((Pipeline.init source () p q).run identity_transform sched).step
            identity_transform t).isSome = true) ∧
    (∀ (t : Stage) (τ : Pipeline Unit),
        ((Pipeline.init source () p q).run identity_transform sched).step identity_transform t =
          some τ →
        τ.work + 1 = ((Pipeline.init source () p q).run identity_transform sched).work) ∧
    (((Pipeline.init source () p q).run identity_transform sched).run identity_transform
        (roundRobin ((Pipeline.init source () p q).run identity_transform sched).work)).allDone ∧
    (((Pipeline.init source () p q).run identity_transform sched).run identity_transform
        (roundRobin ((Pipeline.init source () p q).run identity_transform sched).work)).sink.flatten =
      inputBytes source := by
  have hinv := pipeline_run_inv identity_transform () source hwf sched _
    (pipeline_init_inv identity_transform () source p q hwf)
  generalize (Pipeline.init source () p q).run identity_transform sched = σ at *
  have hfin := pipeline_run_inv identity_transform () source hwf (roundRobin σ.work) σ hinv
  have hdone := pipeline_roundRobin identity_transform () source hwf σ.work σ hinv (le_refl _)
  have hid := bfish_loop_identity source hwf ()
  refine ⟨?_, ?_, ?_, ?_, hdone, ?_⟩
  · obtain ⟨rest, hrest⟩ := pipeline_sink_sofar identity_transform () source hwf σ hinv
    refine ⟨rest.flatten, ?_⟩
    rw [← hid, hrest, List.flatten_append]
  · intro hd
    rw [pipeline_sink_done identity_transform () source hwf σ hinv hd, hid]
  · exact pipeline_progress identity_transform () source σ hinv
  · intro t τ hs
    exact pipeline_work_step identity_transform () source σ τ t hinv hs
  · rw [pipeline_sink_done identity_transform () source hwf _ hfin hdone, hid]

/-- Witness of C13: the two-read input of 5 bytes, taken up in mid-run (the
encryptor holds the first chunk, nothing is written yet): some thread can
step, and the run completed by round-robin has all three threads returned and
has written exactly the 5 input bytes; the empty input is written out as the
empty output. -/
theorem pipeline_identity_witness :
    WellFormed demoSource ∧
    ¬ ((Pipeline.init demoSource () pcbuffer_blank pcbuffer_blank).run identity_transform
        demoSchedule).allDone ∧
    ((Pipeline.init demoSource () pcbuffer_blank pcbuffer_blank).run identity_transform
        demoSchedule).sink = [] ∧
    (∃ t : Stage,
      (((Pipeline.init demoSource () pcbuffer_blank pcbuffer_blank).run identity_transform
        demoSchedule).step identity_transform t).isSome = true) ∧
    (((Pipeline.init demoSource () pcbuffer_blank pcbuffer_blank).run identity_transform
        demoSchedule).run identity_transform
      (roundRobin ((Pipeline.init demoSource () pcbuffer_blank pcbuffer_blank).run
        identity_transform demoSchedule).work)).allDone ∧
    (((Pipeline.init demoSource () pcbuffer_blank pcbuffer_blank).run identity_transform
        demoSchedule).run identity_transform
      (roundRobin ((Pipeline.init demoSource () pcbuffer_blank pcbuffer_blank).run
        identity_transform demoSchedule).work)).sink.flatten = [10, 20, 30, 40, 50] ∧
    (((Pipeline.init [] () pcbuffer_blank pcbuffer_blank).run identity_transform []).run
        identity_transform
        (roundRobin ((Pipeline.init [] () pcbuffer_blank pcbuffer_blank).run
          identity_transform []).work)).sink.flatten = [] :=
  have hwf : WellFormed demoSource := by
    intro r hr
    simp only [demoSource, List.mem_cons, List.mem_singleton, List.not_mem_nil, or_false] at hr
    rcases hr with rfl | rfl <;> decide
  have hwf0 : WellFormed [] := fun r hr => absurd hr (List.not_mem_nil r)
  have hnd : ¬ ((Pipeline.init demoSource () pcbuffer_blank pcbuffer_blank).run
      identity_transform demoSchedule).allDone := by
    unfold Pipeline.allDone; decide
  have hbytes : inputBytes demoSource = [10, 20, 30, 40, 50] := by decide
  have hbytes0 : inputBytes [] = [] := by decide
  ⟨hwf, hnd, by decide,
    (pipeline_identity demoSource pcbuffer_blank pcbuffer_blank demoSchedule hwf).2.2.1 hnd,
    (pipeline_identity demoSource pcbuffer_blank pcbuffer_blank demoSchedule hwf).2.2.2.2.1,
    (pipeline_identity demoSource pcbuffer_blank pcbuffer_blank demoSchedule hwf).2.2.2.2.2.trans
      hbytes,
    (pipeline_identity [] pcbuffer_blank pcbuffer_blank [] hwf0).2.2.2.2.2.trans hbytes0⟩

theorem noSentinel_step {κ : Type} (bf : κ → List Nat → κ × List Nat) (σ : Pipeline κ)
    (t : Stage) (h : σ.NoSentinel) : ((σ.step bf t).getD σ).NoSentinel := by
  cases hs : σ.step bf t with
  | none => simpa using h
  | some τ =>
    simp only [Option.getD_some]
    obtain ⟨hin, hout, hci, hco, hpi, hr, he, hw⟩ := h
    cases t with
    | reader =>
      simp only [Pipeline.step] at hs
      unfold reader_thread at hs
      split at hs
      · rename_i id hpc
        have hτ := Option.some.inj hs
        subst hτ
        simp only [hpc] at hr
        unfold Pipeline.NoSentinel
        simp only [hr, failingSource, read]
        have hneg : ¬ ((-1 : Int) > 0) := by decide
        rw [if_neg hneg]
        exact ⟨hin, hout, hci, hco, hpi, by show (-1 : Int) ≠ 0; decide, he, hw⟩
      · rename_i c hpc
        simp only [hpc] at hr
      · rename_i c hpc
        simp only [hpc] at hr
        simp only [Option.map_eq_some'] at hs
        obtain ⟨q, hq, rfl⟩ := hs
        obtain ⟨hokq, hcq⟩ := pcbuffer_push_some hin hq
        unfold Pipeline.NoSentinel
        refine ⟨hokq, hout, ?_, hco, ?_, trivial, he, hw⟩
        · intro x hx
          rw [hcq] at hx
          rcases List.mem_append.mp hx with h1 | h1
          · exact hci x h1
          · rw [List.mem_singleton.mp h1]; exact hr
        · intro x hx
          rcases List.mem_append.mp hx with h1 | h1
          · exact hpi x h1
          · rw [List.mem_singleton.mp h1]; exact hr
      · exact absurd hs (by simp)
    | encryptor =>
      simp only [Pipeline.step] at hs
      unfold encryptor_thread at hs
      split at hs
      · rename_i hpc
        simp only [Option.map_eq_some'] at hs
        obtain ⟨r, hpop, rfl⟩ := hs
        obtain ⟨hokq, hcq⟩ := pcbuffer_pop_some hin hpop
        have hr2 : r.2.count ≠ 0 := hci r.2 (by rw [hcq]; exact List.mem_cons_self _ _)
        rw [if_pos hr2]
        unfold Pipeline.NoSentinel
        refine ⟨hokq, hout, ?_, hco, hpi, hr, hr2, hw⟩
        intro x hx
        exact hci x (by rw [hcq]; exact List.mem_cons_of_mem _ hx)
      · rename_i c hpc
        simp only [hpc] at he
        simp only [Option.map_eq_some'] at hs
        obtain ⟨q, hq, rfl⟩ := hs
        obtain ⟨hokq, hcq⟩ := pcbuffer_push_some hout hq
        unfold Pipeline.NoSentinel
        refine ⟨hin, hokq, hci, ?_, hpi, hr, trivial, hw⟩
        intro x hx
        rw [hcq] at hx
        rcases List.mem_append.mp hx with h1 | h1
        · exact hco x h1
        · rw [List.mem_singleton.mp h1]; exact he
      · rename_i c hpc
        simp only [hpc] at he
      · exact absurd hs (by simp)
    | writer =>
      simp only [Pipeline.step] at hs
      unfold writer_thread at hs
      split at hs
      · rename_i hpc
        simp only [Option.map_eq_some'] at hs
        obtain ⟨r, hpop, rfl⟩ := hs
        obtain ⟨hokq, hcq⟩ := pcbuffer_pop_some hout hpop
        have hr2 : r.2.count ≠ 0 := hco r.2 (by rw [hcq]; exact List.mem_cons_self _ _)
        rw [if_pos hr2]
        unfold Pipeline.NoSentinel
        refine ⟨hin, hokq, hci, ?_, hpi, hr, he, hw⟩
        intro x hx
        exact hco x (by rw [hcq]; exact List.mem_cons_of_mem _ hx)
      · exact absurd hs (by simp)

theorem noSentinel_run {κ : Type} (bf : κ → List Nat → κ × List Nat) (sched : List Stage) :
    ∀ σ : Pipeline κ, σ.NoSentinel → (σ.run bf sched).NoSentinel := by
  induction sched with
  | nil => intro σ h; exact h
  | cons t rest ih => intro σ h; exact ih _ (noSentinel_step bf σ t h)

/-- C15 at the failing input. When the first `read` fails (returns -1), then
for every transform and under every schedule: no chunk the reader pushes to
`incoming` has `count == 0` (its last push carries `count == -1`), and the
encryptor and the writer never return; after three rounds of the threads
taking turns the reader has returned and the other two are blocked in
`pcbuffer_pop` for good. -/
theorem read_failure_blocks_pipeline {κ : Type} (bf : κ → List Nat → κ × List Nat) (ctx : κ)
    (p q : pcbuffer_t file_chunk) (sched : List Stage) :
    (∀ c ∈ ((Pipeline.init failingSource ctx p q).run bf sched).pushed_in, c.count ≠ 0) ∧
    ((Pipeline.init failingSource ctx p q).run bf sched).encryptor ≠ .done ∧
    ((Pipeline.init failingSource ctx p q).run bf sched).writer ≠ .done ∧
    ¬ ((Pipeline.init failingSource ctx p q).run bf sched).allDone ∧
    ((Pipeline.init failingSource () pcbuffer_blank pcbuffer_blank).run identity_transform
        (roundRobin 3)).pushed_in = [{ buffer := [], count := -1, ID := 1 }] ∧
    ((Pipeline.init failingSource () pcbuffer_blank pcbuffer_blank).run identity_transform
        (roundRobin 3)).reader = .done ∧
    (∀ t : Stage,
      (((Pipeline.init failingSource () pcbuffer_blank pcbuffer_blank).run identity_transform
        (roundRobin 3)).step identity_transform t).isSome = false) := by
  have h0 : (Pipeline.init failingSource ctx p q).NoSentinel := by
    unfold Pipeline.NoSentinel Pipeline.init
    refine ⟨(pcbuffer_init_ok p).1, (pcbuffer_init_ok q).1, ?_, ?_, ?_, rfl, trivial, rfl⟩
    · simp [(pcbuffer_init_ok p).2]
    · simp [(pcbuffer_init_ok q).2]
    · simp
  have h := noSentinel_run bf sched _ h0
  generalize (Pipeline.init failingSource ctx p q).run bf sched = σ at *
  obtain ⟨_, _, _, _, hpi, _, he, hw⟩ := h
  have hed : σ.encryptor ≠ .done := by
    intro hd; simp only [hd] at he
  have hwd : σ.writer ≠ .done := by
    rw [hw]; simp
  refine ⟨hpi, hed, hwd, fun hd => hed hd.2.1, by decide, by decide, ?_⟩
  intro t
  cases t <;> decide


end TutorialPthread
